import Mathlib

/-!
# signalsmith-clap `NoteManager`: a shallow embedding

Embedding of `include/signalsmith-clap/note-manager.h`.

Conventions of the embedding

* `std::vector` is a `List`; `push_back x` is `l ++ [x]`, `back()` is the last
  element, `pop_back()` is `dropLast`.
* `double` fields are exact rationals.  The `float` kill cost is computed as the source
  does, every conversion and operation rounded to IEEE binary32 (`roundF32`).
* `uint32_t` sample times are naturals below `2^32`; the one subtraction the
  source performs on them wraps (`sub32`).
* `size_t` is 64 bits wide: `size_t(-1)` is `2^64 - 1`.  `age` only ever
  accumulates sample counts and is kept as a natural number.
* `int16_t` / `int32_t` fields are integers.
* A `Note &` parameter that the source writes to is returned next to the
  manager; the `clap_output_events` sink is the list of events pushed to it.
* Undefined behaviour of the source (indexing an empty vector, `back()` of an
  empty vector, an expression id outside the 7 columns of the channel table) and
  a reallocating `push_back` (which would change `capacity()`) make the
  embedded operation return `none`.
-/

namespace Signalsmith

/-! ## CLAP events (`clap/events.h`) -/

/-- Value of `CLAP_CORE_EVENT_SPACE_ID`. -/
def CLAP_CORE_EVENT_SPACE_ID : Nat := 0

/-- Value of `CLAP_EVENT_DONT_RECORD`. -/
def CLAP_EVENT_DONT_RECORD : Nat := 2

def CLAP_NOTE_EXPRESSION_VOLUME : Int := 0
def CLAP_NOTE_EXPRESSION_PAN : Int := 1
def CLAP_NOTE_EXPRESSION_TUNING : Int := 2
def CLAP_NOTE_EXPRESSION_VIBRATO : Int := 3
def CLAP_NOTE_EXPRESSION_EXPRESSION : Int := 4
def CLAP_NOTE_EXPRESSION_BRIGHTNESS : Int := 5
def CLAP_NOTE_EXPRESSION_PRESSURE : Int := 6

/-- The event types the note manager distinguishes; every other `type` value is `OTHER`. -/
inductive clap_event_type where
  | CLAP_EVENT_NOTE_ON
  | CLAP_EVENT_NOTE_OFF
  | CLAP_EVENT_NOTE_CHOKE
  | CLAP_EVENT_NOTE_END
  | CLAP_EVENT_NOTE_EXPRESSION
  | CLAP_EVENT_MIDI
  | OTHER
  deriving DecidableEq, Repr

/-- The fields of `clap_event_header` the manager reads or writes (`size` is not modelled). -/
structure clap_event_header where
  time : Nat
  space_id : Nat
  type : clap_event_type
  flags : Nat
  deriving DecidableEq, Repr

structure clap_event_note where
  header : clap_event_header
  note_id : Int
  port_index : Int
  channel : Int
  key : Int
  velocity : ℚ
  deriving DecidableEq, Repr

structure clap_event_note_expression where
  header : clap_event_header
  expression_id : Int
  note_id : Int
  port_index : Int
  channel : Int
  key : Int
  value : ℚ
  deriving DecidableEq, Repr

/-- A legacy event: `port_index` is a `uint16_t`, `data` three bytes. -/
structure clap_event_midi where
  header : clap_event_header
  port_index : Nat
  data0 : Nat
  data1 : Nat
  data2 : Nat
  deriving DecidableEq, Repr

/-- What a `const clap_event_header *` points to: the header together with the payload
that the source reaches by casting the pointer.  In an event a host sends, `header.type` is
one of the four note types for `note`, `CLAP_EVENT_NOTE_EXPRESSION` for `noteExpression`,
`CLAP_EVENT_MIDI` for `midi` and `OTHER` for `other`. -/
inductive ClapEvent where
  | note (e : clap_event_note)
  | noteExpression (e : clap_event_note_expression)
  | midi (e : clap_event_midi)
  | other (h : clap_event_header)
  deriving DecidableEq, Repr

def ClapEvent.header : ClapEvent → clap_event_header
  | .note e => e.header
  | .noteExpression e => e.header
  | .midi e => e.header
  | .other h => h

/-! ## Machine arithmetic -/

/-- Subtraction of two `uint32_t` values. -/
def sub32 (a b : Nat) : Nat := (a + 4294967296 - b % 4294967296) % 4294967296

/-- The value of `size_t(-1)`. -/
def SIZE_MAX : Nat := 18446744073709551615

/-- Conversion `int16_t(x)` of an unsigned 16-bit value. -/
def toInt16 (x : Nat) : Int :=
  if x % 65536 < 32768 then ((x % 65536 : Nat) : Int) else ((x % 65536 : Nat) : Int) - 65536

/-- Search for the position of the leading bit of `n`, with `fuel` steps allowed. -/
def log2Fuel : Nat → Nat → Nat
  | 0, _ => 0
  | fuel + 1, n => if 2 ≤ n then log2Fuel fuel (n / 2) + 1 else 0

/-- The position of the leading bit of `n`: `2 ^ ilog2 n ≤ n < 2 ^ (ilog2 n + 1)` for
`n ≥ 1`. -/
def ilog2 (n : Nat) : Nat := log2Fuel n n

/-- The binary exponent of a positive rational: the `e` with `2 ^ e ≤ x < 2 ^ (e + 1)`. -/
def binade (x : ℚ) : Int :=
  if (2 : ℚ) ^ ((ilog2 x.num.natAbs : Int) - (ilog2 x.den : Int)) ≤ x then
    (ilog2 x.num.natAbs : Int) - (ilog2 x.den : Int)
  else (ilog2 x.num.natAbs : Int) - (ilog2 x.den : Int) - 1

/-- Rounding of a rational to the nearest integer, a tie going to the even one. -/
def roundNearestEven (q : ℚ) : Int :=
  if q - ⌊q⌋ < 1 / 2 then ⌊q⌋
  else if 1 / 2 < q - ⌊q⌋ then ⌊q⌋ + 1
  else if ⌊q⌋ % 2 = 0 then ⌊q⌋ else ⌊q⌋ + 1

/-- The value of the `float` (IEEE binary32, round to nearest, ties to even) nearest to `x`:
24 significant bits.  The exponent range of binary32 is not modelled. -/
def roundF32 (x : ℚ) : ℚ :=
  if x = 0 then 0
  else
    (if x < 0 then -1 else 1) * (roundNearestEven (|x| / 2 ^ (binade |x| - 23)) : ℚ) *
      2 ^ (binade |x| - 23)

/-! ## Notes -/

/-- The enum `NoteManager::State`, in its declared order. -/
inductive State where
  | stateDown
  | stateLegato
  | stateContinue
  | stateUp
  | stateRelease
  | stateKill
  deriving DecidableEq, Repr

/-- The cast `(int)state`. -/
def State.toInt : State → Int
  | .stateDown => 0
  | .stateLegato => 1
  | .stateContinue => 2
  | .stateUp => 3
  | .stateRelease => 4
  | .stateKill => 5

/-- The struct `NoteManager::Note`. -/
structure Note where
  voiceIndex : Nat
  key : ℚ
  velocity : ℚ
  volume : ℚ := 1
  pan : ℚ := 1 / 2
  mod : ℚ := 0
  expression : ℚ := 1
  brightness : ℚ := 1 / 2
  pressure : ℚ := 1
  port : Int
  channel : Int
  state : State
  processFrom : Nat
  processTo : Nat
  noteId : Int
  baseKey : Int
  age : Nat := 0
  deriving DecidableEq, Repr

/-- The struct `NoteManager::NoteMod`. -/
structure NoteMod where
  time : Nat
  expression : Int
  value : ℚ
  port : Int
  channel : Int
  noteId : Int
  baseKey : Int
  deriving DecidableEq, Repr

/-- The private constructor `Note(voiceIndex, e, state)`. -/
def Note.ofEvent (voiceIndex : Nat) (e : clap_event_note) (state : State) : Note :=
  { voiceIndex := voiceIndex
    key := e.key
    velocity := e.velocity
    port := e.port_index
    channel := e.channel
    state := state
    processFrom := e.header.time
    processTo := e.header.time
    noteId := e.note_id
    baseKey := e.key }

def Note.released (n : Note) : Bool :=
  n.state == .stateUp || n.state == .stateRelease || n.state == .stateKill

/-- The overload `Note::match(const Note &other)`: `other` may contain wildcards (-1). -/
def Note.matchNote (n other : Note) : Bool :=
  if other.noteId ≠ -1 then n.noteId == other.noteId
  else if n.released then false
  else if other.port ≠ -1 ∧ other.port ≠ n.port then false
  else if other.channel ≠ -1 ∧ other.channel ≠ n.channel then false
  else if other.baseKey ≠ -1 ∧ other.baseKey ≠ n.baseKey then false
  else true

/-- The overload `Note::match(const NoteMod &noteMod)`. -/
def Note.matchNoteMod (n : Note) (noteMod : NoteMod) : Bool :=
  if noteMod.noteId ≠ -1 then n.noteId == noteMod.noteId
  else if n.released then false
  else if noteMod.port ≠ -1 ∧ noteMod.port ≠ n.port then false
  else if noteMod.channel ≠ -1 ∧ noteMod.channel ≠ n.channel then false
  else if noteMod.baseKey ≠ -1 ∧ noteMod.baseKey ≠ n.baseKey then false
  else true

/-- The cost `Note::killCost`, `1.0f/(age + 1) + 10 - (int)state`, evaluated in `float` as
the source does: `age + 1` is converted to `float`, and the division, the addition and the
subtraction are each rounded to `float`.  For an age below `2^64` every value is in the normal
range of binary32. -/
def Note.killCost (n : Note) : ℚ :=
  roundF32
    (roundF32 (roundF32 (1 / roundF32 ((n.age + 1 : Nat) : ℚ)) + 10) - (n.state.toInt : ℚ))

/-- The part `1.0f/(age + 1) + 10` of the kill cost, in `float`. -/
def killCostBase (age : Nat) : ℚ :=
  roundF32 (roundF32 (1 / roundF32 ((age + 1 : Nat) : ℚ)) + 10)

/-- The method `Note::ageAt`. -/
def Note.ageAt (n : Note) (timeInBlock : Nat) : Nat :=
  n.age + sub32 timeInBlock n.processFrom

/-- The method `NoteMod::applyTo`: only tuning changes the note. -/
def NoteMod.applyTo (noteMod : NoteMod) (note : Note) : Note :=
  if noteMod.expression = CLAP_NOTE_EXPRESSION_TUNING then
    { note with key := (note.baseKey : ℚ) + noteMod.value }
  else note

/-! ## The manager -/

/-- The data members of `NoteManager`.  `capacity` is `notes.capacity()`, fixed by the
`reserve` of the constructor; the scratch union of `translateEvent` is not state. -/
structure NoteManager where
  pitchWheelRange : ℚ
  capacity : Nat
  notes : List Note
  tasks : List Note
  voiceIndexQueue : List Nat
  internalNoteId : Nat
  channelNoteExpressions : Fin 16 → Fin 7 → ℚ

namespace NoteManager

def polyphony (m : NoteManager) : Nat := m.capacity

/-- The row written into every channel by `reset`, indexed by expression id. -/
def defaultNoteExpressions (e : Fin 7) : ℚ :=
  match e with
  | 0 => 1
  | 1 => 1 / 2
  | 2 => 0
  | 3 => 0
  | 4 => 1
  | 5 => 1 / 2
  | 6 => 1

/-- The loop of `reset` that refills the free-list: `polyphony() - 1 - i` for `i = 0, 1, ...`. -/
def resetQueue (polyphony : Nat) : List Nat :=
  (List.range polyphony).map (fun i => polyphony - 1 - i)

def reset (m : NoteManager) : NoteManager :=
  { m with
    notes := []
    tasks := []
    channelNoteExpressions := fun _ => defaultNoteExpressions
    voiceIndexQueue := resetQueue m.polyphony }

/-- The constructor `NoteManager(polyphony, pitchWheelRange)`. -/
def create (polyphony : Nat) (pitchWheelRange : ℚ) : NoteManager :=
  reset
    { pitchWheelRange := pitchWheelRange
      capacity := polyphony
      notes := []
      tasks := []
      voiceIndexQueue := []
      internalNoteId := 2
      channelNoteExpressions := fun _ _ => 0 }

def startBlock (m : NoteManager) : NoteManager :=
  { m with
    tasks := []
    notes := m.notes.map (fun n => { n with processFrom := 0, processTo := 0 }) }

/-- The body of the loop of `processTo` for one note: the note afterwards and the tasks pushed. -/
def processToNote (frames : Nat) (n : Note) : Note × List Note :=
  if n.processFrom < frames then
    let n1 := { n with processTo := frames }
    let n2 := { n1 with age := n1.age + sub32 n1.processTo n1.processFrom }
    let n3 := { n2 with processFrom := frames }
    let n4 :=
      if n3.state = .stateDown ∨ n3.state = .stateLegato then { n3 with state := .stateContinue }
      else if n3.state = .stateUp then { n3 with state := .stateRelease }
      else n3
    (n4, [n1])
  else (n, [])

def processTo (m : NoteManager) (frames : Nat) : NoteManager :=
  { m with
    notes := m.notes.map (fun n => (processToNote frames n).1)
    tasks := (m.notes.map (fun n => (processToNote frames n).2)).flatten }

/-- The method `addTask(n, processTo, noStateChange)`: the note afterwards and the tasks
pushed. -/
def addTask (n : Note) (processTo : Nat) (noStateChange : Bool) : Note × List Note :=
  if n.processFrom ≥ processTo ∧
      (noStateChange = true ∨ n.state = .stateContinue ∨ n.state = .stateRelease) then (n, [])
  else
    let n1 := { n with processTo := processTo }
    let n2 := { n1 with age := n1.age + sub32 processTo n1.processFrom }
    ({ n2 with processFrom := processTo }, [n1])

/-- The method `sendNoteEnd`: the events pushed to `eventsOut`. -/
def sendNoteEnd (n : Note) : List clap_event_note :=
  if n.noteId ≥ 0 then
    [{ header :=
        { time := n.processFrom
          space_id := CLAP_CORE_EVENT_SPACE_ID
          type := .CLAP_EVENT_NOTE_END
          flags := CLAP_EVENT_DONT_RECORD }
       note_id := n.noteId
       port_index := n.port
       channel := n.port
       key := n.baseKey
       velocity := 0 }]
  else []

def ignore (_m : NoteManager) (newNote : Note) : List clap_event_note :=
  sendNoteEnd newNote

/-- Conversion `int32_t(x)` of a `uint32_t`. -/
def toInt32 (x : Nat) : Int :=
  if x % 4294967296 < 2147483648 then ((x % 4294967296 : Nat) : Int)
  else ((x % 4294967296 : Nat) : Int) - 4294967296

/-- The method `nextNoteId`: the note with its assigned id, and the manager with the advanced
counter. -/
def nextNoteId (m : NoteManager) (newNote : Note) : Note × NoteManager :=
  let note := { newNote with noteId := -(toInt32 m.internalNoteId) }
  let next := (m.internalNoteId + 1) % 4294967296
  (note, { m with internalNoteId := if next ≥ 2147483647 then 2 else next })

/-- Read of `channelNoteExpressions[channel][e]` for a channel already checked to be in range. -/
def channelNoteExpression (m : NoteManager) (channel : Int) (e : Fin 7) : ℚ :=
  if h : 0 ≤ channel ∧ channel < 16 then
    m.channelNoteExpressions ⟨channel.toNat, by omega⟩ e
  else 0

def applyChannelNoteExpressions (m : NoteManager) (note : Note) : Note :=
  if note.channel < 0 ∨ note.channel ≥ 16 then note
  else
    { note with
      volume := m.channelNoteExpression note.channel 0
      pan := m.channelNoteExpression note.channel 1
      key := note.key + m.channelNoteExpression note.channel 2
      mod := m.channelNoteExpression note.channel 3
      expression := m.channelNoteExpression note.channel 4
      brightness := m.channelNoteExpression note.channel 5
      pressure := m.channelNoteExpression note.channel 6 }

/-- The method `translateEvent`: a legacy (MIDI) event is rewritten as a note or note-expression event,
every other event is returned as it is.  `stdPow` is `std::pow` of `<cmath>`. -/
def translateEvent (stdPow : ℚ → ℚ → ℚ) (m : NoteManager) (event : ClapEvent) : ClapEvent :=
  match event with
  | .midi midiEvent =>
    if midiEvent.header.type ≠ .CLAP_EVENT_MIDI then event
    else
      let eventType := midiEvent.data0 &&& 0xF0
      let channel := midiEvent.data0 &&& 0x0F
      if eventType = 0x80 ∨ eventType = 0x90 then
        .note
          { header :=
              { midiEvent.header with
                type := if eventType = 0x90 then .CLAP_EVENT_NOTE_ON else .CLAP_EVENT_NOTE_OFF }
            note_id := -1
            port_index := toInt16 midiEvent.port_index
            channel := channel
            key := toInt16 midiEvent.data1
            velocity := (midiEvent.data2 : ℚ) / 127 }
      else if eventType = 0xC0 then event
      else
        let noteExprEvent : clap_event_note_expression :=
          { header := { midiEvent.header with type := .CLAP_EVENT_NOTE_EXPRESSION }
            expression_id := -1
            note_id := -1
            port_index := toInt16 midiEvent.port_index
            channel := channel
            key := -1
            value := 0 }
        let noteExprEvent : clap_event_note_expression :=
          if eventType = 0xA0 then
            { noteExprEvent with
              key := midiEvent.data1
              expression_id := CLAP_NOTE_EXPRESSION_PRESSURE
              value := (midiEvent.data2 : ℚ) / 127 }
          else if eventType = 0xB0 then
            let cc := midiEvent.data1
            let e0 := { noteExprEvent with value := (midiEvent.data2 : ℚ) / 127 }
            let e1 := if cc = 1 then { e0 with expression_id := CLAP_NOTE_EXPRESSION_VIBRATO } else e0
            let e2 :=
              if cc = 4 then { e1 with expression_id := CLAP_NOTE_EXPRESSION_BRIGHTNESS } else e1
            let e3 := if cc = 10 then { e2 with expression_id := CLAP_NOTE_EXPRESSION_PAN } else e2
            let e4 :=
              if cc = 11 then { e3 with expression_id := CLAP_NOTE_EXPRESSION_EXPRESSION } else e3
            if cc = 7 then
              { e4 with
                expression_id := CLAP_NOTE_EXPRESSION_VOLUME
                value := stdPow ((midiEvent.data2 : ℚ) / 100) (58 / 10) }
            else e4
          else if eventType = 0xD0 then
            { noteExprEvent with
              expression_id := CLAP_NOTE_EXPRESSION_PRESSURE
              value := (midiEvent.data1 : ℚ) / 127 }
          else if eventType = 0xE0 then
            { noteExprEvent with
              expression_id := CLAP_NOTE_EXPRESSION_TUNING
              value :=
                (((midiEvent.data1 : Int) + (midiEvent.data2 : Int) * 128 - 0x2000 : Int) : ℚ)
                  * m.pitchWheelRange / 0x2000 }
          else noteExprEvent
        if noteExprEvent.expression_id = -1 then event else .noteExpression noteExprEvent
  | _ => event

/-- The method `wouldStart`: the candidate, if any, and the manager (whose id counter may have
advanced). -/
def wouldStart (stdPow : ℚ → ℚ → ℚ) (m : NoteManager) (event : ClapEvent) :
    Option Note × NoteManager :=
  if event.header.space_id ≠ CLAP_CORE_EVENT_SPACE_ID then (none, m)
  else
    match translateEvent stdPow m event with
    | .note noteEvent =>
      if noteEvent.header.type = .CLAP_EVENT_NOTE_ON then
        let newNote := Note.ofEvent SIZE_MAX noteEvent .stateDown
        let r := if newNote.noteId < 0 then nextNoteId m newNote else (newNote, m)
        (some (r.2.applyChannelNoteExpressions r.1), r.2)
      else (none, m)
    | _ => (none, m)

def wouldRelease (stdPow : ℚ → ℚ → ℚ) (m : NoteManager) (event : ClapEvent) : Option Note :=
  if event.header.space_id ≠ CLAP_CORE_EVENT_SPACE_ID then none
  else
    match translateEvent stdPow m event with
    | .note noteEvent =>
      if noteEvent.header.type = .CLAP_EVENT_NOTE_OFF ∨
          noteEvent.header.type = .CLAP_EVENT_NOTE_CHOKE then
        some (Note.ofEvent SIZE_MAX noteEvent .stateUp)
      else none
    | _ => none

def wouldModNotes (stdPow : ℚ → ℚ → ℚ) (m : NoteManager) (event : ClapEvent) : Option NoteMod :=
  if event.header.space_id ≠ CLAP_CORE_EVENT_SPACE_ID then none
  else
    match translateEvent stdPow m event with
    | .noteExpression exprEvent =>
      if exprEvent.header.type = .CLAP_EVENT_NOTE_EXPRESSION then
        some
          { time := exprEvent.header.time
            expression := exprEvent.expression_id
            value := exprEvent.value
            port := exprEvent.port_index
            channel := exprEvent.channel
            noteId := exprEvent.note_id
            baseKey := exprEvent.key }
      else none
    | _ => none

/-- The search of `stop` for the first note, in storage order, that matches `noteToStop`:
its position (counted from `i`) and the note. -/
def findMatch (noteToStop : Note) : List Note → Nat → Option (Nat × Note)
  | [], _ => none
  | n :: rest, i => if n.matchNote noteToStop then some (i, n) else findMatch noteToStop rest (i + 1)

/-- The removal done by `stop` at position `i`: clear when at most one note is stored,
otherwise move the last note into the slot (unless it is the last) and pop. -/
def removeNote (notes : List Note) (i : Nat) : List Note :=
  if notes.length ≤ 1 then []
  else if i ≠ notes.length - 1 then
    match notes.getLast? with
    | some last => (notes.set i last).dropLast
    | none => notes.dropLast
  else notes.dropLast

/-- The method `stop`: the manager afterwards and the events pushed to `eventsOut`. -/
def stop (m : NoteManager) (noteToStop : Note) : NoteManager × List clap_event_note :=
  match findMatch noteToStop m.notes 0 with
  | some (i, n) =>
    ({ m with
        voiceIndexQueue := m.voiceIndexQueue ++ [n.voiceIndex]
        notes := removeNote m.notes i },
      sendNoteEnd n)
  | none => (m, [])

/-- The loop of `start` that picks the note to kill, continued from position `i` with the
current `killIndex` and `killCost`. -/
def findKillIndex : List Note → Nat → Nat → ℚ → Nat
  | [], _, killIndex, _ => killIndex
  | n :: rest, i, killIndex, killCost =>
    if n.killCost < killCost then findKillIndex rest (i + 1) i n.killCost
    else findKillIndex rest (i + 1) killIndex killCost

/-- The note picked by `start` after the two writes `killNote.state = stateKill` and
`killNote.processTo = newNote.processFrom`. -/
def killNote (n newNote : Note) : Note :=
  { n with state := .stateKill, processTo := newNote.processFrom }

/-- The first half of `start`: when the pool is full, kill a note and stop it. -/
def startKill (m : NoteManager) (newNote : Note) : Option (NoteManager × List clap_event_note) :=
  if m.notes.length ≥ m.capacity then
    let killIndex := findKillIndex m.notes 0 0 10000000000
    match m.notes[killIndex]? with
    | none => none
    | some n =>
      some
        (stop
          { m with
            notes := m.notes.set killIndex (killNote n newNote)
            tasks := [killNote n newNote] }
          (killNote n newNote))
  else some ({ m with tasks := [] }, [])

/-- The method `start`: the manager afterwards, `newNote` with its voice index, and the events
pushed. -/
def start (m : NoteManager) (newNote : Note) :
    Option (NoteManager × Note × List clap_event_note) :=
  match startKill m newNote with
  | none => none
  | some (m1, eventsOut) =>
    match m1.voiceIndexQueue.getLast? with
    | none => none
    | some voiceIndex =>
      if m1.notes.length ≥ m1.capacity then none
      else
        let newNote := { newNote with voiceIndex := voiceIndex }
        some
          ({ m1 with
              voiceIndexQueue := m1.voiceIndexQueue.dropLast
              notes := m1.notes ++ [newNote] },
            newNote, eventsOut)

/-- The body of the `if` in the loop of `legato` for the note that matches: the note that
replaces it, the tasks pushed, the events pushed and `newNote` as written back. -/
def legatoNote (newNote existingNote n : Note) : Note × List Note × List clap_event_note × Note :=
  let r := addTask n newNote.processFrom false
  let eventsOut := sendNoteEnd r.1
  let voiceIndex := existingNote.voiceIndex
  let newNote := { newNote with voiceIndex := voiceIndex }
  ({ newNote with state := .stateLegato, age := 0 }, r.2, eventsOut, newNote)

/-- The loop of `legato` over the stored notes, left at the first match: the notes
afterwards, the tasks pushed, the events pushed and `newNote`. -/
def legatoLoop (existingNote : Note) :
    List Note → Note → List Note × List Note × List clap_event_note × Note
  | [], newNote => ([], [], [], newNote)
  | n :: rest, newNote =>
    if n.matchNote existingNote then
      let r := legatoNote newNote existingNote n
      (r.1 :: rest, r.2.1, r.2.2.1, r.2.2.2)
    else
      let r := legatoLoop existingNote rest newNote
      (n :: r.1, r.2.1, r.2.2.1, r.2.2.2)

/-- The method `legato`: the manager afterwards, `newNote` as written back, and the events
pushed. -/
def legato (m : NoteManager) (newNote existingNote : Note) :
    NoteManager × Note × List clap_event_note :=
  let r := legatoLoop existingNote m.notes newNote
  ({ m with notes := r.1, tasks := r.2.1 }, r.2.2.2, r.2.2.1)

/-- The body of the `if` in the loop of `release` for a note that matches: the note
afterwards and the tasks pushed. -/
def releaseNote (request : Note) (atBlockTime : Nat) (n : Note) : Note × List Note :=
  let r := addTask n atBlockTime false
  ({ r.1 with state := .stateUp, velocity := request.velocity, age := 0 }, r.2)

/-- The loop of `release` over the stored notes: the notes afterwards, the tasks pushed and
the request (whose voice index is written at every match). -/
def releaseLoop (atBlockTime : Nat) : List Note → Note → List Note × List Note × Note
  | [], request => ([], [], request)
  | n :: rest, request =>
    if n.matchNote request then
      let r := releaseNote request atBlockTime n
      let request := { request with voiceIndex := r.1.voiceIndex }
      if request.noteId ≠ -1 then (r.1 :: rest, r.2, request)
      else
        let s := releaseLoop atBlockTime rest request
        (r.1 :: s.1, r.2 ++ s.2.1, s.2.2)
    else
      let s := releaseLoop atBlockTime rest request
      (n :: s.1, s.2.1, s.2.2)

/-- The method `release(releaseNote, atBlockTime)`: the manager afterwards and the request as written
back. -/
def release (m : NoteManager) (request : Note) (atBlockTime : Nat) : NoteManager × Note :=
  let r := releaseLoop atBlockTime m.notes request
  ({ m with notes := r.1, tasks := r.2.1 }, r.2.2)

/-- The method `release(releaseNote)`: release at the time the request carries. -/
def releaseNow (m : NoteManager) (releaseNote : Note) : NoteManager × Note :=
  release m releaseNote releaseNote.processFrom

/-- The body of the loop of `modNotes` for one note. -/
def modNotesNote (noteMod : NoteMod) (atBlockTime : Nat) (n : Note) : Note × List Note :=
  if n.matchNoteMod noteMod then
    let r := addTask n atBlockTime true
    (noteMod.applyTo r.1, r.2)
  else (n, [])

/-- The assignment `channelNoteExpressions[channel][expression] = value`. -/
def setChannelNoteExpression (table : Fin 16 → Fin 7 → ℚ) (channel expression : Int) (value : ℚ) :
    Fin 16 → Fin 7 → ℚ :=
  fun c e => if (c.val : Int) = channel ∧ (e.val : Int) = expression then value else table c e

/-- The method `modNotes(noteMod, atBlockTime)`; `none` when the expression id indexes past
the row. -/
def modNotes (m : NoteManager) (noteMod : NoteMod) (atBlockTime : Nat) : Option NoteManager :=
  let table : Option (Fin 16 → Fin 7 → ℚ) :=
    if noteMod.noteId = -1 ∧ noteMod.baseKey = -1 ∧ noteMod.channel ≥ 0 ∧ noteMod.channel < 16 then
      if 0 ≤ noteMod.expression ∧ noteMod.expression < 7 then
        some
          (setChannelNoteExpression m.channelNoteExpressions noteMod.channel noteMod.expression
            noteMod.value)
      else none
    else some m.channelNoteExpressions
  match table with
  | none => none
  | some table =>
    some
      { m with
        channelNoteExpressions := table
        notes := m.notes.map (fun n => (modNotesNote noteMod atBlockTime n).1)
        tasks := (m.notes.map (fun n => (modNotesNote noteMod atBlockTime n).2)).flatten }

/-- The method `modNotes(noteMod)`: modify at the time the request carries. -/
def modNotesNow (m : NoteManager) (noteMod : NoteMod) : Option NoteManager :=
  modNotes m noteMod noteMod.time

/-- The method `processEvent`: start, release or modify as the event asks. -/
def processEvent (stdPow : ℚ → ℚ → ℚ) (m : NoteManager) (event : ClapEvent) :
    Option (NoteManager × List clap_event_note) :=
  match wouldStart stdPow m event with
  | (some newNote, m1) => (start m1 newNote).map (fun r => (r.1, r.2.2))
  | (none, m1) =>
    match wouldRelease stdPow m1 event with
    | some releaseNote => some ((releaseNow m1 releaseNote).1, [])
    | none =>
      match wouldModNotes stdPow m1 event with
      | some modNote => (modNotesNow m1 modNote).map (fun m2 => (m2, []))
      | none => some ({ m1 with tasks := [] }, [])

/-! ## Call sequences -/

/-- One call on the manager.  `start` and `legato` are handed the candidate that `wouldStart`
makes of the event; when `wouldStart` makes none the call does not take place. -/
inductive Call where
  | reset
  | startBlock
  | processTo (frames : Nat)
  | start (event : ClapEvent)
  | legato (event : ClapEvent) (existingNote : Note)
  | release (releaseNote : Note) (atBlockTime : Nat)
  | modNotes (noteMod : NoteMod) (atBlockTime : Nat)
  | stop (noteToStop : Note)

/-- The manager after one call. -/
def call (stdPow : ℚ → ℚ → ℚ) (m : NoteManager) : Call → Option NoteManager
  | .reset => some m.reset
  | .startBlock => some m.startBlock
  | .processTo frames => some (m.processTo frames)
  | .start event =>
    match wouldStart stdPow m event with
    | (some newNote, m1) => (start m1 newNote).map (fun r => r.1)
    | (none, m1) => some m1
  | .legato event existingNote =>
    match wouldStart stdPow m event with
    | (some newNote, m1) => some (legato m1 newNote existingNote).1
    | (none, m1) => some m1
  | .release releaseNote atBlockTime => some (release m releaseNote atBlockTime).1
  | .modNotes noteMod atBlockTime => modNotes m noteMod atBlockTime
  | .stop noteToStop => some (stop m noteToStop).1

/-- The manager after a sequence of calls, `none` as soon as one call is undefined. -/
def run (stdPow : ℚ → ℚ → ℚ) (m : NoteManager) : List Call → Option NoteManager
  | [] => some m
  | c :: rest =>
    match call stdPow m c with
    | none => none
    | some m1 => run stdPow m1 rest

/-- A call whose behaviour the source defines: a channel-wide `modNotes` names one of the
seven expression columns. -/
def Call.defined : Call → Bool
  | .modNotes noteMod _ =>
    !(decide (noteMod.noteId = -1 ∧ noteMod.baseKey = -1 ∧ noteMod.channel ≥ 0 ∧
        noteMod.channel < 16)) ||
      decide (0 ≤ noteMod.expression ∧ noteMod.expression < 7)
  | _ => true

/-- The event a call hands to `wouldStart`, if it calls it. -/
def Call.event : Call → Option ClapEvent
  | .start event => some event
  | .legato event _ => some event
  | _ => none

/-- What every sequence of calls keeps true of a manager of polyphony `P`: the capacity is
`P`, the stored notes and the free-list together count `P`, no stored note carries the
wildcard id, and the id counter is in its range. -/
structure Inv (P : Nat) (m : NoteManager) : Prop where
  cap : m.capacity = P
  count : m.notes.length + m.voiceIndexQueue.length = P
  ids : ∀ n ∈ m.notes, n.noteId ≠ -1
  counter : 2 ≤ m.internalNoteId ∧ m.internalNoteId < 2147483647

/-- No two notes of the list share a non-negative note id. -/
def distinctNoteIds (notes : List Note) : Prop :=
  notes.Pairwise (fun a b => a.noteId = b.noteId → a.noteId < 0)

/-- Along the sequence of calls, every candidate handed to `start` or `legato` carries a
negative (assigned) note id or a note id that no active voice carries at that moment. -/
def freshNoteIds (stdPow : ℚ → ℚ → ℚ) : NoteManager → List Call → Bool
  | _, [] => true
  | m, c :: rest =>
    (match c.event with
      | some event =>
        match (wouldStart stdPow m event).1 with
        | some candidate =>
          decide (candidate.noteId < 0) || m.notes.all (fun n => n.noteId != candidate.noteId)
        | none => true
      | none => true) &&
    (match call stdPow m c with
      | some m1 => freshNoteIds stdPow m1 rest
      | none => true)

/-- Whether the call is a `legato` call. -/
def Call.isLegato : Call → Bool
  | .legato _ _ => true
  | _ => false

/-- A stand-in for `std::pow` where its value plays no part. -/
def samplePow : ℚ → ℚ → ℚ := fun x _ => x

/-- A core-space header at sample time `time`. -/
def sampleHeader (time : Nat) (type : clap_event_type) : clap_event_header :=
  { time := time, space_id := CLAP_CORE_EVENT_SPACE_ID, type := type, flags := 0 }

/-- A note-on event on port 0 with velocity 1. -/
def sampleNoteOn (time : Nat) (noteId channel key : Int) : ClapEvent :=
  .note
    { header := sampleHeader time .CLAP_EVENT_NOTE_ON
      note_id := noteId
      port_index := 0
      channel := channel
      key := key
      velocity := 1 }

/-- A note-off event on port 0 with velocity 0. -/
def sampleNoteOff (time : Nat) (noteId channel key : Int) : ClapEvent :=
  .note
    { header := sampleHeader time .CLAP_EVENT_NOTE_OFF
      note_id := noteId
      port_index := 0
      channel := channel
      key := key
      velocity := 0 }

/-- The request `wouldRelease` builds from `sampleNoteOff`. -/
def sampleRelease (time : Nat) (noteId channel key : Int) : Note :=
  Note.ofEvent SIZE_MAX
    { header := sampleHeader time .CLAP_EVENT_NOTE_OFF
      note_id := noteId
      port_index := 0
      channel := channel
      key := key
      velocity := 0 }
    .stateUp

/-- An active voice on port 0 with the default expression values. -/
def sampleVoice (voiceIndex : Nat) (noteId channel key : Int) (velocity : ℚ) (state : State)
    (age cursor : Nat) : Note :=
  { voiceIndex := voiceIndex
    key := key
    velocity := velocity
    port := 0
    channel := channel
    state := state
    processFrom := cursor
    processTo := cursor
    noteId := noteId
    baseKey := key
    age := age }

/-- A manager of the given polyphony holding `notes`, with `queue` as its free-list. -/
def sampleManager (polyphony : Nat) (notes : List Note) (queue : List Nat) : NoteManager :=
  { create polyphony 2 with notes := notes, voiceIndexQueue := queue }

/-- A full pool of polyphony 2: a sustained voice of age 100 and a released one of age 1. -/
def sampleFullPool : NoteManager :=
  sampleManager 2
    [sampleVoice 0 5 0 60 1 .stateContinue 100 100, sampleVoice 1 6 0 61 0 .stateRelease 1 100]
    []

/-- The candidate `wouldStart` makes of `sampleNoteOn` while no channel expression is set. -/
def sampleCandidate (time : Nat) (noteId channel key : Int) : Note :=
  sampleVoice SIZE_MAX noteId channel key 1 .stateDown 0 time

/-- A pool of polyphony 4 with voices on channels 1, 2, 2 and 3, cursors at 0. -/
def sampleChannelPool : NoteManager :=
  sampleManager 4
    [sampleVoice 0 5 1 60 1 .stateDown 0 0, sampleVoice 1 6 2 61 1 .stateContinue 10 0,
      sampleVoice 2 7 2 62 1 .stateDown 0 0, sampleVoice 3 8 3 63 1 .stateContinue 10 0]
    []

/-- A release request with wildcard note id, port and base key on the given channel. -/
def sampleChannelRelease (time : Nat) (channel : Int) : Note :=
  Note.ofEvent SIZE_MAX
    { header := sampleHeader time .CLAP_EVENT_NOTE_OFF
      note_id := -1
      port_index := -1
      channel := channel
      key := -1
      velocity := 0 }
    .stateUp

/-- A pool of polyphony 3 in which two voices carry note id 5. -/
def sampleSharedIdPool : NoteManager :=
  sampleManager 3
    [sampleVoice 0 4 0 59 1 .stateContinue 10 0, sampleVoice 1 5 0 60 1 .stateContinue 10 0,
      sampleVoice 2 5 0 61 1 .stateDown 0 0]
    []

/-- A pool of polyphony 2: a sustained voice (note id 5, key 60) and a released one (note id 6,
key 61), cursors at 0. -/
def sampleLegatoPool : NoteManager :=
  sampleManager 2
    [sampleVoice 0 5 0 60 1 .stateContinue 10 0, sampleVoice 1 6 0 61 0 .stateRelease 4 0]
    []

/-- A legacy event on port 0 in the core event space, with the given three bytes. -/
def sampleMidi (time status data1 data2 : Nat) : clap_event_midi :=
  { header := sampleHeader time .CLAP_EVENT_MIDI
    port_index := 0
    data0 := status
    data1 := data1
    data2 := data2 }

/-- A channel-wide expression request on port -1 (wildcard note id and base key). -/
def sampleChannelMod (time : Nat) (channel expression : Int) (value : ℚ) : NoteMod :=
  { time := time
    expression := expression
    value := value
    port := -1
    channel := channel
    noteId := -1
    baseKey := -1 }

/-- An expression request addressed to a note id. -/
def sampleNoteIdMod (time : Nat) (noteId expression : Int) (value : ℚ) : NoteMod :=
  { time := time
    expression := expression
    value := value
    port := -1
    channel := -1
    noteId := noteId
    baseKey := -1 }

/-- A full pool of polyphony 3 whose voices share state and age, hence the kill cost. -/
def sampleTiedPool : NoteManager :=
  sampleManager 3
    [sampleVoice 0 4 0 59 1 .stateContinue 10 0, sampleVoice 1 5 0 60 1 .stateContinue 10 0,
      sampleVoice 2 6 0 61 1 .stateContinue 10 0]
    []

/-- A pool of polyphony 1 holding the voice of a note-on with note id 5 started at time 0. -/
def sampleSinglePool : NoteManager :=
  sampleManager 1 [sampleVoice 0 5 0 60 1 .stateDown 0 0] []

end NoteManager

/-! ## Lemmas on the single-note steps -/

namespace NoteManager

theorem processToNote_noteId (frames : Nat) (n : Note) :
    (processToNote frames n).1.noteId = n.noteId := by
  simp only [processToNote]
  split_ifs <;> rfl

theorem addTask_noteId (n : Note) (t : Nat) (b : Bool) : (addTask n t b).1.noteId = n.noteId := by
  simp only [addTask]
  split_ifs <;> rfl

theorem applyTo_noteId (noteMod : NoteMod) (n : Note) : (noteMod.applyTo n).noteId = n.noteId := by
  simp only [NoteMod.applyTo]
  split_ifs <;> rfl

theorem modNotesNote_noteId (noteMod : NoteMod) (t : Nat) (n : Note) :
    (modNotesNote noteMod t n).1.noteId = n.noteId := by
  simp only [modNotesNote]
  split_ifs
  · simp [applyTo_noteId, addTask_noteId]
  · rfl

theorem releaseNote_noteId (request : Note) (t : Nat) (n : Note) :
    (releaseNote request t n).1.noteId = n.noteId := by
  simp [releaseNote, addTask_noteId]

theorem legatoNote_noteId (newNote existingNote n : Note) :
    (legatoNote newNote existingNote n).1.noteId = newNote.noteId := rfl

theorem legatoLoop_cons_match (existingNote n : Note) (rest : List Note) (newNote : Note)
    (h : n.matchNote existingNote = true) :
    legatoLoop existingNote (n :: rest) newNote
      = ((legatoNote newNote existingNote n).1 :: rest, (legatoNote newNote existingNote n).2.1,
          (legatoNote newNote existingNote n).2.2.1, (legatoNote newNote existingNote n).2.2.2) := by
  simp [legatoLoop, h]

theorem legatoLoop_cons_skip (existingNote n : Note) (rest : List Note) (newNote : Note)
    (h : n.matchNote existingNote = false) :
    legatoLoop existingNote (n :: rest) newNote
      = (n :: (legatoLoop existingNote rest newNote).1,
          (legatoLoop existingNote rest newNote).2.1,
          (legatoLoop existingNote rest newNote).2.2.1,
          (legatoLoop existingNote rest newNote).2.2.2) := by
  simp [legatoLoop, h]

theorem releaseLoop_cons_skip (t : Nat) (n : Note) (rest : List Note) (request : Note)
    (h : n.matchNote request = false) :
    releaseLoop t (n :: rest) request
      = (n :: (releaseLoop t rest request).1, (releaseLoop t rest request).2.1,
          (releaseLoop t rest request).2.2) := by
  simp [releaseLoop, h]

theorem releaseLoop_cons_break (t : Nat) (n : Note) (rest : List Note) (request : Note)
    (h : n.matchNote request = true) (hid : request.noteId ≠ -1) :
    releaseLoop t (n :: rest) request
      = ((releaseNote request t n).1 :: rest, (releaseNote request t n).2,
          { request with voiceIndex := (releaseNote request t n).1.voiceIndex }) := by
  simp [releaseLoop, h, hid]

theorem releaseLoop_cons_continue (t : Nat) (n : Note) (rest : List Note) (request : Note)
    (h : n.matchNote request = true) (hid : request.noteId = -1) :
    releaseLoop t (n :: rest) request
      = ((releaseNote request t n).1 ::
            (releaseLoop t rest
              { request with voiceIndex := (releaseNote request t n).1.voiceIndex }).1,
          (releaseNote request t n).2 ++
            (releaseLoop t rest
              { request with voiceIndex := (releaseNote request t n).1.voiceIndex }).2.1,
          (releaseLoop t rest
              { request with voiceIndex := (releaseNote request t n).1.voiceIndex }).2.2) := by
  simp [releaseLoop, h, hid]

theorem legatoLoop_length (existingNote : Note) (notes : List Note) (newNote : Note) :
    (legatoLoop existingNote notes newNote).1.length = notes.length := by
  induction notes with
  | nil => rfl
  | cons n rest ih =>
    cases h : n.matchNote existingNote
    · rw [legatoLoop_cons_skip _ _ _ _ h]; simp [ih]
    · rw [legatoLoop_cons_match _ _ _ _ h]; simp

theorem legatoLoop_ids (existingNote : Note) (notes : List Note) (newNote : Note)
    (hnew : newNote.noteId ≠ -1) (h : ∀ n ∈ notes, n.noteId ≠ -1) :
    ∀ n ∈ (legatoLoop existingNote notes newNote).1, n.noteId ≠ -1 := by
  induction notes with
  | nil => intro n hn; simp [legatoLoop] at hn
  | cons a rest ih =>
    have ha : a.noteId ≠ -1 := h a (List.mem_cons_self _ _)
    have hrest : ∀ x ∈ rest, x.noteId ≠ -1 := fun x hx => h x (List.mem_cons_of_mem _ hx)
    intro n hn
    cases hm : a.matchNote existingNote
    · rw [legatoLoop_cons_skip _ _ _ _ hm] at hn
      rcases List.mem_cons.mp hn with heq | hn
      · rw [heq]; exact ha
      · exact ih hrest n hn
    · rw [legatoLoop_cons_match _ _ _ _ hm] at hn
      rcases List.mem_cons.mp hn with heq | hn
      · rw [heq, legatoNote_noteId]; exact hnew
      · exact hrest n hn

theorem releaseLoop_length (t : Nat) (notes : List Note) (request : Note) :
    (releaseLoop t notes request).1.length = notes.length := by
  induction notes generalizing request with
  | nil => rfl
  | cons n rest ih =>
    cases h : n.matchNote request
    · rw [releaseLoop_cons_skip _ _ _ _ h]; simp [ih]
    · by_cases hid : request.noteId = -1
      · rw [releaseLoop_cons_continue _ _ _ _ h hid]; simp [ih]
      · rw [releaseLoop_cons_break _ _ _ _ h hid]; simp

theorem releaseLoop_ids (t : Nat) (notes : List Note) (request : Note)
    (h : ∀ n ∈ notes, n.noteId ≠ -1) :
    ∀ n ∈ (releaseLoop t notes request).1, n.noteId ≠ -1 := by
  induction notes generalizing request with
  | nil => intro n hn; simp [releaseLoop] at hn
  | cons a rest ih =>
    have ha : a.noteId ≠ -1 := h a (List.mem_cons_self _ _)
    have hrest : ∀ x ∈ rest, x.noteId ≠ -1 := fun x hx => h x (List.mem_cons_of_mem _ hx)
    intro n hn
    cases hm : a.matchNote request
    · rw [releaseLoop_cons_skip _ _ _ _ hm] at hn
      rcases List.mem_cons.mp hn with heq | hn
      · rw [heq]; exact ha
      · exact ih _ hrest n hn
    · by_cases hid : request.noteId = -1
      · rw [releaseLoop_cons_continue _ _ _ _ hm hid] at hn
        rcases List.mem_cons.mp hn with heq | hn
        · rw [heq, releaseNote_noteId]; exact ha
        · exact ih _ hrest n hn
      · rw [releaseLoop_cons_break _ _ _ _ hm hid] at hn
        rcases List.mem_cons.mp hn with heq | hn
        · rw [heq, releaseNote_noteId]; exact ha
        · exact hrest n hn

/-! ## Lemmas on `stop` and `start` -/

theorem findMatch_spec (x : Note) (notes : List Note) (i j : Nat) (n : Note)
    (h : findMatch x notes i = some (j, n)) :
    i ≤ j ∧ notes[j - i]? = some n ∧ n.matchNote x = true ∧
      ∀ k, k < j - i → ∀ a, notes[k]? = some a → a.matchNote x = false := by
  induction notes generalizing i with
  | nil => simp [findMatch] at h
  | cons a rest ih =>
    simp only [findMatch] at h
    by_cases hm : a.matchNote x = true
    · simp only [hm, if_true, Option.some.injEq, Prod.mk.injEq] at h
      obtain ⟨rfl, rfl⟩ := h
      refine ⟨le_refl _, by simp, hm, ?_⟩
      intro k hk
      simp at hk
    · simp only [hm] at h
      obtain ⟨h1, h2, h3, h4⟩ := ih (i + 1) h
      have hji : j - i = (j - (i + 1)) + 1 := by omega
      refine ⟨by omega, ?_, h3, ?_⟩
      · rw [hji, List.getElem?_cons_succ]; exact h2
      · intro k hk b hb
        cases k with
        | zero =>
          simp only [List.getElem?_cons_zero, Option.some.injEq] at hb
          subst hb
          simpa using hm
        | succ k =>
          rw [List.getElem?_cons_succ] at hb
          exact h4 k (by omega) b hb

theorem findMatch_none (x : Note) (notes : List Note) (i : Nat)
    (h : findMatch x notes i = none) : ∀ a ∈ notes, a.matchNote x = false := by
  induction notes generalizing i with
  | nil => intro a ha; simp at ha
  | cons a rest ih =>
    simp only [findMatch] at h
    by_cases hm : a.matchNote x = true
    · simp [hm] at h
    · simp only [hm] at h
      intro b hb
      rcases List.mem_cons.mp hb with rfl | hb
      · simpa using hm
      · exact ih (i + 1) h b hb

theorem findMatch_isSome (x : Note) (notes : List Note) (i : Nat) (a : Note) (ha : a ∈ notes)
    (hm : a.matchNote x = true) : ∃ r, findMatch x notes i = some r := by
  cases h : findMatch x notes i with
  | some r => exact ⟨r, rfl⟩
  | none =>
    have := findMatch_none x notes i h a ha
    rw [hm] at this
    exact absurd this (by simp)

theorem removeNote_length (notes : List Note) (i : Nat) :
    (removeNote notes i).length = notes.length - 1 := by
  unfold removeNote
  split_ifs with h1 h2
  · simp; omega
  · cases hl : notes.getLast? with
    | none => simp
    | some last => simp
  · simp

theorem removeNote_mem (notes : List Note) (i : Nat) (n : Note) (h : n ∈ removeNote notes i) :
    n ∈ notes := by
  unfold removeNote at h
  split_ifs at h with h1 h2
  · simp at h
  · cases hl : notes.getLast? with
    | none =>
      rw [hl] at h
      exact List.dropLast_subset _ h
    | some last =>
      rw [hl] at h
      have h3 := List.dropLast_subset _ h
      rcases List.mem_or_eq_of_mem_set h3 with h4 | h4
      · exact h4
      · rw [h4]
        exact List.mem_of_getLast?_eq_some hl
  · exact List.dropLast_subset _ h

theorem findKillIndex_lt (notes : List Note) (i k : Nat) (c : ℚ) (hk : k < i + notes.length) :
    findKillIndex notes i k c < i + notes.length := by
  induction notes generalizing i k c with
  | nil => simpa [findKillIndex] using hk
  | cons a rest ih =>
    simp only [findKillIndex]
    simp only [List.length_cons] at hk ⊢
    split_ifs
    · have := ih (i + 1) i a.killCost (by omega)
      omega
    · have := ih (i + 1) k c (by omega)
      omega

theorem matchNote_self (n : Note) (h : n.noteId ≠ -1) : n.matchNote n = true := by
  simp [Note.matchNote, h]

theorem stop_some (m : NoteManager) (x : Note) (i : Nat) (n : Note)
    (h : findMatch x m.notes 0 = some (i, n)) :
    stop m x =
      ({ m with
          voiceIndexQueue := m.voiceIndexQueue ++ [n.voiceIndex]
          notes := removeNote m.notes i },
        sendNoteEnd n) := by
  simp only [stop, h]

theorem stop_none (m : NoteManager) (x : Note) (h : findMatch x m.notes 0 = none) :
    stop m x = (m, []) := by
  simp only [stop, h]

theorem stop_inv (P : Nat) (m : NoteManager) (x : Note) (h : Inv P m) : Inv P (stop m x).1 := by
  unfold stop
  cases hf : findMatch x m.notes 0 with
  | none => exact h
  | some r =>
    obtain ⟨j, n⟩ := r
    obtain ⟨-, h2, -, -⟩ := findMatch_spec x m.notes 0 j n hf
    have hlen : j < m.notes.length := by
      have := (List.getElem?_eq_some_iff.mp h2).1
      simpa using this
    refine ⟨h.cap, ?_, ?_, h.counter⟩
    · simp only [removeNote_length, List.length_append, List.length_singleton]
      have := h.count
      omega
    · intro a ha
      exact h.ids a (removeNote_mem _ _ _ ha)

theorem startKill_full (m : NoteManager) (newNote : Note) (hfull : m.notes.length ≥ m.capacity)
    (hk : findKillIndex m.notes 0 0 10000000000 < m.notes.length) :
    startKill m newNote =
      some
        (stop
          { m with
            notes := m.notes.set (findKillIndex m.notes 0 0 10000000000)
              (killNote m.notes[findKillIndex m.notes 0 0 10000000000] newNote)
            tasks := [killNote m.notes[findKillIndex m.notes 0 0 10000000000] newNote] }
          (killNote m.notes[findKillIndex m.notes 0 0 10000000000] newNote)) := by
  simp only [startKill, hfull, if_true, List.getElem?_eq_getElem hk]

theorem startKill_room (m : NoteManager) (newNote : Note) (h : ¬ m.notes.length ≥ m.capacity) :
    startKill m newNote = some ({ m with tasks := [] }, []) := by
  simp only [startKill, h, if_false]

/-- What `startKill` leaves behind, from a state that satisfies the invariant: with room in
the pool nothing but the task list changes; at capacity one note has gone to the free-list. -/
theorem startKill_spec (P : Nat) (m : NoteManager) (newNote : Note) (h : Inv P m)
    (hP : 1 ≤ P) :
    ∃ m1 ev, startKill m newNote = some (m1, ev) ∧ m1.capacity = P ∧
      m1.notes.length + m1.voiceIndexQueue.length = P ∧ m1.notes.length < P ∧
      (∀ n ∈ m1.notes, n.noteId ≠ -1) ∧ m1.internalNoteId = m.internalNoteId := by
  have hcount := h.count
  have hcap := h.cap
  by_cases hfull : m.notes.length ≥ m.capacity
  · have hlen : m.notes.length = P := by omega
    have hk : findKillIndex m.notes 0 0 10000000000 < m.notes.length := by
      have := findKillIndex_lt m.notes 0 0 10000000000 (by omega)
      omega
    rw [startKill_full m newNote hfull hk]
    set k := findKillIndex m.notes 0 0 10000000000 with hkdef
    set kn : Note := killNote m.notes[k] newNote with hkn
    have hkid : kn.noteId ≠ -1 := h.ids m.notes[k] (List.getElem_mem hk)
    have hinv : Inv P { m with notes := m.notes.set k kn, tasks := [kn] } := by
      refine ⟨hcap, by simpa using hcount, ?_, h.counter⟩
      intro a ha
      rcases List.mem_or_eq_of_mem_set ha with h4 | h4
      · exact h.ids a h4
      · rw [h4]; exact hkid
    have hmem : kn ∈ m.notes.set k kn := List.mem_set m.notes k hk kn
    obtain ⟨⟨j, n⟩, hr⟩ := findMatch_isSome kn (m.notes.set k kn) 0 kn hmem
      (matchNote_self _ hkid)
    have hs := stop_inv P _ kn hinv
    rw [stop_some _ kn j n hr] at hs ⊢
    refine ⟨_, _, rfl, hs.cap, hs.count, ?_, hs.ids, rfl⟩
    simp only [removeNote_length, List.length_set]
    omega
  · rw [startKill_room m newNote hfull]
    exact ⟨_, _, rfl, hcap, hcount, by simp only; omega, h.ids, rfl⟩

theorem start_inv (P : Nat) (m : NoteManager) (newNote : Note) (h : Inv P m) (hP : 1 ≤ P)
    (hid : newNote.noteId ≠ -1) : ∃ r, start m newNote = some r ∧ Inv P r.1 := by
  obtain ⟨m1, ev, h1, hcap, hcount, hlt, hids, hctr⟩ := startKill_spec P m newNote h hP
  unfold start
  rw [h1]
  simp only
  have hq : m1.voiceIndexQueue ≠ [] := by
    intro hq
    rw [hq] at hcount
    simp at hcount
    omega
  rw [List.getLast?_eq_getLast _ hq]
  simp only
  rw [if_neg (by omega)]
  refine ⟨_, rfl, hcap, ?_, ?_, ?_⟩
  · simp only [List.length_append, List.length_singleton, List.length_dropLast]
    have : 0 < m1.voiceIndexQueue.length := List.length_pos.mpr hq
    omega
  · intro a ha
    rcases List.mem_append.mp ha with h4 | h4
    · exact hids a h4
    · simp only [List.mem_singleton] at h4
      rw [h4]; exact hid
  · simp only; rw [hctr]; exact h.counter

theorem applyChannelNoteExpressions_noteId (m : NoteManager) (n : Note) :
    (m.applyChannelNoteExpressions n).noteId = n.noteId := by
  unfold applyChannelNoteExpressions
  split_ifs <;> rfl

/-- The manager `wouldStart` returns differs from the one it was given at most in the id
counter, which stays in its range; the candidate never carries the wildcard id. -/
theorem wouldStart_spec (stdPow : ℚ → ℚ → ℚ) (P : Nat) (m : NoteManager) (event : ClapEvent)
    (h : Inv P m) :
    Inv P (wouldStart stdPow m event).2 ∧
      ∀ c, (wouldStart stdPow m event).1 = some c → c.noteId ≠ -1 := by
  unfold wouldStart
  split_ifs with hs
  · exact ⟨h, by simp⟩
  · split
    · rename_i noteEvent _
      split_ifs with hon
      · by_cases hneg : (Note.ofEvent SIZE_MAX noteEvent .stateDown).noteId < 0
        · simp only [hneg, if_true, nextNoteId]
          refine ⟨⟨h.cap, h.count, h.ids, ?_⟩, ?_⟩
          · have := h.counter
            simp only
            split_ifs <;> omega
          · intro c hc
            simp only [Option.some.injEq] at hc
            rw [← hc, applyChannelNoteExpressions_noteId]
            have := h.counter
            simp only [toInt32]
            split_ifs <;> omega
        · simp only [hneg, if_false]
          refine ⟨h, ?_⟩
          intro c hc
          simp only [Option.some.injEq] at hc
          rw [← hc, applyChannelNoteExpressions_noteId]
          omega
      · exact ⟨h, by simp⟩
    · exact ⟨h, by simp⟩

theorem call_inv (stdPow : ℚ → ℚ → ℚ) (P : Nat) (hP : 1 ≤ P) (m : NoteManager) (c : Call)
    (h : Inv P m) (hc : c.defined = true) : ∃ m1, call stdPow m c = some m1 ∧ Inv P m1 := by
  cases c with
  | reset =>
    refine ⟨_, rfl, h.cap, ?_, by simp [reset], h.counter⟩
    simp [reset, resetQueue, polyphony, h.cap]
  | startBlock =>
    refine ⟨_, rfl, h.cap, by simpa [startBlock] using h.count, ?_, h.counter⟩
    intro a ha
    simp only [startBlock, List.mem_map] at ha
    obtain ⟨b, hb, rfl⟩ := ha
    exact h.ids b hb
  | processTo frames =>
    refine ⟨_, rfl, h.cap, by simpa [processTo] using h.count, ?_, h.counter⟩
    intro a ha
    simp only [processTo, List.mem_map] at ha
    obtain ⟨b, hb, rfl⟩ := ha
    rw [processToNote_noteId]
    exact h.ids b hb
  | start event =>
    obtain ⟨hw, hcand⟩ := wouldStart_spec stdPow P m event h
    simp only [call]
    rcases hws : wouldStart stdPow m event with ⟨_ | cand, m1⟩
    · rw [hws] at hw
      exact ⟨_, rfl, hw⟩
    · rw [hws] at hw hcand
      obtain ⟨r, hr, hinv⟩ := start_inv P m1 cand hw hP (hcand cand rfl)
      simp only [hr, Option.map_some']
      exact ⟨_, rfl, hinv⟩
  | legato event existingNote =>
    obtain ⟨hw, hcand⟩ := wouldStart_spec stdPow P m event h
    simp only [call]
    rcases hws : wouldStart stdPow m event with ⟨_ | cand, m1⟩
    · rw [hws] at hw
      exact ⟨_, rfl, hw⟩
    · rw [hws] at hw hcand
      refine ⟨_, rfl, hw.cap, ?_, ?_, hw.counter⟩
      · simpa [legato, legatoLoop_length] using hw.count
      · exact legatoLoop_ids _ _ _ (hcand cand rfl) hw.ids
  | release request atBlockTime =>
    refine ⟨_, rfl, h.cap, ?_, ?_, h.counter⟩
    · simpa [release, releaseLoop_length] using h.count
    · exact releaseLoop_ids _ _ _ h.ids
  | modNotes noteMod atBlockTime =>
    simp only [Call.defined, Bool.or_eq_true, Bool.not_eq_true', decide_eq_false_iff_not,
      decide_eq_true_eq] at hc
    simp only [call, modNotes]
    have key : ∀ table : Fin 16 → Fin 7 → ℚ,
        Inv P { m with
          channelNoteExpressions := table
          notes := m.notes.map (fun n => (modNotesNote noteMod atBlockTime n).1)
          tasks := (m.notes.map (fun n => (modNotesNote noteMod atBlockTime n).2)).flatten } := by
      intro table
      refine ⟨h.cap, by simpa using h.count, ?_, h.counter⟩
      intro a ha
      simp only [List.mem_map] at ha
      obtain ⟨b, hb, rfl⟩ := ha
      rw [modNotesNote_noteId]
      exact h.ids b hb
    split_ifs with h1 h2
    · exact ⟨_, rfl, key _⟩
    · exact absurd (hc.resolve_left (not_not.mpr h1)) h2
    · exact ⟨_, rfl, key _⟩
  | stop noteToStop => exact ⟨_, rfl, stop_inv P m noteToStop h⟩

theorem run_inv (stdPow : ℚ → ℚ → ℚ) (P : Nat) (hP : 1 ≤ P) (calls : List Call)
    (m : NoteManager) (h : Inv P m) (hc : ∀ c ∈ calls, c.defined = true) :
    ∃ m1, run stdPow m calls = some m1 ∧ Inv P m1 := by
  induction calls generalizing m with
  | nil => exact ⟨m, rfl, h⟩
  | cons c rest ih =>
    obtain ⟨m1, h1, hinv⟩ := call_inv stdPow P hP m c h (hc c (List.mem_cons_self _ _))
    simp only [run, h1]
    exact ih m1 hinv (fun x hx => hc x (List.mem_cons_of_mem _ hx))

theorem create_inv (P : Nat) (r : ℚ) : Inv P (create P r) :=
  ⟨rfl, by simp [create, reset, resetQueue, polyphony], by simp [create, reset],
    by simp [create, reset]⟩

end NoteManager

/-! ## Rounding to binary32 -/

theorem log2Fuel_spec (fuel n : Nat) (h1 : 1 ≤ n) (h2 : n ≤ fuel) :
    2 ^ log2Fuel fuel n ≤ n ∧ n < 2 ^ (log2Fuel fuel n + 1) := by
  induction fuel generalizing n with
  | zero => omega
  | succ fuel ih =>
    by_cases h : 2 ≤ n
    · have hd : n / 2 ≤ fuel := by omega
      have hd1 : 1 ≤ n / 2 := by omega
      obtain ⟨ha, hb⟩ := ih (n / 2) hd1 hd
      simp only [log2Fuel, h, if_true]
      rw [pow_succ, pow_succ]
      rw [pow_succ] at hb
      constructor <;> omega
    · simp only [log2Fuel, h, if_false]
      constructor <;> omega

theorem ilog2_spec (n : Nat) (h : 1 ≤ n) : 2 ^ ilog2 n ≤ n ∧ n < 2 ^ (ilog2 n + 1) :=
  log2Fuel_spec n n h (le_refl n)

theorem binade_spec (x : ℚ) (hx : 0 < x) :
    (2 : ℚ) ^ binade x ≤ x ∧ x < (2 : ℚ) ^ (binade x + 1) := by
  have hnum : 0 < x.num := Rat.num_pos.mpr hx
  have hn1 : 1 ≤ x.num.natAbs := by omega
  have hd1 : 1 ≤ x.den := x.den_pos
  obtain ⟨ha, hb⟩ := ilog2_spec x.num.natAbs hn1
  obtain ⟨hc, hd⟩ := ilog2_spec x.den hd1
  set a := ilog2 x.num.natAbs with hadef
  set b := ilog2 x.den with hbdef
  have hxeq : x = (x.num.natAbs : ℚ) / (x.den : ℚ) := by
    have h1 : ((x.num.natAbs : Int) : ℚ) = (x.num : ℚ) := by
      rw [Int.natAbs_of_nonneg (le_of_lt hnum)]
    have h2 : ((x.num.natAbs : Nat) : ℚ) = ((x.num.natAbs : Int) : ℚ) := (Int.cast_natCast _).symm
    rw [h2, h1]
    exact (Rat.num_div_den x).symm
  have hdpos : (0 : ℚ) < (x.den : ℚ) := by exact_mod_cast hd1
  have haq : (2 : ℚ) ^ a ≤ (x.num.natAbs : ℚ) := by exact_mod_cast ha
  have hbq : (x.num.natAbs : ℚ) < (2 : ℚ) ^ (a + 1) := by exact_mod_cast hb
  have hcq : (2 : ℚ) ^ b ≤ (x.den : ℚ) := by exact_mod_cast hc
  have hdq : (x.den : ℚ) < (2 : ℚ) ^ (b + 1) := by exact_mod_cast hd
  have h2 : (2 : ℚ) ≠ 0 := by norm_num
  have hpb : (0 : ℚ) < (2 : ℚ) ^ b := by positivity
  -- upper bound x < 2 ^ (a - b + 1)
  have hup : x < (2 : ℚ) ^ ((a : Int) - (b : Int) + 1) := by
    have e1 : (2 : ℚ) ^ ((a : Int) - (b : Int) + 1) = (2 : ℚ) ^ (a + 1) / (2 : ℚ) ^ b := by
      rw [show ((a : Int) - (b : Int) + 1) = ((a + 1 : Nat) : Int) - ((b : Nat) : Int) by
        push_cast; ring]
      rw [zpow_sub₀ h2, zpow_natCast, zpow_natCast]
    rw [e1, hxeq, div_lt_div_iff₀ hdpos hpb]
    calc (x.num.natAbs : ℚ) * 2 ^ b < 2 ^ (a + 1) * 2 ^ b := by
          exact mul_lt_mul_of_pos_right hbq hpb
      _ ≤ 2 ^ (a + 1) * (x.den : ℚ) := by
          exact mul_le_mul_of_nonneg_left hcq (by positivity)
  -- lower bound 2 ^ (a - b - 1) < x
  have hlow : (2 : ℚ) ^ ((a : Int) - (b : Int) - 1) < x := by
    have e1 : (2 : ℚ) ^ ((a : Int) - (b : Int) - 1) = (2 : ℚ) ^ a / (2 : ℚ) ^ (b + 1) := by
      rw [show ((a : Int) - (b : Int) - 1) = ((a : Nat) : Int) - ((b + 1 : Nat) : Int) by
        push_cast; ring]
      rw [zpow_sub₀ h2, zpow_natCast, zpow_natCast]
    have hpb1 : (0 : ℚ) < (2 : ℚ) ^ (b + 1) := by positivity
    rw [e1, hxeq, div_lt_div_iff₀ hpb1 hdpos]
    calc (2 : ℚ) ^ a * (x.den : ℚ) < 2 ^ a * 2 ^ (b + 1) := by
          exact mul_lt_mul_of_pos_left hdq (by positivity)
      _ ≤ (x.num.natAbs : ℚ) * 2 ^ (b + 1) := by
          exact mul_le_mul_of_nonneg_right haq (by positivity)
  unfold binade
  rw [← hadef, ← hbdef]
  by_cases hc2 : (2 : ℚ) ^ ((a : Int) - (b : Int)) ≤ x
  · rw [if_pos hc2]
    exact ⟨hc2, hup⟩
  · rw [if_neg hc2]
    refine ⟨le_of_lt hlow, ?_⟩
    rw [show (a : Int) - (b : Int) - 1 + 1 = (a : Int) - (b : Int) by ring]
    exact not_le.mp hc2

theorem roundNearestEven_bounds (q : ℚ) :
    ⌊q⌋ ≤ roundNearestEven q ∧ roundNearestEven q ≤ ⌊q⌋ + 1 := by
  unfold roundNearestEven
  split_ifs <;> constructor <;> omega

theorem roundNearestEven_mono (p q : ℚ) (h : p ≤ q) :
    roundNearestEven p ≤ roundNearestEven q := by
  have hf : ⌊p⌋ ≤ ⌊q⌋ := Int.floor_mono h
  rcases lt_or_eq_of_le hf with hlt | heq
  · have h1 := (roundNearestEven_bounds p).2
    have h2 := (roundNearestEven_bounds q).1
    omega
  · unfold roundNearestEven
    rw [← heq]
    have hfr : p - (⌊p⌋ : ℚ) ≤ q - (⌊p⌋ : ℚ) := by linarith
    split_ifs <;> first | omega | (exfalso; linarith)

theorem roundNearestEven_intCast (n : Int) : roundNearestEven (n : ℚ) = n := by
  unfold roundNearestEven
  simp

theorem roundF32_of_pos (x : ℚ) (hx : 0 < x) :
    roundF32 x = (roundNearestEven (x / 2 ^ (binade x - 23)) : ℚ) * 2 ^ (binade x - 23) := by
  unfold roundF32
  rw [if_neg (ne_of_gt hx), if_neg (not_lt.mpr (le_of_lt hx)), abs_of_pos hx, one_mul]

/-- The rounded value of a positive rational stays in the closed binade of the rational. -/
theorem roundF32_bounds (x : ℚ) (hx : 0 < x) :
    (2 : ℚ) ^ binade x ≤ roundF32 x ∧ roundF32 x ≤ (2 : ℚ) ^ (binade x + 1) := by
  obtain ⟨hlo, hhi⟩ := binade_spec x hx
  have h2 : (2 : ℚ) ≠ 0 := by norm_num
  have hu : (0 : ℚ) < (2 : ℚ) ^ (binade x - 23) := by positivity
  rw [roundF32_of_pos x hx]
  have e1 : (2 : ℚ) ^ binade x = ((2 ^ 23 : Int) : ℚ) * (2 : ℚ) ^ (binade x - 23) := by
    rw [zpow_sub₀ h2]
    norm_num
    ring
  have e2 : (2 : ℚ) ^ (binade x + 1) = ((2 ^ 24 : Int) : ℚ) * (2 : ℚ) ^ (binade x - 23) := by
    rw [zpow_sub₀ h2, zpow_add_one₀ h2]
    norm_num
    ring
  constructor
  · rw [e1]
    apply mul_le_mul_of_nonneg_right _ (le_of_lt hu)
    have hq : ((2 ^ 23 : Int) : ℚ) ≤ x / 2 ^ (binade x - 23) := by
      rw [le_div_iff₀ hu, ← e1]
      exact hlo
    have := roundNearestEven_mono _ _ hq
    rw [roundNearestEven_intCast] at this
    exact_mod_cast this
  · rw [e2]
    apply mul_le_mul_of_nonneg_right _ (le_of_lt hu)
    have hq : x / 2 ^ (binade x - 23) ≤ ((2 ^ 24 : Int) : ℚ) := by
      rw [div_le_iff₀ hu, ← e2]
      exact le_of_lt hhi
    have := roundNearestEven_mono _ _ hq
    rw [roundNearestEven_intCast] at this
    exact_mod_cast this

theorem roundF32_pos (x : ℚ) (hx : 0 < x) : 0 < roundF32 x :=
  lt_of_lt_of_le (by positivity) (roundF32_bounds x hx).1

theorem binade_mono (x y : ℚ) (hx : 0 < x) (hxy : x ≤ y) : binade x ≤ binade y := by
  by_contra hlt
  have hlt2 : binade y + 1 ≤ binade x := by omega
  have h1 := (binade_spec x hx).1
  have h2 := (binade_spec y (lt_of_lt_of_le hx hxy)).2
  have h3 : (2 : ℚ) ^ (binade y + 1) ≤ (2 : ℚ) ^ binade x :=
    zpow_le_zpow_right₀ (by norm_num) hlt2
  linarith

/-- Rounding to binary32 is monotone on the positive rationals. -/
theorem roundF32_mono (x y : ℚ) (hx : 0 < x) (hxy : x ≤ y) : roundF32 x ≤ roundF32 y := by
  have hy : 0 < y := lt_of_lt_of_le hx hxy
  rcases lt_or_eq_of_le (binade_mono x y hx hxy) with hlt | heq
  · have h1 := (roundF32_bounds x hx).2
    have h2 := (roundF32_bounds y hy).1
    have h3 : (2 : ℚ) ^ (binade x + 1) ≤ (2 : ℚ) ^ binade y :=
      zpow_le_zpow_right₀ (by norm_num) (by omega)
    linarith
  · rw [roundF32_of_pos x hx, roundF32_of_pos y hy, heq]
    have hu : (0 : ℚ) < (2 : ℚ) ^ (binade y - 23) := by positivity
    apply mul_le_mul_of_nonneg_right _ (le_of_lt hu)
    have hq : x / 2 ^ (binade y - 23) ≤ y / 2 ^ (binade y - 23) :=
      div_le_div_of_nonneg_right hxy (le_of_lt hu)
    exact_mod_cast roundNearestEven_mono _ _ hq

theorem binade_unique (x : ℚ) (e : Int) (h1 : (2 : ℚ) ^ e ≤ x) (h2 : x < (2 : ℚ) ^ (e + 1)) :
    binade x = e := by
  have hx : 0 < x := lt_of_lt_of_le (by positivity) h1
  obtain ⟨hlo, hhi⟩ := binade_spec x hx
  have two : (1 : ℚ) < 2 := by norm_num
  have ha : e < binade x + 1 := by
    have := lt_of_le_of_lt h1 hhi
    exact (zpow_lt_zpow_iff_right₀ two).mp this
  have hb : binade x < e + 1 := by
    have := lt_of_le_of_lt hlo h2
    exact (zpow_lt_zpow_iff_right₀ two).mp this
  omega

theorem roundNearestEven_error (q : ℚ) :
    (roundNearestEven q : ℚ) - q ≤ 1 / 2 ∧ q - (roundNearestEven q : ℚ) ≤ 1 / 2 := by
  have h1 : ((⌊q⌋ : Int) : ℚ) ≤ q := Int.floor_le q
  have h2 : q < ((⌊q⌋ : Int) : ℚ) + 1 := Int.lt_floor_add_one q
  unfold roundNearestEven
  split_ifs <;> push_cast <;> constructor <;> linarith

/-- Rounding to binary32 moves a positive rational by at most half a unit in its last
place. -/
theorem roundF32_error (x : ℚ) (hx : 0 < x) :
    roundF32 x - x ≤ (2 : ℚ) ^ (binade x - 24) ∧ x - roundF32 x ≤ (2 : ℚ) ^ (binade x - 24) := by
  have h2 : (2 : ℚ) ≠ 0 := by norm_num
  have hu : (0 : ℚ) < (2 : ℚ) ^ (binade x - 23) := by positivity
  obtain ⟨e1, e2⟩ := roundNearestEven_error (x / 2 ^ (binade x - 23))
  have hhalf : (2 : ℚ) ^ (binade x - 24) = 1 / 2 * (2 : ℚ) ^ (binade x - 23) := by
    rw [show binade x - 24 = (binade x - 23) - 1 by ring, zpow_sub₀ h2]
    norm_num
    ring
  have hx2 : x = x / 2 ^ (binade x - 23) * 2 ^ (binade x - 23) := by
    field_simp
  rw [roundF32_of_pos x hx, hhalf]
  constructor
  · nlinarith [mul_le_mul_of_nonneg_right e1 (le_of_lt hu)]
  · nlinarith [mul_le_mul_of_nonneg_right e2 (le_of_lt hu)]

/-- A positive rational `k * 2 ^ j` with `k < 2 ^ 24` is a `float`. -/
theorem roundF32_exact (k : Nat) (j : Int) (hk : 1 ≤ k) (hk2 : k < 2 ^ 24) :
    roundF32 ((k : ℚ) * (2 : ℚ) ^ j) = (k : ℚ) * (2 : ℚ) ^ j := by
  have h2 : (2 : ℚ) ≠ 0 := by norm_num
  have two : (1 : ℚ) < 2 := by norm_num
  have hkq : (1 : ℚ) ≤ (k : ℚ) := by exact_mod_cast hk
  have hx : 0 < (k : ℚ) * (2 : ℚ) ^ j := by positivity
  obtain ⟨hlo, hhi⟩ := binade_spec _ hx
  set e := binade ((k : ℚ) * (2 : ℚ) ^ j) with he
  have hlt : (k : ℚ) * (2 : ℚ) ^ j < (2 : ℚ) ^ (24 + j) := by
    rw [zpow_add₀ h2]
    have : (k : ℚ) < (2 : ℚ) ^ (24 : Int) := by
      have h3 : (k : ℚ) < ((2 ^ 24 : Nat) : ℚ) := by exact_mod_cast hk2
      have h4 : (2 : ℚ) ^ (24 : Int) = ((2 ^ 24 : Nat) : ℚ) := by norm_num
      rw [h4]
      exact h3
    exact mul_lt_mul_of_pos_right this (by positivity)
  have hej : e < 24 + j := (zpow_lt_zpow_iff_right₀ two).mp (lt_of_le_of_lt hlo hlt)
  obtain ⟨d, hd⟩ : ∃ d : Nat, (d : Int) = 23 + j - e := ⟨(23 + j - e).toNat, by omega⟩
  have hq : (k : ℚ) * (2 : ℚ) ^ j / 2 ^ (e - 23) = (((k * 2 ^ d : Nat) : Int) : ℚ) := by
    have : j = (d : Int) + (e - 23) := by omega
    rw [this, zpow_add₀ h2, zpow_natCast]
    have hu : (2 : ℚ) ^ (e - 23) ≠ 0 := by positivity
    field_simp
    ring
  rw [roundF32_of_pos _ hx, ← he, hq, roundNearestEven_intCast]
  have : j = (d : Int) + (e - 23) := by omega
  rw [this, zpow_add₀ h2, zpow_natCast]
  push_cast
  ring

theorem roundF32_nat (n : Nat) (h1 : 1 ≤ n) (h2 : n < 2 ^ 24) : roundF32 (n : ℚ) = (n : ℚ) := by
  have := roundF32_exact n 0 h1 h2
  simpa using this

theorem roundF32_rel_error (x : ℚ) (hx : 0 < x) :
    roundF32 x - x ≤ x / 16777216 ∧ x - roundF32 x ≤ x / 16777216 := by
  obtain ⟨e1, e2⟩ := roundF32_error x hx
  have h2 : (2 : ℚ) ≠ 0 := by norm_num
  have hb : (2 : ℚ) ^ (binade x - 24) ≤ x / 16777216 := by
    rw [zpow_sub₀ h2]
    have := (binade_spec x hx).1
    have h24 : (2 : ℚ) ^ (24 : Int) = 16777216 := by norm_num
    rw [h24]
    exact div_le_div_of_nonneg_right this (by norm_num)
  constructor <;> linarith

theorem roundF32_one : roundF32 1 = 1 := by decide!

theorem roundF32_two : roundF32 2 = 2 := by decide!

theorem roundF32_half : roundF32 (1 / 2) = 1 / 2 := by decide!

theorem roundF32_ten : roundF32 10 = 10 := by decide!

theorem roundF32_eleven : roundF32 11 = 11 := by decide!

/-- The initial value `1e10` of the cost loop is a `float`. -/
theorem roundF32_start : roundF32 10000000000 = 10000000000 := by decide!

/-- The values `c - (int)state` for `c` one of 10, 10 + 2^-20, 10.5 and 11 are `float`s. -/
theorem roundF32_state_offsets (st : State) :
    roundF32 (10 - (st.toInt : ℚ)) = 10 - (st.toInt : ℚ) ∧
      roundF32 (10 + 1 / 1048576 - (st.toInt : ℚ)) = 10 + 1 / 1048576 - (st.toInt : ℚ) ∧
      roundF32 (21 / 2 - (st.toInt : ℚ)) = 21 / 2 - (st.toInt : ℚ) ∧
      roundF32 (11 - (st.toInt : ℚ)) = 11 - (st.toInt : ℚ) := by
  cases st <;> decide!

/-! ## The kill cost -/

theorem State.toInt_nonneg (st : State) : 0 ≤ st.toInt := by
  cases st <;> decide

theorem State.toInt_le (st : State) : st.toInt ≤ 5 := by
  cases st <;> decide

theorem State.toInt_injective (a b : State) (h : a.toInt = b.toInt) : a = b := by
  cases a <;> cases b <;> first | rfl | (exact absurd h (by decide))

theorem killCost_eq (n : Note) :
    n.killCost = roundF32 (killCostBase n.age - (n.state.toInt : ℚ)) := rfl

theorem recip_age_pos (age : Nat) : 0 < roundF32 (1 / roundF32 ((age + 1 : Nat) : ℚ)) := by
  have h1 : (0 : ℚ) < ((age + 1 : Nat) : ℚ) := by positivity
  have h2 := roundF32_pos _ h1
  exact roundF32_pos _ (by positivity)

/-- The age part of the kill cost does not grow with the age. -/
theorem killCostBase_antitone (a b : Nat) (h : a ≤ b) : killCostBase b ≤ killCostBase a := by
  unfold killCostBase
  have ha : (0 : ℚ) < ((a + 1 : Nat) : ℚ) := by positivity
  have hab : ((a + 1 : Nat) : ℚ) ≤ ((b + 1 : Nat) : ℚ) := by exact_mod_cast Nat.succ_le_succ h
  have h1 := roundF32_mono _ _ ha hab
  have hpa := roundF32_pos _ ha
  have hpb : 0 < roundF32 ((b + 1 : Nat) : ℚ) := lt_of_lt_of_le hpa h1
  have h2 : 1 / roundF32 ((b + 1 : Nat) : ℚ) ≤ 1 / roundF32 ((a + 1 : Nat) : ℚ) :=
    one_div_le_one_div_of_le hpa h1
  have h3 := roundF32_mono _ _ (by positivity) h2
  have h4 := recip_age_pos b
  exact roundF32_mono _ _ (by linarith) (by linarith)

theorem killCostBase_zero : killCostBase 0 = 11 := by decide!

theorem killCostBase_one : killCostBase 1 = 21 / 2 := by decide!

theorem killCostBase_last_above_ten : killCostBase 2097150 = 10 + 1 / 1048576 := by decide!

theorem killCostBase_first_ten : killCostBase 2097151 = 10 := by decide!

theorem killCostBase_ge (age : Nat) : 10 ≤ killCostBase age := by
  unfold killCostBase
  have h4 := recip_age_pos age
  have := roundF32_mono 10 _ (by norm_num) (by linarith : (10 : ℚ) ≤ _ + 10)
  rw [roundF32_ten] at this
  exact this

theorem killCostBase_le (age : Nat) : killCostBase age ≤ 11 := by
  have := killCostBase_antitone 0 age (Nat.zero_le _)
  rw [killCostBase_zero] at this
  exact this

theorem killCost_arg_pos (n : Note) : 0 < killCostBase n.age - (n.state.toInt : ℚ) := by
  have h1 := killCostBase_ge n.age
  have h2 : (n.state.toInt : ℚ) ≤ 5 := by exact_mod_cast State.toInt_le n.state
  linarith

/-- A lower bound of the age part that is a `float` after the state is subtracted carries
over to the kill cost. -/
theorem killCost_ge_of (n : Note) (c : ℚ) (hc : c ≤ killCostBase n.age) (h10 : 10 ≤ c)
    (hfix : roundF32 (c - (n.state.toInt : ℚ)) = c - (n.state.toInt : ℚ)) :
    c - (n.state.toInt : ℚ) ≤ n.killCost := by
  have h2 : (n.state.toInt : ℚ) ≤ 5 := by exact_mod_cast State.toInt_le n.state
  rw [killCost_eq, ← hfix]
  exact roundF32_mono _ _ (by linarith) (by linarith)

theorem killCost_le_of (n : Note) (c : ℚ) (hc : killCostBase n.age ≤ c)
    (hfix : roundF32 (c - (n.state.toInt : ℚ)) = c - (n.state.toInt : ℚ)) :
    n.killCost ≤ c - (n.state.toInt : ℚ) := by
  rw [killCost_eq, ← hfix]
  exact roundF32_mono _ _ (killCost_arg_pos n) (by linarith)

theorem killCost_ge (n : Note) : 10 - (n.state.toInt : ℚ) ≤ n.killCost :=
  killCost_ge_of n 10 (killCostBase_ge n.age) (le_refl _) (roundF32_state_offsets n.state).1

theorem killCost_le (n : Note) : n.killCost ≤ 11 - (n.state.toInt : ℚ) :=
  killCost_le_of n 11 (killCostBase_le n.age) (roundF32_state_offsets n.state).2.2.2

theorem killCost_lt_start (n : Note) : n.killCost < 10000000000 := by
  have h1 := killCost_le n
  have h2 : (0 : ℚ) ≤ (n.state.toInt : ℚ) := by exact_mod_cast State.toInt_nonneg n.state
  linarith

/-- Voices of the same state and age have the same kill cost. -/
theorem killCost_congr (a b : Note) (hs : a.state = b.state) (hage : a.age = b.age) :
    a.killCost = b.killCost := by
  rw [killCost_eq, killCost_eq, hs, hage]

/-- Among voices of one state the kill cost does not grow with the age. -/
theorem killCost_antitone_age (a b : Note) (hs : a.state = b.state) (hage : a.age ≤ b.age) :
    b.killCost ≤ a.killCost := by
  rw [killCost_eq, killCost_eq, hs]
  have := killCostBase_antitone a.age b.age hage
  exact roundF32_mono _ _ (killCost_arg_pos _) (by linarith)

theorem recip_age_le_one (age : Nat) : roundF32 (1 / roundF32 ((age + 1 : Nat) : ℚ)) ≤ 1 := by
  have h1 : (0 : ℚ) < (1 : ℚ) := by norm_num
  have hn : (1 : ℚ) ≤ ((age + 1 : Nat) : ℚ) := by
    have : 1 ≤ age + 1 := Nat.succ_le_succ (Nat.zero_le _)
    exact_mod_cast this
  have hf := roundF32_mono 1 _ h1 hn
  rw [roundF32_one] at hf
  have hr : 1 / roundF32 ((age + 1 : Nat) : ℚ) ≤ 1 := by
    rw [div_le_one (by linarith)]
    exact hf
  have := roundF32_mono _ 1 (by positivity) hr
  rw [roundF32_one] at this
  exact this

theorem binade_age_sum (age : Nat) :
    binade (roundF32 (1 / roundF32 ((age + 1 : Nat) : ℚ)) + 10) = 3 := by
  have h1 := recip_age_pos age
  have h2 := recip_age_le_one age
  have e8 : (2 : ℚ) ^ (3 : Int) = 8 := by norm_num
  have e16 : (2 : ℚ) ^ ((3 : Int) + 1) = 16 := by norm_num
  exact binade_unique _ 3 (by rw [e8]; linarith) (by rw [e16]; linarith)

/-- The age part of the kill cost is a multiple of `2^-20` between 10 and 11. -/
theorem killCostBase_form (age : Nat) :
    ∃ K : Nat, 10485760 ≤ K ∧ K ≤ 11534336 ∧ killCostBase age = (K : ℚ) / 1048576 := by
  have hpos : 0 < roundF32 (1 / roundF32 ((age + 1 : Nat) : ℚ)) + 10 := by
    have := recip_age_pos age
    linarith
  have hge := killCostBase_ge age
  have hle := killCostBase_le age
  have hform : killCostBase age =
      (roundNearestEven
          ((roundF32 (1 / roundF32 ((age + 1 : Nat) : ℚ)) + 10) / 2 ^ ((3 : Int) - 23)) : ℚ) *
        2 ^ ((3 : Int) - 23) := by
    unfold killCostBase
    rw [roundF32_of_pos _ hpos, binade_age_sum]
  set r := roundNearestEven
    ((roundF32 (1 / roundF32 ((age + 1 : Nat) : ℚ)) + 10) / 2 ^ ((3 : Int) - 23)) with hr
  have hu : (2 : ℚ) ^ ((3 : Int) - 23) = 1 / 1048576 := by norm_num
  rw [hu] at hform
  rw [hform] at hge hle
  have h1 : (10485760 : ℚ) ≤ (r : ℚ) := by linarith
  have h2 : (r : ℚ) ≤ 11534336 := by linarith
  have h1i : (10485760 : Int) ≤ r := by exact_mod_cast h1
  have h2i : r ≤ (11534336 : Int) := by exact_mod_cast h2
  refine ⟨r.toNat, by omega, by omega, ?_⟩
  rw [hform]
  have hc : ((r.toNat : Nat) : ℚ) = (r : ℚ) := by
    have : ((r.toNat : Nat) : Int) = r := Int.toNat_of_nonneg (by omega)
    exact_mod_cast this
  rw [hc]
  ring

/-- The subtraction of the state ordinal in the kill cost is exact. -/
theorem killCost_exact (n : Note) :
    n.killCost = killCostBase n.age - (n.state.toInt : ℚ) := by
  obtain ⟨K, hK1, hK2, hF⟩ := killCostBase_form n.age
  have hs0 := State.toInt_nonneg n.state
  have hs5 := State.toInt_le n.state
  rw [killCost_eq, hF]
  have hk : (K : ℚ) / 1048576 - (n.state.toInt : ℚ) =
      ((K - n.state.toInt.toNat * 1048576 : Nat) : ℚ) * (2 : ℚ) ^ (-20 : Int) := by
    have hsub : n.state.toInt.toNat * 1048576 ≤ K := by omega
    have hc : ((n.state.toInt.toNat : Nat) : ℚ) = (n.state.toInt : ℚ) := by
      have : ((n.state.toInt.toNat : Nat) : Int) = n.state.toInt := Int.toNat_of_nonneg hs0
      exact_mod_cast this
    rw [Nat.cast_sub hsub]
    push_cast
    rw [hc]
    norm_num
    ring
  rw [hk]
  exact roundF32_exact _ _ (by omega) (by omega)

/-- Up to age 1022 the age part of the kill cost strictly decreases with the age. -/
theorem killCostBase_strict (a : Nat) (h : a ≤ 1022) : killCostBase (a + 1) < killCostBase a := by
  have hn1 : roundF32 ((a + 1 : Nat) : ℚ) = ((a + 1 : Nat) : ℚ) :=
    roundF32_nat (a + 1) (by omega) (by omega)
  have hn2 : roundF32 ((a + 1 + 1 : Nat) : ℚ) = ((a + 1 + 1 : Nat) : ℚ) :=
    roundF32_nat (a + 1 + 1) (by omega) (by omega)
  have hp1 : (0 : ℚ) < 1 / ((a + 1 : Nat) : ℚ) := by positivity
  have hp2 : (0 : ℚ) < 1 / ((a + 1 + 1 : Nat) : ℚ) := by positivity
  obtain ⟨-, e1⟩ := roundF32_rel_error _ hp1
  obtain ⟨e2, -⟩ := roundF32_rel_error _ hp2
  have hy1 := recip_age_pos a
  have hy2 := recip_age_pos (a + 1)
  have hs1 : 0 < roundF32 (1 / roundF32 ((a + 1 : Nat) : ℚ)) + 10 := by linarith
  have hs2 : 0 < roundF32 (1 / roundF32 ((a + 1 + 1 : Nat) : ℚ)) + 10 := by linarith
  obtain ⟨-, f1⟩ := roundF32_error _ hs1
  obtain ⟨f2, -⟩ := roundF32_error _ hs2
  rw [binade_age_sum a] at f1
  rw [binade_age_sum (a + 1)] at f2
  have hu : (2 : ℚ) ^ ((3 : Int) - 24) = 1 / 2097152 := by norm_num
  rw [hu] at f1 f2
  rw [hn1] at f1 hy1
  rw [hn2] at f2 hy2
  unfold killCostBase
  rw [hn1, hn2]
  have hq : (1 : ℚ) ≤ ((a + 1 : Nat) : ℚ) := by
    have : 1 ≤ a + 1 := by omega
    exact_mod_cast this
  have hq2 : ((a + 1 : Nat) : ℚ) ≤ 1023 := by
    have : a + 1 ≤ 1023 := by omega
    exact_mod_cast this
  have hc : ((a + 1 + 1 : Nat) : ℚ) = ((a + 1 : Nat) : ℚ) + 1 := by push_cast; ring
  rw [hc] at e2 f2 ⊢
  set n : ℚ := ((a + 1 : Nat) : ℚ) with hn
  have key : 1 / 1048576 < 1 / n - 1 / n / 16777216 - (1 / (n + 1) + 1 / (n + 1) / 16777216) := by
    have hnpos : (0 : ℚ) < n := by linarith
    have hn1pos : (0 : ℚ) < n + 1 := by linarith
    have heq : 1 / n - 1 / n / 16777216 - (1 / (n + 1) + 1 / (n + 1) / 16777216) - 1 / 1048576 =
        (16777216 - (2 * n + 1) - 16 * n * (n + 1)) / (16777216 * n * (n + 1)) := by
      field_simp
      ring
    have hnum : 0 < 16777216 - (2 * n + 1) - 16 * n * (n + 1) := by nlinarith
    have : 0 < 1 / n - 1 / n / 16777216 - (1 / (n + 1) + 1 / (n + 1) / 16777216) - 1 / 1048576 := by
      rw [heq]
      exact div_pos hnum (by positivity)
    linarith
  linarith

/-- Among voices of one state, a voice of age at most 1022 costs strictly more than every
older one. -/
theorem killCost_strict_age (v a : Note) (hs : a.state = v.state) (hv : v.age ≤ 1022)
    (hlt : v.age < a.age) : a.killCost < v.killCost := by
  rw [killCost_exact, killCost_exact, hs]
  have h1 := killCostBase_antitone (v.age + 1) a.age (by omega)
  have h2 := killCostBase_strict v.age hv
  linarith

/-- What the least kill cost says of the voice that has it: no voice is more than one state
ahead of it; a voice one state ahead has age 0 while its own age is at least 2097151, where
the age part of its cost has rounded away; a voice in its state that is older has the same
cost; and no voice in its state is older when its own age is at most 1022. -/
theorem killCost_min_order (v a : Note) (h : v.killCost ≤ a.killCost) :
    a.state.toInt ≤ v.state.toInt + 1 ∧
      (a.state.toInt = v.state.toInt + 1 → a.age = 0 ∧ 2097151 ≤ v.age) ∧
      (a.state = v.state → v.age < a.age → a.killCost = v.killCost) ∧
      (a.state = v.state → v.age ≤ 1022 → a.age ≤ v.age) := by
  have hv := killCost_ge v
  have ha := killCost_le a
  refine ⟨?_, ?_, ?_, ?_⟩
  · have hq : (a.state.toInt : ℚ) ≤ (v.state.toInt : ℚ) + 1 := by linarith
    exact_mod_cast hq
  · intro hst
    have hq : (a.state.toInt : ℚ) = (v.state.toInt : ℚ) + 1 := by exact_mod_cast hst
    constructor
    · by_contra hage
      have h1 : 1 ≤ a.age := by omega
      have hb := killCostBase_antitone 1 a.age h1
      rw [killCostBase_one] at hb
      have := killCost_le_of a (21 / 2) hb (roundF32_state_offsets a.state).2.2.1
      linarith
    · by_contra hage
      have h1 : v.age ≤ 2097150 := by omega
      have hb := killCostBase_antitone v.age 2097150 h1
      rw [killCostBase_last_above_ten] at hb
      have := killCost_ge_of v (10 + 1 / 1048576) hb (by norm_num)
        (roundF32_state_offsets v.state).2.1
      linarith
  · intro hst hage
    exact le_antisymm (killCost_antitone_age v a hst.symm (le_of_lt hage)) h
  · intro hst hage
    by_contra hlt
    have := killCost_strict_age v a hst hage (by omega)
    linarith

namespace NoteManager

/-! ## The choice of the note to kill -/

/-- The loop of `start` returns either the index it was entered with, when no remaining
note is cheaper than the cost it was entered with, or the position of the first note of
least cost among the remaining ones. -/
theorem findKillIndex_spec (notes : List Note) (i k : Nat) (c : ℚ) :
    (findKillIndex notes i k c = k ∧ ∀ a ∈ notes, c ≤ a.killCost) ∨
      (i ≤ findKillIndex notes i k c ∧
        ∃ v, notes[findKillIndex notes i k c - i]? = some v ∧ v.killCost < c ∧
          (∀ a ∈ notes, v.killCost ≤ a.killCost) ∧
          ∀ j, j < findKillIndex notes i k c - i → ∀ a, notes[j]? = some a →
            v.killCost < a.killCost) := by
  induction notes generalizing i k c with
  | nil => left; exact ⟨rfl, by simp⟩
  | cons b rest ih =>
    simp only [findKillIndex]
    by_cases hb : b.killCost < c
    · simp only [hb, if_true]
      right
      rcases ih (i + 1) i b.killCost with ⟨h1, h2⟩ | ⟨h1, v, h2, h3, h4, h5⟩
      · rw [h1]
        refine ⟨le_refl _, b, by simp, hb, ?_, ?_⟩
        · intro a ha
          rcases List.mem_cons.mp ha with rfl | ha
          · exact le_refl _
          · exact h2 a ha
        · intro j hj
          simp at hj
      · set r := findKillIndex rest (i + 1) i b.killCost with hr
        have hri : r - i = (r - (i + 1)) + 1 := by omega
        refine ⟨by omega, v, ?_, lt_trans h3 hb, ?_, ?_⟩
        · rw [hri, List.getElem?_cons_succ]; exact h2
        · intro a ha
          rcases List.mem_cons.mp ha with rfl | ha
          · exact le_of_lt h3
          · exact h4 a ha
        · intro j hj a ha
          cases j with
          | zero =>
            simp only [List.getElem?_cons_zero, Option.some.injEq] at ha
            rw [← ha]; exact h3
          | succ j =>
            rw [List.getElem?_cons_succ] at ha
            exact h5 j (by omega) a ha
    · simp only [hb, if_false]
      have hcb : c ≤ b.killCost := not_lt.mp hb
      rcases ih (i + 1) k c with ⟨h1, h2⟩ | ⟨h1, v, h2, h3, h4, h5⟩
      · left
        refine ⟨h1, ?_⟩
        intro a ha
        rcases List.mem_cons.mp ha with rfl | ha
        · exact hcb
        · exact h2 a ha
      · right
        set r := findKillIndex rest (i + 1) k c with hr
        have hri : r - i = (r - (i + 1)) + 1 := by omega
        refine ⟨by omega, v, ?_, h3, ?_, ?_⟩
        · rw [hri, List.getElem?_cons_succ]; exact h2
        · intro a ha
          rcases List.mem_cons.mp ha with rfl | ha
          · exact le_trans (le_of_lt h3) hcb
          · exact h4 a ha
        · intro j hj a ha
          cases j with
          | zero =>
            simp only [List.getElem?_cons_zero, Option.some.injEq] at ha
            rw [← ha]; exact lt_of_lt_of_le h3 hcb
          | succ j =>
            rw [List.getElem?_cons_succ] at ha
            exact h5 j (by omega) a ha

/-- The note `start` picks, in a non-empty pool: it has the least kill cost, and every note
stored before it costs strictly more. -/
theorem findKillIndex_start (notes : List Note) (hne : notes ≠ []) :
    ∃ v, notes[findKillIndex notes 0 0 10000000000]? = some v ∧
      (∀ a ∈ notes, v.killCost ≤ a.killCost) ∧
      ∀ j, j < findKillIndex notes 0 0 10000000000 → ∀ a, notes[j]? = some a →
        v.killCost < a.killCost := by
  rcases findKillIndex_spec notes 0 0 10000000000 with ⟨-, h2⟩ | ⟨-, v, h2, -, h4, h5⟩
  · obtain ⟨a, ha⟩ := List.exists_mem_of_ne_nil notes hne
    exact absurd (h2 a ha) (not_le.mpr (killCost_lt_start a))
  · exact ⟨v, by simpa using h2, h4, by simpa using h5⟩

/-- The call `start` with a full pool, from a state that satisfies the invariant: the note picked by
the cost loop is written as the kill task, `stop` removes the first stored note carrying
its note id, and the new note takes the voice index that `stop` freed. -/
theorem start_at_capacity (P : Nat) (m : NoteManager) (newNote : Note) (h : Inv P m)
    (hP : 1 ≤ P) (hfull : m.notes.length ≥ m.capacity) :
    ∃ victim j removed,
      m.notes[findKillIndex m.notes 0 0 10000000000]? = some victim ∧
      findMatch (killNote victim newNote)
          (m.notes.set (findKillIndex m.notes 0 0 10000000000) (killNote victim newNote)) 0
        = some (j, removed) ∧
      start m newNote =
        some
          ({ m with
              tasks := [killNote victim newNote]
              notes :=
                removeNote
                    (m.notes.set (findKillIndex m.notes 0 0 10000000000)
                      (killNote victim newNote)) j ++
                  [{ newNote with voiceIndex := removed.voiceIndex }]
              voiceIndexQueue := m.voiceIndexQueue },
            { newNote with voiceIndex := removed.voiceIndex }, sendNoteEnd removed) := by
  have hcount := h.count
  have hcap := h.cap
  have hk : findKillIndex m.notes 0 0 10000000000 < m.notes.length := by
    have := findKillIndex_lt m.notes 0 0 10000000000 (by omega)
    omega
  set k := findKillIndex m.notes 0 0 10000000000 with hkdef
  set kn : Note := killNote m.notes[k] newNote with hkn
  have hkid : kn.noteId ≠ -1 := h.ids m.notes[k] (List.getElem_mem hk)
  have hmem : kn ∈ m.notes.set k kn := List.mem_set m.notes k hk kn
  obtain ⟨⟨j, removed⟩, hr⟩ := findMatch_isSome kn (m.notes.set k kn) 0 kn hmem
    (matchNote_self _ hkid)
  refine ⟨m.notes[k], j, removed, List.getElem?_eq_getElem hk, hr, ?_⟩
  unfold start
  rw [startKill_full m newNote hfull hk, stop_some _ kn j removed hr]
  simp only [List.getLast?_concat, List.dropLast_concat, removeNote_length, List.length_set]
  rw [if_neg (by omega)]

/-- The call `start` with room in the pool, from a state that satisfies the invariant. -/
theorem start_with_room (P : Nat) (m : NoteManager) (newNote : Note) (h : Inv P m)
    (hroom : ¬ m.notes.length ≥ m.capacity) :
    ∃ voiceIndex, m.voiceIndexQueue.getLast? = some voiceIndex ∧
      start m newNote =
        some
          ({ m with
              tasks := []
              voiceIndexQueue := m.voiceIndexQueue.dropLast
              notes := m.notes ++ [{ newNote with voiceIndex := voiceIndex }] },
            { newNote with voiceIndex := voiceIndex }, []) := by
  have hcount := h.count
  have hcap := h.cap
  have hq : m.voiceIndexQueue ≠ [] := by
    intro hq
    rw [hq] at hcount
    simp at hcount
    omega
  refine ⟨m.voiceIndexQueue.getLast hq, List.getLast?_eq_getLast _ hq, ?_⟩
  unfold start
  rw [startKill_room m newNote hroom]
  simp only [List.getLast?_eq_getLast _ hq]
  rw [if_neg hroom]

/-! ## Capacity -/

/-- C1: for every polyphony `P ≥ 1` and every sequence of `reset`, `startBlock`, `processTo`,
`start`, `legato`, `release`, `modNotes` and `stop` calls on a freshly constructed manager
(`start` and `legato` being handed the candidates of `wouldStart`), every call is defined
and the manager reached holds at most `P` active voices, its polyphony still being `P`. -/
theorem C1_active_voices_le_polyphony (stdPow : ℚ → ℚ → ℚ) (P : Nat) (pitchWheelRange : ℚ)
    (hP : 1 ≤ P) (calls : List Call) (hdef : ∀ c ∈ calls, c.defined = true) :
    ∃ m, run stdPow (create P pitchWheelRange) calls = some m ∧ m.polyphony = P ∧
      m.notes.length ≤ P := by
  obtain ⟨m, hm, hinv⟩ :=
    run_inv stdPow P hP calls (create P pitchWheelRange) (create_inv P pitchWheelRange) hdef
  refine ⟨m, hm, hinv.cap, ?_⟩
  have := hinv.count
  omega

/-- C1 at polyphony 1: three note-ons, a block advance, a release and one more note-on. -/
theorem C1_active_voices_le_polyphony_witness :
    ∃ m,
      run samplePow (create 1 2)
          [.start (sampleNoteOn 0 5 0 60), .start (sampleNoteOn 3 6 0 61), .processTo 16,
            .release (sampleRelease 16 6 0 61) 16, .start (sampleNoteOn 20 (-1) 0 62)] = some m ∧
        m.polyphony = 1 ∧ m.notes.length ≤ 1 :=
  C1_active_voices_le_polyphony samplePow 1 2 (by decide) _ (by decide)

/-! ## Voice indices -/

/-- C2, evaluated where it fails: at polyphony 1, after a note-on (note id 5) is started and a
second note-on (note id 6) is played legato onto it, the request being the one `wouldRelease`
builds from a note-off for note id 5, the only active voice has voice index `size_t(-1)`,
which is not below the polyphony. -/
theorem C2_legato_voiceIndex_not_below_polyphony :
    wouldRelease samplePow (create 1 2) (sampleNoteOff 3 5 0 60) = some (sampleRelease 3 5 0 60) ∧
      (run samplePow (create 1 2)
          [.start (sampleNoteOn 0 5 0 60),
            .legato (sampleNoteOn 3 6 0 60) (sampleRelease 3 5 0 60)]).map
        (fun m => (m.polyphony, m.notes.map (fun n => n.voiceIndex)))
        = some (1, [18446744073709551615]) := by
  decide!

/-! ## Voice stealing -/

theorem sampleFullPool_inv : Inv 2 sampleFullPool :=
  ⟨rfl, rfl, by decide, by decide⟩

/-- The sample full pool is the state reached by starting two notes, advancing 99 samples,
releasing the second note and advancing one more sample. -/
theorem sampleFullPool_reached :
    (run samplePow (create 2 2)
        [.start (sampleNoteOn 0 5 0 60), .start (sampleNoteOn 0 6 0 61), .processTo 99,
          .release (sampleRelease 99 6 0 61) 99, .processTo 100]).map
      (fun m => (m.notes, m.voiceIndexQueue, m.capacity))
      = some (sampleFullPool.notes, sampleFullPool.voiceIndexQueue, sampleFullPool.capacity) := by
  decide!

/-- C3, as stated, fails: at polyphony 2 two notes are started at time 0 and advanced to
3000000, and the second is released there, so the pool holds a voice in Continue of age
3000000 and one in Up of age 0.  Computed in `float`, both kill costs are 8: the age part of
the first has rounded away.  The tie goes to the voice stored first, and `start` steals the
voice in Continue although the voice in Up has the higher state ordinal. -/
theorem C3_rounded_cost_steals_less_advanced_voice :
    (run samplePow (create 2 2)
        [.start (sampleNoteOn 0 5 0 60), .start (sampleNoteOn 0 6 0 61), .processTo 3000000,
          .release (sampleRelease 3000000 6 0 61) 3000000]).map
        (fun m => m.notes.map (fun n => (n.noteId, n.state, n.age)))
      = some [(5, .stateContinue, 3000000), (6, .stateUp, 0)] ∧
    (run samplePow (create 2 2)
        [.start (sampleNoteOn 0 5 0 60), .start (sampleNoteOn 0 6 0 61), .processTo 3000000,
          .release (sampleRelease 3000000 6 0 61) 3000000]).map
        (fun m => m.notes.map (fun n => n.killCost))
      = some [8, 8] ∧
    (run samplePow (create 2 2)
        [.start (sampleNoteOn 0 5 0 60), .start (sampleNoteOn 0 6 0 61), .processTo 3000000,
          .release (sampleRelease 3000000 6 0 61) 3000000,
          .start (sampleNoteOn 3000000 7 0 62)]).map
        (fun m => (m.tasks.map (fun t => (t.noteId, t.state)),
          m.notes.map (fun n => (n.noteId, n.state))))
      = some ([(5, .stateKill)], [(6, .stateUp), (7, .stateDown)]) := by
  refine ⟨by decide!, by decide!, by decide!⟩

/-- C3, amended: with the kill cost `1/(age+1) + 10 - stateOrdinal` computed in `float` as the
source does, `start` on a full pool returns as its kill task the voice the cost loop picks,
which has the least cost.  No voice is more than one state ordinal ahead of it; a voice one
ordinal ahead has age 0 while the picked voice has an age of at least 2097151, from where the
age part of the cost has rounded away.  Among the voices in its state the picked voice is
the oldest when its age is at most 1022; in general every voice in its state that is older
has exactly the same rounded cost. -/
theorem C3_start_kills_least_rounded_cost (P : Nat) (m : NoteManager) (newNote : Note)
    (h : Inv P m) (hP : 1 ≤ P) (hfull : m.notes.length ≥ m.polyphony) :
    ∃ victim r,
      m.notes[findKillIndex m.notes 0 0 10000000000]? = some victim ∧
      start m newNote = some r ∧ r.1.tasks = [killNote victim newNote] ∧
      ∀ a ∈ m.notes,
        victim.killCost ≤ a.killCost ∧
        a.state.toInt ≤ victim.state.toInt + 1 ∧
        (a.state.toInt = victim.state.toInt + 1 → a.age = 0 ∧ 2097151 ≤ victim.age) ∧
        (a.state = victim.state → victim.age < a.age → a.killCost = victim.killCost) ∧
        (a.state = victim.state → victim.age ≤ 1022 → a.age ≤ victim.age) := by
  obtain ⟨victim, j, removed, hv, -, hs⟩ := start_at_capacity P m newNote h hP hfull
  have hne : m.notes ≠ [] := by
    intro hnil
    have := h.cap
    rw [hnil] at hfull
    simp [polyphony] at hfull
    omega
  obtain ⟨v, hv2, hmin, -⟩ := findKillIndex_start m.notes hne
  rw [hv] at hv2
  simp only [Option.some.injEq] at hv2
  subst hv2
  exact ⟨victim, _, hv, hs, rfl,
    fun a ha => ⟨hmin a ha, killCost_min_order victim a (hmin a ha)⟩⟩

/-- C3, amended, on the sample full pool (Continue of age 100, Release of age 1, polyphony 2):
the kill task returned is the released voice, the one with voice index 1. -/
theorem C3_start_kills_least_rounded_cost_witness :
    (∃ victim r,
      sampleFullPool.notes[findKillIndex sampleFullPool.notes 0 0 10000000000]? = some victim ∧
      start sampleFullPool (sampleCandidate 100 7 0 62) = some r ∧
      r.1.tasks = [killNote victim (sampleCandidate 100 7 0 62)] ∧
      ∀ a ∈ sampleFullPool.notes,
        victim.killCost ≤ a.killCost ∧
        a.state.toInt ≤ victim.state.toInt + 1 ∧
        (a.state.toInt = victim.state.toInt + 1 → a.age = 0 ∧ 2097151 ≤ victim.age) ∧
        (a.state = victim.state → victim.age < a.age → a.killCost = victim.killCost) ∧
        (a.state = victim.state → victim.age ≤ 1022 → a.age ≤ victim.age)) ∧
    (start sampleFullPool (sampleCandidate 100 7 0 62)).map
        (fun r => (r.1.tasks.map (fun t => (t.voiceIndex, t.noteId, t.state)),
          r.1.notes.map (fun n => (n.voiceIndex, n.noteId, n.state))))
      = some ([(1, 6, .stateKill)], [(0, 5, .stateContinue), (1, 7, .stateDown)]) :=
  ⟨C3_start_kills_least_rounded_cost 2 sampleFullPool (sampleCandidate 100 7 0 62)
      sampleFullPool_inv (by decide) (by decide),
    by decide!⟩

/-- C4, as stated, fails: at polyphony 2 two note-ons carrying the same note id 5 (keys 60 and
61) are started, the second is released by key, and a third note-on (note id 7) is started.
The kill task reports the released voice (voice index 1), but the voice removed is the first
one stored with note id 5: afterwards the voice of the kill task is still active, in state
Kill, and the new voice holds voice index 0. -/
theorem C4_start_removes_first_voice_with_same_noteId :
    (run samplePow (create 2 2)
        [.start (sampleNoteOn 0 5 0 60), .start (sampleNoteOn 0 5 0 61),
          .release (sampleRelease 0 (-1) 0 61) 0, .start (sampleNoteOn 10 7 0 62)]).map
      (fun m => (m.tasks.map (fun t => (t.voiceIndex, t.baseKey, t.state)),
        m.notes.map (fun n => (n.voiceIndex, n.baseKey, n.state))))
      = some ([(1, 61, .stateKill)], [(1, 61, .stateKill), (0, 62, .stateDown)]) := by
  decide!

/-- C5: from a state that satisfies the invariant, `start` returns no task while the number
of active voices is below the polyphony, and exactly one task when the pool is full; that task
is in state Kill and carries the voice index and the cursor of the note picked by the cost
loop, and it ends at the candidate's start time. -/
theorem C5_start_returns_at_most_the_kill_task (P : Nat) (m : NoteManager) (newNote : Note)
    (h : Inv P m) (hP : 1 ≤ P) :
    (m.notes.length < m.polyphony → ∃ r, start m newNote = some r ∧ r.1.tasks = []) ∧
    (m.notes.length ≥ m.polyphony →
      ∃ victim r task,
        m.notes[findKillIndex m.notes 0 0 10000000000]? = some victim ∧
        start m newNote = some r ∧ r.1.tasks = [task] ∧ task.state = .stateKill ∧
        task.voiceIndex = victim.voiceIndex ∧ task.processFrom = victim.processFrom ∧
        task.processTo = newNote.processFrom) := by
  constructor
  · intro hlt
    obtain ⟨v, -, hs⟩ := start_with_room P m newNote h (by simpa [polyphony] using hlt)
    exact ⟨_, hs, rfl⟩
  · intro hfull
    obtain ⟨victim, j, removed, hv, -, hs⟩ := start_at_capacity P m newNote h hP hfull
    exact ⟨victim, _, killNote victim newNote, hv, hs, rfl, rfl, rfl, rfl, rfl⟩

/-- C5 on the sample full pool, with a candidate that starts at the cursor of the voices. -/
theorem C5_start_returns_at_most_the_kill_task_witness :
    (sampleFullPool.notes.length < sampleFullPool.polyphony →
      ∃ r, start sampleFullPool (sampleCandidate 100 7 0 62) = some r ∧ r.1.tasks = []) ∧
    (sampleFullPool.notes.length ≥ sampleFullPool.polyphony →
      ∃ victim r task,
        sampleFullPool.notes[findKillIndex sampleFullPool.notes 0 0 10000000000]? = some victim ∧
        start sampleFullPool (sampleCandidate 100 7 0 62) = some r ∧ r.1.tasks = [task] ∧
        task.state = .stateKill ∧ task.voiceIndex = victim.voiceIndex ∧
        task.processFrom = victim.processFrom ∧
        task.processTo = (sampleCandidate 100 7 0 62).processFrom) :=
  C5_start_returns_at_most_the_kill_task 2 sampleFullPool (sampleCandidate 100 7 0 62)
    sampleFullPool_inv (by decide)

/-! ## Advancing to a block boundary -/

theorem sub32_of_lt (a b : Nat) (hab : b < a) (ha : a < 4294967296) : sub32 a b = a - b := by
  unfold sub32
  omega

theorem processToNote_behind (frames : Nat) (n : Note) (h : n.processFrom < frames) :
    processToNote frames n =
      ({ n with
          processTo := frames
          processFrom := frames
          age := n.age + sub32 frames n.processFrom
          state :=
            match n.state with
            | .stateDown => .stateContinue
            | .stateLegato => .stateContinue
            | .stateUp => .stateRelease
            | st => st },
        [{ n with processTo := frames }]) := by
  obtain ⟨vi, key, vel, vol, pan, md, ex, br, pr, port, ch, st, pf, pt, id, bk, age⟩ := n
  cases st <;> simp [processToNote, h]

theorem processToNote_caught_up (frames : Nat) (n : Note) (h : ¬ n.processFrom < frames) :
    processToNote frames n = (n, []) := by
  simp only [processToNote, h, if_false]

theorem processToNote_cursor (frames : Nat) (n : Note) :
    ¬ (processToNote frames n).1.processFrom < frames := by
  by_cases h : n.processFrom < frames
  · rw [processToNote_behind frames n h]
    simp
  · rw [processToNote_caught_up frames n h]
    exact h

/-- C6: calling `processTo(t)` twice in a row returns an empty task list the second time and
leaves every voice, and the rest of the manager, as the first call left it. -/
theorem C6_processTo_twice (m : NoteManager) (t : Nat) :
    (m.processTo t).processTo t = { m.processTo t with tasks := [] } := by
  have hstep : ∀ n : Note,
      processToNote t (processToNote t n).1 = ((processToNote t n).1, []) :=
    fun n => processToNote_caught_up t _ (processToNote_cursor t n)
  simp only [processTo, List.map_map, Function.comp_def, hstep]
  congr 1
  simp

theorem processTo_tasks_eq (notes : List Note) (frames : Nat) :
    (notes.map (fun n => (processToNote frames n).2)).flatten =
      (notes.filter (fun n => decide (n.processFrom < frames))).map
        (fun n => { n with processTo := frames }) := by
  induction notes with
  | nil => rfl
  | cons a rest ih =>
    by_cases h : a.processFrom < frames
    · simp [processToNote_behind frames a h, h, ih]
    · simp [processToNote_caught_up frames a h, h, ih]

/-- C7: `processTo(frames)` returns, in storage order, exactly one task for each active voice
whose cursor is below `frames`, spanning from that cursor to `frames`, and none for any other
voice; each such voice ends with `processFrom = processTo = frames` and its age increased by
`frames` minus its previous cursor, and every voice with cursor at or past `frames` is
unchanged. -/
theorem C7_processTo_tasks_and_cursors (m : NoteManager) (frames : Nat)
    (hframes : frames < 4294967296) :
    (m.processTo frames).tasks =
        (m.notes.filter (fun n => decide (n.processFrom < frames))).map
          (fun n => { n with processTo := frames }) ∧
      List.Forall₂
        (fun n n1 =>
          (n.processFrom < frames →
            n1.processFrom = frames ∧ n1.processTo = frames ∧
              n1.age = n.age + (frames - n.processFrom)) ∧
          (frames ≤ n.processFrom → n1 = n))
        m.notes (m.processTo frames).notes := by
  refine ⟨processTo_tasks_eq m.notes frames, ?_⟩
  simp only [processTo, List.forall₂_map_right_iff, List.forall₂_same]
  intro n _
  constructor
  · intro h
    rw [processToNote_behind frames n h]
    exact ⟨rfl, rfl, by simp only; rw [sub32_of_lt frames n.processFrom h hframes]⟩
  · intro h
    rw [processToNote_caught_up frames n (by omega)]

/-- C7 on the sample pool (both cursors at 100), advanced to 128. -/
theorem C7_processTo_tasks_and_cursors_witness :
    (sampleFullPool.processTo 128).tasks =
        (sampleFullPool.notes.filter (fun n => decide (n.processFrom < 128))).map
          (fun n => { n with processTo := 128 }) ∧
      List.Forall₂
        (fun n n1 =>
          (n.processFrom < 128 →
            n1.processFrom = 128 ∧ n1.processTo = 128 ∧ n1.age = n.age + (128 - n.processFrom)) ∧
          (128 ≤ n.processFrom → n1 = n))
        sampleFullPool.notes (sampleFullPool.processTo 128).notes :=
  C7_processTo_tasks_and_cursors sampleFullPool 128 (by decide)

/-- C8: a voice that `processTo` advances (cursor below `frames`) ends in Continue if it was
in Down or Legato, in Release if it was in Up, and keeps its state if it was in Continue,
Release or Kill; a voice that is not advanced keeps its state. -/
theorem C8_processTo_state_transitions (m : NoteManager) (frames : Nat) :
    List.Forall₂
      (fun n n1 =>
        (n.processFrom < frames →
          n1.state =
            match n.state with
            | .stateDown => .stateContinue
            | .stateLegato => .stateContinue
            | .stateUp => .stateRelease
            | .stateContinue => .stateContinue
            | .stateRelease => .stateRelease
            | .stateKill => .stateKill) ∧
        (¬ n.processFrom < frames → n1.state = n.state))
      m.notes (m.processTo frames).notes := by
  simp only [processTo, List.forall₂_map_right_iff, List.forall₂_same]
  intro n _
  constructor
  · intro h
    rw [processToNote_behind frames n h]
    cases n.state <;> rfl
  · intro h
    rw [processToNote_caught_up frames n h]

/-! ## Release -/

theorem releaseNote_state (request : Note) (t : Nat) (n : Note) :
    (releaseNote request t n).1.state = .stateUp := rfl

theorem addTask_tasks_length (n : Note) (t : Nat) (b : Bool) : (addTask n t b).2.length ≤ 1 := by
  simp only [addTask]
  split_ifs <;> simp

/-- The loop of `release` under a wildcard note id visits every note: each one that matches
is released, each other one is kept. -/
theorem releaseLoop_wildcard (t : Nat) (notes : List Note) (request : Note)
    (hid : request.noteId = -1) :
    (releaseLoop t notes request).1 =
      notes.map (fun n => if n.matchNote request then (releaseNote request t n).1 else n) := by
  induction notes generalizing request with
  | nil => rfl
  | cons a rest ih =>
    cases hm : a.matchNote request
    · rw [releaseLoop_cons_skip _ _ _ _ hm]
      simp [hm, ih request hid]
    · rw [releaseLoop_cons_continue _ _ _ _ hm hid]
      simp only [List.map_cons, hm, if_true]
      congr 1
      exact ih { request with voiceIndex := (releaseNote request t a).1.voiceIndex } hid

/-- The loop of `release` under a note id: nothing changes while no note carries the id. -/
theorem releaseLoop_by_id_none (t : Nat) (notes : List Note) (request : Note)
    (hid : request.noteId ≠ -1) (h : ∀ n ∈ notes, n.noteId ≠ request.noteId) :
    releaseLoop t notes request = (notes, [], request) := by
  induction notes with
  | nil => rfl
  | cons a rest ih =>
    have hm : a.matchNote request = false := by
      simp [Note.matchNote, hid, h a (List.mem_cons_self _ _)]
    rw [releaseLoop_cons_skip _ _ _ _ hm, ih (fun x hx => h x (List.mem_cons_of_mem _ hx))]

/-- The loop of `release` under a note id stops at the first note that carries the id. -/
theorem releaseLoop_by_id_first (t : Nat) (notes : List Note) (request : Note)
    (hid : request.noteId ≠ -1) (i : Nat) (n : Note) (hn : notes[i]? = some n)
    (hsame : n.noteId = request.noteId)
    (hfirst : ∀ a ∈ notes.take i, a.noteId ≠ request.noteId) :
    releaseLoop t notes request =
      (notes.set i (releaseNote request t n).1, (releaseNote request t n).2,
        { request with voiceIndex := (releaseNote request t n).1.voiceIndex }) := by
  induction notes generalizing i with
  | nil => simp at hn
  | cons a rest ih =>
    cases i with
    | zero =>
      simp only [List.getElem?_cons_zero, Option.some.injEq] at hn
      subst hn
      have hm : a.matchNote request = true := by simp [Note.matchNote, hid, hsame]
      rw [releaseLoop_cons_break _ _ _ _ hm hid]
      rfl
    | succ i =>
      rw [List.getElem?_cons_succ] at hn
      rw [List.take_succ_cons] at hfirst
      have ha : a.noteId ≠ request.noteId := hfirst a (List.mem_cons_self _ _)
      have hm : a.matchNote request = false := by simp [Note.matchNote, hid, ha]
      have hrest : ∀ b ∈ rest.take i, b.noteId ≠ request.noteId :=
        fun b hb => hfirst b (List.mem_cons_of_mem _ hb)
      rw [releaseLoop_cons_skip _ _ _ _ hm, ih i hn hrest]
      rfl

/-- C9: for a release request with wildcard note id, port and base key and a specific channel
`c`, after `release` every voice that was not released and on channel `c` is in state Up, and
every voice on another channel is unchanged. -/
theorem C9_release_wildcard_by_channel (m : NoteManager) (request : Note) (c : Int) (t : Nat)
    (hid : request.noteId = -1) (hport : request.port = -1) (hkey : request.baseKey = -1)
    (hch : request.channel = c) (hc : c ≠ -1) :
    List.Forall₂
      (fun n n1 =>
        (n.released = false ∧ n.channel = c → n1.state = .stateUp) ∧ (n.channel ≠ c → n1 = n))
      m.notes (release m request t).1.notes := by
  simp only [release, releaseLoop_wildcard t m.notes request hid, List.forall₂_map_right_iff,
    List.forall₂_same]
  intro n _
  constructor
  · rintro ⟨hrel, hnc⟩
    have hm : n.matchNote request = true := by
      simp [Note.matchNote, hid, hport, hkey, hch, hrel, hnc]
    rw [if_pos hm]
    rfl
  · intro hnc
    have hm : n.matchNote request = false := by
      have h1 : ¬ c = n.channel := fun h => hnc h.symm
      simp [Note.matchNote, hid, hport, hkey, hch, hc, h1]
    simp [hm]

/-- C9 on the sample pool with voices on channels 1, 2, 2 and 3, released on channel 2: the two
voices on channel 2 end in state Up, the other two are as they were. -/
theorem C9_release_wildcard_by_channel_witness :
    List.Forall₂
        (fun n n1 =>
          (n.released = false ∧ n.channel = 2 → n1.state = .stateUp) ∧ (n.channel ≠ 2 → n1 = n))
        sampleChannelPool.notes (release sampleChannelPool (sampleChannelRelease 0 2) 0).1.notes ∧
      (release sampleChannelPool (sampleChannelRelease 0 2) 0).1.notes.map
          (fun n => (n.channel, n.state))
        = [(1, .stateDown), (2, .stateUp), (2, .stateUp), (3, .stateContinue)] :=
  ⟨C9_release_wildcard_by_channel sampleChannelPool (sampleChannelRelease 0 2) 2 0 rfl rfl rfl rfl
      (by decide),
    by decide!⟩

/-- C10: a release request that carries a note id changes nothing when no voice carries that
id; otherwise it changes exactly the first voice in storage order that carries it, every
other voice (also one with the same note id) being left as it was, and returns the tasks of
that one voice, at most one. -/
theorem C10_release_by_id_first_only (m : NoteManager) (request : Note) (t : Nat)
    (hid : request.noteId ≠ -1) :
    ((∀ n ∈ m.notes, n.noteId ≠ request.noteId) →
      (release m request t).1.notes = m.notes ∧ (release m request t).1.tasks = []) ∧
    (∀ i n, m.notes[i]? = some n → n.noteId = request.noteId →
      (∀ a ∈ m.notes.take i, a.noteId ≠ request.noteId) →
      (release m request t).1.notes = m.notes.set i (releaseNote request t n).1 ∧
        (release m request t).1.tasks = (releaseNote request t n).2 ∧
        (release m request t).1.tasks.length ≤ 1) := by
  constructor
  · intro h
    simp only [release, releaseLoop_by_id_none t m.notes request hid h, and_self]
  · intro i n hn hsame hfirst
    simp only [release, releaseLoop_by_id_first t m.notes request hid i n hn hsame hfirst,
      true_and]
    exact addTask_tasks_length n t false

/-- C10 on the sample pool in which the voices at positions 1 and 2 both carry note id 5: a
release for note id 5 changes the voice at position 1 only. -/
theorem C10_release_by_id_first_only_witness :
    (release sampleSharedIdPool (sampleRelease 4 5 0 60) 4).1.notes =
        sampleSharedIdPool.notes.set 1
          (releaseNote (sampleRelease 4 5 0 60) 4 (sampleVoice 1 5 0 60 1 .stateContinue 10 0)).1 ∧
      (release sampleSharedIdPool (sampleRelease 4 5 0 60) 4).1.tasks =
        (releaseNote (sampleRelease 4 5 0 60) 4 (sampleVoice 1 5 0 60 1 .stateContinue 10 0)).2 ∧
      (release sampleSharedIdPool (sampleRelease 4 5 0 60) 4).1.tasks.length ≤ 1 :=
  (C10_release_by_id_first_only sampleSharedIdPool (sampleRelease 4 5 0 60) 4 (by decide)).2 1
    (sampleVoice 1 5 0 60 1 .stateContinue 10 0) rfl rfl (by decide)

/-! ## Matching -/

/-- C11: a voice matches a request, given as a `Note` or as a `NoteMod` alike, exactly when:
if the request's note id is not -1 the voice carries that note id, whatever its state and its
other fields; otherwise the voice is not released and each of the request's port, channel and
base key is -1 or equal to the voice's. -/
theorem C11_match_by_id_else_by_wildcards (v : Note) (r : Note) (rm : NoteMod) :
    (v.matchNote r = true ↔
      if r.noteId ≠ -1 then v.noteId = r.noteId
      else v.released = false ∧ (r.port = -1 ∨ r.port = v.port) ∧
        (r.channel = -1 ∨ r.channel = v.channel) ∧ (r.baseKey = -1 ∨ r.baseKey = v.baseKey)) ∧
    (v.matchNoteMod rm = true ↔
      if rm.noteId ≠ -1 then v.noteId = rm.noteId
      else v.released = false ∧ (rm.port = -1 ∨ rm.port = v.port) ∧
        (rm.channel = -1 ∨ rm.channel = v.channel) ∧
        (rm.baseKey = -1 ∨ rm.baseKey = v.baseKey)) := by
  constructor
  · unfold Note.matchNote
    by_cases hid : r.noteId = -1
    · cases hrel : v.released <;> simp [hid]
    · simp [hid]
  · unfold Note.matchNoteMod
    by_cases hid : rm.noteId = -1
    · cases hrel : v.released <;> simp [hid]
    · simp [hid]

/-! ## Legato -/

/-- The loop of `legato` changes nothing while no note matches. -/
theorem legatoLoop_none (existingNote : Note) (notes : List Note) (newNote : Note)
    (h : ∀ a ∈ notes, a.matchNote existingNote = false) :
    legatoLoop existingNote notes newNote = (notes, [], [], newNote) := by
  induction notes with
  | nil => rfl
  | cons a rest ih =>
    rw [legatoLoop_cons_skip _ _ _ _ (h a (List.mem_cons_self _ _)),
      ih (fun x hx => h x (List.mem_cons_of_mem _ hx))]

/-- The loop of `legato` stops at the first note that matches and overwrites it. -/
theorem legatoLoop_first (existingNote : Note) (notes : List Note) (newNote : Note) (i : Nat)
    (n : Note) (hn : notes[i]? = some n) (hm : n.matchNote existingNote = true)
    (hfirst : ∀ a ∈ notes.take i, a.matchNote existingNote = false) :
    legatoLoop existingNote notes newNote =
      (notes.set i (legatoNote newNote existingNote n).1,
        (legatoNote newNote existingNote n).2.1, (legatoNote newNote existingNote n).2.2.1,
        (legatoNote newNote existingNote n).2.2.2) := by
  induction notes generalizing i with
  | nil => simp at hn
  | cons a rest ih =>
    cases i with
    | zero =>
      simp only [List.getElem?_cons_zero, Option.some.injEq] at hn
      subst hn
      rw [legatoLoop_cons_match _ _ _ _ hm]
      rfl
    | succ i =>
      rw [List.getElem?_cons_succ] at hn
      rw [List.take_succ_cons] at hfirst
      have ha : a.matchNote existingNote = false := hfirst a (List.mem_cons_self _ _)
      rw [legatoLoop_cons_skip _ _ _ _ ha,
        ih i hn (fun b hb => hfirst b (List.mem_cons_of_mem _ hb))]
      rfl

/-- A relation that holds between every note and itself, and between a matching note and
what `legato` writes over it, holds position by position between the notes before and after
the loop of `legato`. -/
theorem legatoLoop_forall₂ (R : Note → Note → Prop) (existingNote newNote : Note)
    (notes : List Note) (hrefl : ∀ n, R n n)
    (hmatch : ∀ n, n.matchNote existingNote = true → R n (legatoNote newNote existingNote n).1) :
    List.Forall₂ R notes (legatoLoop existingNote notes newNote).1 := by
  induction notes with
  | nil => exact List.Forall₂.nil
  | cons a rest ih =>
    cases hm : a.matchNote existingNote
    · rw [legatoLoop_cons_skip _ _ _ _ hm]
      exact List.Forall₂.cons (hrefl a) ih
    · rw [legatoLoop_cons_match _ _ _ _ hm]
      exact List.Forall₂.cons (hmatch a hm) (List.forall₂_same.mpr (fun x _ => hrefl x))

theorem legatoNote_tasks_length (newNote existingNote n : Note) :
    (legatoNote newNote existingNote n).2.1.length ≤ 1 :=
  addTask_tasks_length n newNote.processFrom false

/-- C12, evaluated where it fails: in a pool whose first voice (note id 5, key 60) has voice
index 0, a legato call whose criteria are the request `wouldRelease` builds from a note-off
with wildcard note id for key 60 retriggers that voice, and the voice then has voice index
`size_t(-1)`, the index of the request, while its task still reports voice index 0. -/
theorem C12_legato_overwrites_voiceIndex :
    wouldRelease samplePow sampleLegatoPool (sampleNoteOff 8 (-1) 0 60)
        = some (sampleRelease 8 (-1) 0 60) ∧
      sampleLegatoPool.notes.map (fun n => (n.voiceIndex, n.noteId)) = [(0, 5), (1, 6)] ∧
      (legato sampleLegatoPool (sampleCandidate 8 7 0 62) (sampleRelease 8 (-1) 0 60)).1.notes.map
          (fun n => (n.voiceIndex, n.noteId))
        = [(18446744073709551615, 7), (1, 6)] ∧
      (legato sampleLegatoPool (sampleCandidate 8 7 0 62) (sampleRelease 8 (-1) 0 60)).1.tasks.map
          (fun n => (n.voiceIndex, n.noteId))
        = [(0, 5)] := by
  decide!

/-- C13, as stated, fails: the second voice of the sample pool is released (state Release,
note id 6), and a legato call whose criteria carry note id 6 overwrites it. -/
theorem C13_legato_by_id_retriggers_released_voice :
    sampleLegatoPool.notes.map (fun n => (n.noteId, n.released)) = [(5, false), (6, true)] ∧
      (legato sampleLegatoPool (sampleCandidate 8 7 0 62) (sampleRelease 8 6 0 61)).1.notes.map
          (fun n => (n.noteId, n.state))
        = [(5, .stateContinue), (7, .stateLegato)] := by
  decide!

/-- C13, amended: when the criteria carry the wildcard note id -1, `legato` leaves every
released voice as it was, and the voice it overwrites, the first in storage order that
matches, is not released; when the criteria carry a note id, the voice it overwrites is the
first active voice carrying that id, released or not. -/
theorem C13_legato_skips_released_only_under_wildcard_id (m : NoteManager)
    (newNote existingNote : Note) :
    (existingNote.noteId = -1 →
      List.Forall₂ (fun n n1 => n.released = true → n1 = n) m.notes
          (legato m newNote existingNote).1.notes ∧
        ∀ i n, m.notes[i]? = some n → n.matchNote existingNote = true →
          (∀ a ∈ m.notes.take i, a.matchNote existingNote = false) →
          n.released = false ∧
            (legato m newNote existingNote).1.notes =
              m.notes.set i (legatoNote newNote existingNote n).1) ∧
    (existingNote.noteId ≠ -1 →
      ∀ i n, m.notes[i]? = some n → n.noteId = existingNote.noteId →
        (∀ a ∈ m.notes.take i, a.noteId ≠ existingNote.noteId) →
        (legato m newNote existingNote).1.notes =
          m.notes.set i (legatoNote newNote existingNote n).1) := by
  constructor
  · intro hid
    have hrel : ∀ n : Note, n.matchNote existingNote = true → n.released = false := by
      intro n hm
      cases h : n.released
      · rfl
      · simp [Note.matchNote, hid, h] at hm
    constructor
    · refine legatoLoop_forall₂ _ existingNote newNote m.notes (fun _ _ => rfl) ?_
      intro n hm hr
      rw [hrel n hm] at hr
      exact absurd hr (by simp)
    · intro i n hn hm hfirst
      refine ⟨hrel n hm, ?_⟩
      simp only [legato, legatoLoop_first existingNote m.notes newNote i n hn hm hfirst]
  · intro hid i n hn hsame hfirst
    have hm : n.matchNote existingNote = true := by simp [Note.matchNote, hid, hsame]
    have hf : ∀ a ∈ m.notes.take i, a.matchNote existingNote = false := by
      intro a ha
      simp [Note.matchNote, hid, hfirst a ha]
    simp only [legato, legatoLoop_first existingNote m.notes newNote i n hn hm hf]

/-- C13, amended, on the sample pool: under wildcard criteria for key 61 the released voice is
untouched; under note id 6 it is the voice overwritten. -/
theorem C13_legato_skips_released_only_under_wildcard_id_witness :
    List.Forall₂ (fun n n1 => n.released = true → n1 = n) sampleLegatoPool.notes
        (legato sampleLegatoPool (sampleCandidate 8 7 0 62) (sampleRelease 8 (-1) 0 61)).1.notes ∧
      (legato sampleLegatoPool (sampleCandidate 8 7 0 62) (sampleRelease 8 6 0 61)).1.notes =
        sampleLegatoPool.notes.set 1
          (legatoNote (sampleCandidate 8 7 0 62) (sampleRelease 8 6 0 61)
            (sampleVoice 1 6 0 61 0 .stateRelease 4 0)).1 :=
  ⟨((C13_legato_skips_released_only_under_wildcard_id sampleLegatoPool
        (sampleCandidate 8 7 0 62) (sampleRelease 8 (-1) 0 61)).1 rfl).1,
    (C13_legato_skips_released_only_under_wildcard_id sampleLegatoPool (sampleCandidate 8 7 0 62)
        (sampleRelease 8 6 0 61)).2 (by decide) 1 (sampleVoice 1 6 0 61 0 .stateRelease 4 0) rfl rfl
      (by decide)⟩

/-- C14: `legato` changes nothing but the task list, which it empties, when no active voice
matches; otherwise it changes exactly the first voice in storage order that matches, also
when several match, and that voice ends in state Legato with age 0 and the candidate's note
id, port, channel, base key, key and velocity; every other voice, the free-list and the
number of active voices are unchanged, and at most one task is returned. -/
theorem C14_legato_first_match_only (m : NoteManager) (newNote existingNote : Note) :
    ((∀ a ∈ m.notes, a.matchNote existingNote = false) →
      (legato m newNote existingNote).1 = { m with tasks := [] }) ∧
    (∀ i n, m.notes[i]? = some n → n.matchNote existingNote = true →
      (∀ a ∈ m.notes.take i, a.matchNote existingNote = false) →
      ∃ v, (legato m newNote existingNote).1.notes = m.notes.set i v ∧
        v.state = .stateLegato ∧ v.age = 0 ∧ v.noteId = newNote.noteId ∧
        v.port = newNote.port ∧ v.channel = newNote.channel ∧ v.baseKey = newNote.baseKey ∧
        v.key = newNote.key ∧ v.velocity = newNote.velocity ∧
        (legato m newNote existingNote).1.voiceIndexQueue = m.voiceIndexQueue ∧
        (legato m newNote existingNote).1.notes.length = m.notes.length ∧
        (legato m newNote existingNote).1.tasks.length ≤ 1) := by
  constructor
  · intro h
    simp only [legato, legatoLoop_none existingNote m.notes newNote h]
  · intro i n hn hm hfirst
    refine ⟨(legatoNote newNote existingNote n).1, ?_, rfl, rfl, rfl, rfl, rfl, rfl, rfl, rfl,
      rfl, ?_, ?_⟩
    · simp only [legato, legatoLoop_first existingNote m.notes newNote i n hn hm hfirst]
    · simp only [legato, legatoLoop_length]
    · simp only [legato, legatoLoop_first existingNote m.notes newNote i n hn hm hfirst]
      exact legatoNote_tasks_length newNote existingNote n

/-- C14 on the pool with voices on channels 1, 2, 2 and 3, with wildcard criteria for channel
2: both voices on channel 2 match, and the first of them, at position 1, is the one changed. -/
theorem C14_legato_first_match_only_witness :
    ∃ v,
      (legato sampleChannelPool (sampleCandidate 8 9 2 64) (sampleChannelRelease 8 2)).1.notes =
        sampleChannelPool.notes.set 1 v ∧
      v.state = .stateLegato ∧ v.age = 0 ∧ v.noteId = (sampleCandidate 8 9 2 64).noteId ∧
      v.port = (sampleCandidate 8 9 2 64).port ∧ v.channel = (sampleCandidate 8 9 2 64).channel ∧
      v.baseKey = (sampleCandidate 8 9 2 64).baseKey ∧ v.key = (sampleCandidate 8 9 2 64).key ∧
      v.velocity = (sampleCandidate 8 9 2 64).velocity ∧
      (legato sampleChannelPool (sampleCandidate 8 9 2 64)
          (sampleChannelRelease 8 2)).1.voiceIndexQueue = sampleChannelPool.voiceIndexQueue ∧
      (legato sampleChannelPool (sampleCandidate 8 9 2 64)
          (sampleChannelRelease 8 2)).1.notes.length = sampleChannelPool.notes.length ∧
      (legato sampleChannelPool (sampleCandidate 8 9 2 64)
          (sampleChannelRelease 8 2)).1.tasks.length ≤ 1 :=
  (C14_legato_first_match_only sampleChannelPool (sampleCandidate 8 9 2 64)
      (sampleChannelRelease 8 2)).2 1 (sampleVoice 1 6 2 61 1 .stateContinue 10 0) rfl (by decide)
    (by decide)

/-! ## Stopping a voice and the note-ended notification -/

/-- The search of `stop` returns the first note that matches, at its position. -/
theorem findMatch_first (x : Note) (notes : List Note) (k i : Nat) (n : Note)
    (hn : notes[i]? = some n) (hm : n.matchNote x = true)
    (hfirst : ∀ a ∈ notes.take i, a.matchNote x = false) :
    findMatch x notes k = some (k + i, n) := by
  induction notes generalizing i k with
  | nil => simp at hn
  | cons a rest ih =>
    cases i with
    | zero =>
      simp only [List.getElem?_cons_zero, Option.some.injEq] at hn
      subst hn
      simp [findMatch, hm]
    | succ i =>
      rw [List.getElem?_cons_succ] at hn
      rw [List.take_succ_cons] at hfirst
      have ha : a.matchNote x = false := hfirst a (List.mem_cons_self _ _)
      simp only [findMatch, ha]
      rw [ih (k + 1) i hn (fun b hb => hfirst b (List.mem_cons_of_mem _ hb))]
      simp only [Bool.false_eq_true, if_false, Option.some.injEq, Prod.mk.injEq, and_true]
      omega

theorem findMatch_eq_none (x : Note) (notes : List Note) (k : Nat)
    (h : ∀ a ∈ notes, a.matchNote x = false) : findMatch x notes k = none := by
  induction notes generalizing k with
  | nil => rfl
  | cons a rest ih =>
    simp only [findMatch, h a (List.mem_cons_self _ _)]
    exact ih (k + 1) (fun b hb => h b (List.mem_cons_of_mem _ hb))

theorem removeNote_append_of_lt (init : List Note) (last : Note) (i : Nat)
    (hi : i < init.length) : removeNote (init ++ [last]) i = init.set i last := by
  have h1 : ¬ (init ++ [last]).length ≤ 1 := by
    simp only [List.length_append, List.length_singleton]; omega
  have h2 : i ≠ (init ++ [last]).length - 1 := by
    simp only [List.length_append, List.length_singleton]; omega
  simp only [removeNote, h1, if_false, h2, ne_eq, not_false_eq_true, if_true,
    List.getLast?_concat, List.set_append_left _ _ hi, List.dropLast_concat]

theorem removeNote_append_last (init : List Note) (last : Note) :
    removeNote (init ++ [last]) init.length = init := by
  cases init with
  | nil => simp [removeNote]
  | cons a rest =>
    have h1 : ¬ ((a :: rest) ++ [last]).length ≤ 1 := by simp
    have h2 : ¬ (a :: rest).length ≠ ((a :: rest) ++ [last]).length - 1 := by simp
    simp only [removeNote, h1, if_false, h2, List.dropLast_concat]

theorem set_perm_eraseIdx_concat (l : List Note) (x : Note) (i : Nat) (hi : i < l.length) :
    (l.set i x).Perm (l.eraseIdx i ++ [x]) := by
  induction l generalizing i with
  | nil => simp at hi
  | cons a rest ih =>
    cases i with
    | zero =>
      simp only [List.set_cons_zero, List.eraseIdx_cons_zero]
      exact (List.perm_append_singleton x rest).symm
    | succ i =>
      simp only [List.set_cons_succ, List.eraseIdx_cons_succ, List.cons_append]
      exact List.Perm.cons a (ih i (by simpa using hi))

theorem split_last (notes : List Note) (i : Nat) (hi : i < notes.length) :
    ∃ init last, notes = init ++ [last] ∧ (i < init.length ∨ i = init.length) := by
  have hne : notes ≠ [] := by
    intro h; rw [h] at hi; simp at hi
  refine ⟨notes.dropLast, notes.getLast hne, (List.dropLast_append_getLast hne).symm, ?_⟩
  simp only [List.length_dropLast]
  omega

/-- The removal done by `stop` keeps the other notes as a multiset. -/
theorem removeNote_perm (notes : List Note) (i : Nat) (hi : i < notes.length) :
    (removeNote notes i).Perm (notes.eraseIdx i) := by
  obtain ⟨init, last, rfl, h | h⟩ := split_last notes i hi
  · rw [removeNote_append_of_lt init last i h, List.eraseIdx_append_of_lt_length h]
    exact set_perm_eraseIdx_concat init last i h
  · subst h
    rw [removeNote_append_last, List.eraseIdx_append_of_length_le (le_refl _)]
    simp

/-- After the removal done by `stop` every remaining position holds the note it held before,
except the vacated one, which holds the formerly last note. -/
theorem removeNote_getElem? (notes : List Note) (i j : Nat) (hi : i < notes.length)
    (hj : j < notes.length - 1) :
    (removeNote notes i)[j]? = if j = i then notes.getLast? else notes[j]? := by
  obtain ⟨init, last, rfl, h | h⟩ := split_last notes i hi
  · simp only [List.length_append, List.length_singleton, Nat.add_sub_cancel] at hj
    rw [removeNote_append_of_lt init last i h, List.getElem?_set, List.getLast?_concat,
      List.getElem?_append_left hj]
    by_cases hji : j = i
    · subst hji; simp [h]
    · have : ¬ i = j := fun e => hji e.symm
      simp [hji, this]
  · subst h
    simp only [List.length_append, List.length_singleton, Nat.add_sub_cancel] at hj
    rw [removeNote_append_last, List.getElem?_append_left hj, if_neg (by omega)]

/-- C15, evaluated where it fails: a voice started from a note-on with note id 8 on port 0,
channel 3, key 63 is stopped; the note-ended event carries note id 8, port 0 and key 63, but
its channel field is 0, the voice's port, not the voice's channel 3. -/
theorem C15_note_end_channel_is_port :
    (run samplePow (create 1 2) [.start (sampleNoteOn 0 8 3 63)]).map
        (fun m => (m.notes.map (fun n => (n.noteId, n.port, n.channel)),
          (stop m (sampleRelease 5 8 3 63)).2.map (fun e => (e.note_id, e.port_index, e.channel)),
          (stop m (sampleRelease 5 8 3 63)).2.map (fun e => e.key)))
      = some ([(8, 0, 3)], [(8, 0, 0)], [63]) := by
  decide!

/-- C16: `stop` with a request that no active voice matches changes nothing and emits no
event; otherwise, with `n` at position `i` the first voice in storage order that matches, it
appends `n`'s voice index to the free-list and removes `n`: the voices left are the former
ones without position `i` as a multiset, one fewer, and each position left holds the voice
it held before, except position `i`, which holds the formerly last voice. -/
theorem C16_stop_removes_first_match (m : NoteManager) (noteToStop : Note) :
    ((∀ a ∈ m.notes, a.matchNote noteToStop = false) → stop m noteToStop = (m, [])) ∧
    (∀ i n, m.notes[i]? = some n → n.matchNote noteToStop = true →
      (∀ a ∈ m.notes.take i, a.matchNote noteToStop = false) →
      (stop m noteToStop).1.voiceIndexQueue = m.voiceIndexQueue ++ [n.voiceIndex] ∧
        (stop m noteToStop).1.notes.Perm (m.notes.eraseIdx i) ∧
        (stop m noteToStop).1.notes.length + 1 = m.notes.length ∧
        ∀ j, j < (stop m noteToStop).1.notes.length →
          (stop m noteToStop).1.notes[j]? = if j = i then m.notes.getLast? else m.notes[j]?) := by
  constructor
  · intro h
    exact stop_none m noteToStop (findMatch_eq_none noteToStop m.notes 0 h)
  · intro i n hn hm hfirst
    have hi : i < m.notes.length := (List.getElem?_eq_some_iff.mp hn).1
    have hf := findMatch_first noteToStop m.notes 0 i n hn hm hfirst
    rw [Nat.zero_add] at hf
    rw [stop_some m noteToStop i n hf]
    refine ⟨rfl, removeNote_perm m.notes i hi, ?_, ?_⟩
    · simp only [removeNote_length]; omega
    · intro j hj
      simp only [removeNote_length] at hj
      exact removeNote_getElem? m.notes i j hi hj

/-- C16 on the pool whose voices at positions 1 and 2 both carry note id 5: stopping note id 5
removes the voice at position 1, and the last voice moves into its place. -/
theorem C16_stop_removes_first_match_witness :
    ((stop sampleSharedIdPool (sampleRelease 4 5 0 60)).1.voiceIndexQueue =
        sampleSharedIdPool.voiceIndexQueue ++ [(sampleVoice 1 5 0 60 1 .stateContinue 10 0).voiceIndex] ∧
      (stop sampleSharedIdPool (sampleRelease 4 5 0 60)).1.notes.Perm
        (sampleSharedIdPool.notes.eraseIdx 1) ∧
      (stop sampleSharedIdPool (sampleRelease 4 5 0 60)).1.notes.length + 1 =
        sampleSharedIdPool.notes.length ∧
      ∀ j, j < (stop sampleSharedIdPool (sampleRelease 4 5 0 60)).1.notes.length →
        (stop sampleSharedIdPool (sampleRelease 4 5 0 60)).1.notes[j]? =
          if j = 1 then sampleSharedIdPool.notes.getLast? else sampleSharedIdPool.notes[j]?) ∧
    (stop sampleSharedIdPool (sampleRelease 4 5 0 60)).1.notes.map (fun n => (n.voiceIndex, n.noteId))
      = [(0, 4), (2, 5)] :=
  ⟨(C16_stop_removes_first_match sampleSharedIdPool (sampleRelease 4 5 0 60)).2 1
      (sampleVoice 1 5 0 60 1 .stateContinue 10 0) rfl (by decide) (by decide),
    by decide!⟩

/-- C17: the calls that send a note-ended event send exactly one, carrying the note id of the
voice concerned, when that id is non-negative, and none when it is negative: `ignore` for the
declined candidate, `stop` for the voice it removes, `legato` for the voice it overwrites;
`stop` and `legato` send none when no voice matches. -/
theorem C17_note_end_iff_noteId_nonneg (m : NoteManager) (request newNote : Note) :
    ((ignore m newNote).map (fun e => e.note_id) =
        if newNote.noteId ≥ 0 then [newNote.noteId] else []) ∧
    ((∀ a ∈ m.notes, a.matchNote request = false) →
      (stop m request).2 = [] ∧ (legato m newNote request).2.2 = []) ∧
    (∀ i n, m.notes[i]? = some n → n.matchNote request = true →
      (∀ a ∈ m.notes.take i, a.matchNote request = false) →
      ((stop m request).2.map (fun e => e.note_id) = if n.noteId ≥ 0 then [n.noteId] else []) ∧
      ((legato m newNote request).2.2.map (fun e => e.note_id) =
        if n.noteId ≥ 0 then [n.noteId] else [])) := by
  have hsend : ∀ n : Note,
      (sendNoteEnd n).map (fun e => e.note_id) = if n.noteId ≥ 0 then [n.noteId] else [] := by
    intro n
    unfold sendNoteEnd
    split_ifs <;> rfl
  refine ⟨hsend newNote, ?_, ?_⟩
  · intro h
    constructor
    · rw [stop_none m request (findMatch_eq_none request m.notes 0 h)]
    · simp only [legato, legatoLoop_none request m.notes newNote h]
  · intro i n hn hm hfirst
    constructor
    · have hf := findMatch_first request m.notes 0 i n hn hm hfirst
      rw [Nat.zero_add] at hf
      rw [stop_some m request i n hf]
      exact hsend n
    · simp only [legato, legatoLoop_first request m.notes newNote i n hn hm hfirst, legatoNote]
      rw [hsend, addTask_noteId]

/-- C17 on the pool with voices on channels 1, 2, 2 and 3: stopping, or playing legato onto,
the voice with note id 8 sends one event with note id 8. -/
theorem C17_note_end_iff_noteId_nonneg_witness :
    ((stop sampleChannelPool (sampleRelease 4 8 3 63)).2.map (fun e => e.note_id) =
        if (sampleVoice 3 8 3 63 1 .stateContinue 10 0).noteId ≥ 0 then
          [(sampleVoice 3 8 3 63 1 .stateContinue 10 0).noteId]
        else []) ∧
      ((legato sampleChannelPool (sampleCandidate 4 (-2) 3 64) (sampleRelease 4 8 3 63)).2.2.map
          (fun e => e.note_id) =
        if (sampleVoice 3 8 3 63 1 .stateContinue 10 0).noteId ≥ 0 then
          [(sampleVoice 3 8 3 63 1 .stateContinue 10 0).noteId]
        else []) :=
  (C17_note_end_iff_noteId_nonneg sampleChannelPool (sampleRelease 4 8 3 63)
      (sampleCandidate 4 (-2) 3 64)).2.2 3 (sampleVoice 3 8 3 63 1 .stateContinue 10 0) rfl
    (by decide) (by decide)

/-! ## Translation of legacy events -/

theorem toInt16_of_lt (x : Nat) (h : x < 32768) : toInt16 x = (x : Int) := by
  unfold toInt16
  have h1 : x % 65536 = x := Nat.mod_eq_of_lt (by omega)
  rw [h1, if_pos h]

/-- C18: a legacy event whose status byte has high nibble 0x9 (resp. 0x8) is translated to a
Note On (resp. Note Off) event with the header of the original (its time included), note id
-1, the port of the original converted to `int16_t`, the low nibble of the status byte as
channel, the second byte as key and the third byte over 127 as velocity. -/
theorem C18_midi_note_on_off_translation (stdPow : ℚ → ℚ → ℚ) (m : NoteManager)
    (e : clap_event_midi) (htype : e.header.type = .CLAP_EVENT_MIDI) (hkey : e.data1 < 256) :
    (e.data0 &&& 0xF0 = 0x90 →
      translateEvent stdPow m (.midi e) =
        .note
          { header := { e.header with type := .CLAP_EVENT_NOTE_ON }
            note_id := -1
            port_index := toInt16 e.port_index
            channel := ((e.data0 &&& 0x0F : Nat) : Int)
            key := (e.data1 : Int)
            velocity := (e.data2 : ℚ) / 127 }) ∧
    (e.data0 &&& 0xF0 = 0x80 →
      translateEvent stdPow m (.midi e) =
        .note
          { header := { e.header with type := .CLAP_EVENT_NOTE_OFF }
            note_id := -1
            port_index := toInt16 e.port_index
            channel := ((e.data0 &&& 0x0F : Nat) : Int)
            key := (e.data1 : Int)
            velocity := (e.data2 : ℚ) / 127 }) ∧
    (e.port_index < 32768 → toInt16 e.port_index = (e.port_index : Int)) := by
  have hk : toInt16 e.data1 = (e.data1 : Int) := toInt16_of_lt e.data1 (by omega)
  refine ⟨?_, ?_, toInt16_of_lt e.port_index⟩
  · intro h
    simp [translateEvent, htype, h, hk]
  · intro h
    simp [translateEvent, htype, h, hk]

/-- C18 on the triplet (0x90, 60, 100): a note-on with key 60 and velocity 100/127 on channel
0, at the time and port of the original; `wouldStart` makes of it a candidate with that key
and velocity. -/
theorem C18_midi_note_on_off_translation_witness :
    translateEvent samplePow (create 1 2) (.midi (sampleMidi 7 0x90 60 100)) =
        .note
          { header := sampleHeader 7 .CLAP_EVENT_NOTE_ON
            note_id := -1
            port_index := 0
            channel := 0
            key := 60
            velocity := 100 / 127 } ∧
      (wouldStart samplePow (create 1 2) (.midi (sampleMidi 7 0x90 60 100))).1.map
          (fun n => (n.key, n.velocity, n.channel))
        = some (60, 100 / 127, 0) := by
  refine ⟨?_, by decide!⟩
  have h :=
    (C18_midi_note_on_off_translation samplePow (create 1 2) (sampleMidi 7 0x90 60 100) rfl
      (by decide)).1 (by decide)
  rw [h]
  decide!

/-- C19: a legacy controller message (status high nibble 0xB) with controller number `n` and
value byte `v` is translated to a note-expression event with the header of the original,
note id -1, key -1 and the low nibble of the status byte as channel, carrying vibrato `v/127`
for `n = 1`, brightness `v/127` for `n = 4`, pan `v/127` for `n = 10`, expression `v/127` for
`n = 11` and volume `pow(v/100, 5.8)` for `n = 7`, which is 1 for `v = 100` as `pow(1, y)` is
1; for every other `n` the original event is returned. -/
theorem C19_midi_controller_translation (stdPow : ℚ → ℚ → ℚ) (m : NoteManager)
    (e : clap_event_midi) (htype : e.header.type = .CLAP_EVENT_MIDI)
    (hB : e.data0 &&& 0xF0 = 0xB0) :
    let expr := fun (id : Int) (value : ℚ) =>
      ClapEvent.noteExpression
        { header := { e.header with type := .CLAP_EVENT_NOTE_EXPRESSION }
          expression_id := id
          note_id := -1
          port_index := toInt16 e.port_index
          channel := ((e.data0 &&& 0x0F : Nat) : Int)
          key := -1
          value := value }
    (e.data1 = 1 →
      translateEvent stdPow m (.midi e) = expr CLAP_NOTE_EXPRESSION_VIBRATO ((e.data2 : ℚ) / 127)) ∧
    (e.data1 = 4 →
      translateEvent stdPow m (.midi e) =
        expr CLAP_NOTE_EXPRESSION_BRIGHTNESS ((e.data2 : ℚ) / 127)) ∧
    (e.data1 = 10 →
      translateEvent stdPow m (.midi e) = expr CLAP_NOTE_EXPRESSION_PAN ((e.data2 : ℚ) / 127)) ∧
    (e.data1 = 11 →
      translateEvent stdPow m (.midi e) =
        expr CLAP_NOTE_EXPRESSION_EXPRESSION ((e.data2 : ℚ) / 127)) ∧
    (e.data1 = 7 →
      translateEvent stdPow m (.midi e) =
        expr CLAP_NOTE_EXPRESSION_VOLUME (stdPow ((e.data2 : ℚ) / 100) (58 / 10))) ∧
    (e.data1 = 7 → e.data2 = 100 → stdPow 1 (58 / 10) = 1 →
      translateEvent stdPow m (.midi e) = expr CLAP_NOTE_EXPRESSION_VOLUME 1) ∧
    (e.data1 ≠ 1 → e.data1 ≠ 4 → e.data1 ≠ 10 → e.data1 ≠ 11 → e.data1 ≠ 7 →
      translateEvent stdPow m (.midi e) = .midi e) := by
  intro expr
  refine ⟨?_, ?_, ?_, ?_, ?_, ?_, ?_⟩
  · intro h
    simp [expr, translateEvent, htype, hB, h, CLAP_NOTE_EXPRESSION_VIBRATO]
  · intro h
    simp [expr, translateEvent, htype, hB, h, CLAP_NOTE_EXPRESSION_BRIGHTNESS]
  · intro h
    simp [expr, translateEvent, htype, hB, h, CLAP_NOTE_EXPRESSION_PAN]
  · intro h
    simp [expr, translateEvent, htype, hB, h, CLAP_NOTE_EXPRESSION_EXPRESSION]
  · intro h
    simp [expr, translateEvent, htype, hB, h, CLAP_NOTE_EXPRESSION_VOLUME]
  · intro h hv hpow
    have h100 : ((100 : Nat) : ℚ) / 100 = 1 := by norm_num
    simp [expr, translateEvent, htype, hB, h, hv, CLAP_NOTE_EXPRESSION_VOLUME, h100, hpow]
  · intro h1 h4 h10 h11 h7
    simp [translateEvent, htype, hB, h1, h4, h10, h11, h7]

/-- C19 on controller 7 with value 100 on channel 3: volume 1. -/
theorem C19_midi_controller_translation_witness :
    translateEvent samplePow (create 1 2) (.midi (sampleMidi 7 0xB3 7 100)) =
      .noteExpression
        { header := sampleHeader 7 .CLAP_EVENT_NOTE_EXPRESSION
          expression_id := CLAP_NOTE_EXPRESSION_VOLUME
          note_id := -1
          port_index := 0
          channel := 3
          key := -1
          value := 1 } := by
  have h :=
    (C19_midi_controller_translation samplePow (create 1 2) (sampleMidi 7 0xB3 7 100) rfl
      (by decide)).2.2.2.2.2.1 rfl rfl rfl
  rw [h]
  decide!

/-- C20: a legacy pitch-bend message (status high nibble 0xE) with data bytes `b1`, `b2` is
translated, under pitch-bend range `R`, to a tuning expression with note id -1, key -1, the low
nibble of the status byte as channel and value `(b1 + 128*b2 - 8192) * R / 8192`; the centre
position (0, 64) gives 0 and (0, 0) gives `-R`. -/
theorem C20_midi_pitch_bend_translation (stdPow : ℚ → ℚ → ℚ) (m : NoteManager)
    (e : clap_event_midi) (htype : e.header.type = .CLAP_EVENT_MIDI)
    (hE : e.data0 &&& 0xF0 = 0xE0) :
    let tuning := fun (value : ℚ) =>
      ClapEvent.noteExpression
        { header := { e.header with type := .CLAP_EVENT_NOTE_EXPRESSION }
          expression_id := CLAP_NOTE_EXPRESSION_TUNING
          note_id := -1
          port_index := toInt16 e.port_index
          channel := ((e.data0 &&& 0x0F : Nat) : Int)
          key := -1
          value := value }
    translateEvent stdPow m (.midi e) =
        tuning (((e.data1 : ℚ) + 128 * (e.data2 : ℚ) - 8192) * m.pitchWheelRange / 8192) ∧
      (e.data1 = 0 → e.data2 = 64 → translateEvent stdPow m (.midi e) = tuning 0) ∧
      (e.data1 = 0 → e.data2 = 0 →
        translateEvent stdPow m (.midi e) = tuning (-m.pitchWheelRange)) := by
  intro tuning
  have hmain : translateEvent stdPow m (.midi e) =
      tuning (((e.data1 : ℚ) + 128 * (e.data2 : ℚ) - 8192) * m.pitchWheelRange / 8192) := by
    simp only [tuning, translateEvent, htype, hE]
    simp [CLAP_NOTE_EXPRESSION_TUNING]
    ring
  refine ⟨hmain, ?_, ?_⟩
  · intro h1 h2
    rw [hmain, h1, h2]
    norm_num
  · intro h1 h2
    rw [hmain, h1, h2]
    congr 1
    norm_num
    ring

/-- C20 on the bytes (0, 0) on channel 1 under the default range 2: tuning -2. -/
theorem C20_midi_pitch_bend_translation_witness :
    translateEvent samplePow (create 1 2) (.midi (sampleMidi 7 0xE1 0 0)) =
      .noteExpression
        { header := sampleHeader 7 .CLAP_EVENT_NOTE_EXPRESSION
          expression_id := CLAP_NOTE_EXPRESSION_TUNING
          note_id := -1
          port_index := 0
          channel := 1
          key := -1
          value := -2 } := by
  have h :=
    (C20_midi_pitch_bend_translation samplePow (create 1 2) (sampleMidi 7 0xE1 0 0) rfl
      (by decide)).2.2 rfl rfl
  rw [h]
  decide!

/-! ## The channel expression cache -/

theorem modNotes_channel_wide (m : NoteManager) (noteMod : NoteMod) (t : Nat)
    (hwide : noteMod.noteId = -1 ∧ noteMod.baseKey = -1 ∧ noteMod.channel ≥ 0 ∧
      noteMod.channel < 16)
    (hexpr : 0 ≤ noteMod.expression ∧ noteMod.expression < 7) :
    modNotes m noteMod t =
      some
        { m with
          channelNoteExpressions :=
            setChannelNoteExpression m.channelNoteExpressions noteMod.channel noteMod.expression
              noteMod.value
          notes := m.notes.map (fun n => (modNotesNote noteMod t n).1)
          tasks := (m.notes.map (fun n => (modNotesNote noteMod t n).2)).flatten } := by
  simp only [modNotes, hwide, hexpr, and_self, if_true]

theorem modNotes_not_channel_wide (m : NoteManager) (noteMod : NoteMod) (t : Nat)
    (hwide : ¬ (noteMod.noteId = -1 ∧ noteMod.baseKey = -1 ∧ noteMod.channel ≥ 0 ∧
      noteMod.channel < 16)) :
    modNotes m noteMod t =
      some
        { m with
          notes := m.notes.map (fun n => (modNotesNote noteMod t n).1)
          tasks := (m.notes.map (fun n => (modNotesNote noteMod t n).2)).flatten } := by
  simp only [modNotes, hwide, if_false]

/-- A defined `modNotes` call returns a manager whose notes and tasks are those of the loop;
the free-list, the capacity and the id counter are as before. -/
theorem modNotes_defined (m : NoteManager) (noteMod : NoteMod) (t : Nat)
    (hdef : (Call.modNotes noteMod t).defined = true) :
    ∃ table,
      modNotes m noteMod t =
        some
          { m with
            channelNoteExpressions := table
            notes := m.notes.map (fun n => (modNotesNote noteMod t n).1)
            tasks := (m.notes.map (fun n => (modNotesNote noteMod t n).2)).flatten } := by
  simp only [Call.defined, Bool.or_eq_true, Bool.not_eq_true', decide_eq_false_iff_not,
    decide_eq_true_eq] at hdef
  by_cases hwide : noteMod.noteId = -1 ∧ noteMod.baseKey = -1 ∧ noteMod.channel ≥ 0 ∧
      noteMod.channel < 16
  · exact ⟨_, modNotes_channel_wide m noteMod t hwide (hdef.resolve_left (not_not.mpr hwide))⟩
  · exact ⟨_, modNotes_not_channel_wide m noteMod t hwide⟩

/-- C22: `modNotes` with a request that has note id -1, base key -1 and a channel in [0,16)
writes the request's value into the cache entry at (channel, expression kind), whether or not
any voice matches, and changes no other entry; a request with a note id, with a base key, or
on a channel outside [0,16) leaves the whole cache as it was. -/
theorem C22_modNotes_cache_write (m : NoteManager) (noteMod : NoteMod) (t : Nat) :
    (noteMod.noteId = -1 ∧ noteMod.baseKey = -1 ∧ noteMod.channel ≥ 0 ∧ noteMod.channel < 16 →
      0 ≤ noteMod.expression ∧ noteMod.expression < 7 →
      ∃ m1, modNotes m noteMod t = some m1 ∧
        ∀ (c : Fin 16) (e : Fin 7),
          m1.channelNoteExpressions c e =
            if (c.val : Int) = noteMod.channel ∧ (e.val : Int) = noteMod.expression then
              noteMod.value
            else m.channelNoteExpressions c e) ∧
    (noteMod.noteId ≠ -1 ∨ noteMod.baseKey ≠ -1 ∨ noteMod.channel < 0 ∨ noteMod.channel ≥ 16 →
      ∃ m1, modNotes m noteMod t = some m1 ∧
        m1.channelNoteExpressions = m.channelNoteExpressions) := by
  constructor
  · intro hwide hexpr
    exact ⟨_, modNotes_channel_wide m noteMod t hwide hexpr, fun _ _ => rfl⟩
  · intro h
    have hwide : ¬ (noteMod.noteId = -1 ∧ noteMod.baseKey = -1 ∧ noteMod.channel ≥ 0 ∧
        noteMod.channel < 16) := by
      rintro ⟨h1, h2, h3, h4⟩
      rcases h with h | h | h | h
      · exact h h1
      · exact h h2
      · omega
      · omega
    exact ⟨_, modNotes_not_channel_wide m noteMod t hwide, rfl⟩

/-- C22 on a manager without voices: a channel-wide pan request on channel 3 is written to the
cache; a request addressed to note id 5 leaves the cache as it was. -/
theorem C22_modNotes_cache_write_witness :
    (∃ m1, modNotes (create 4 2) (sampleChannelMod 0 3 1 (1 / 4)) 0 = some m1 ∧
        ∀ (c : Fin 16) (e : Fin 7),
          m1.channelNoteExpressions c e =
            if (c.val : Int) = (sampleChannelMod 0 3 1 (1 / 4)).channel ∧
                (e.val : Int) = (sampleChannelMod 0 3 1 (1 / 4)).expression then
              (sampleChannelMod 0 3 1 (1 / 4)).value
            else (create 4 2).channelNoteExpressions c e) ∧
      (∃ m1, modNotes (create 4 2) (sampleNoteIdMod 0 5 1 (1 / 4)) 0 = some m1 ∧
        m1.channelNoteExpressions = (create 4 2).channelNoteExpressions) :=
  ⟨(C22_modNotes_cache_write (create 4 2) (sampleChannelMod 0 3 1 (1 / 4)) 0).1 (by decide)
      (by decide),
    (C22_modNotes_cache_write (create 4 2) (sampleNoteIdMod 0 5 1 (1 / 4)) 0).2
      (Or.inl (by decide))⟩

theorem modNotesNote_skip (noteMod : NoteMod) (t : Nat) (n : Note)
    (h : n.matchNoteMod noteMod = false) : modNotesNote noteMod t n = (n, []) := by
  simp only [modNotesNote, h, Bool.false_eq_true, if_false]

theorem modNotesNote_match (noteMod : NoteMod) (t : Nat) (n : Note)
    (h : n.matchNoteMod noteMod = true) :
    modNotesNote noteMod t n = (noteMod.applyTo (addTask n t true).1, (addTask n t true).2) := by
  simp only [modNotesNote, h, if_true]

/-- What `addTask` may change of a note: its range and its age. -/
theorem addTask_fields (n : Note) (t : Nat) (b : Bool) :
    ∃ pf pt age, (addTask n t b).1 = { n with processFrom := pf, processTo := pt, age := age } := by
  simp only [addTask]
  split_ifs
  · exact ⟨n.processFrom, n.processTo, n.age, rfl⟩
  · exact ⟨t, t, n.age + sub32 t n.processFrom, rfl⟩

/-- What the body of the loop of `modNotes` may change of a note: its range and age, and
its key, under a tuning request that the note matches. -/
theorem modNotesNote_fields (noteMod : NoteMod) (t : Nat) (n : Note) :
    ∃ pf pt age key,
      (modNotesNote noteMod t n).1 =
        { n with processFrom := pf, processTo := pt, age := age, key := key } ∧
      (noteMod.expression ≠ CLAP_NOTE_EXPRESSION_TUNING → key = n.key) ∧
      (noteMod.expression = CLAP_NOTE_EXPRESSION_TUNING → n.matchNoteMod noteMod = true →
        key = (n.baseKey : ℚ) + noteMod.value) := by
  cases hm : n.matchNoteMod noteMod
  · rw [modNotesNote_skip noteMod t n hm]
    exact ⟨n.processFrom, n.processTo, n.age, n.key, rfl, fun _ => rfl, fun _ h => by simp at h⟩
  · rw [modNotesNote_match noteMod t n hm]
    obtain ⟨pf, pt, age, ha⟩ := addTask_fields n t true
    rw [ha]
    by_cases ht : noteMod.expression = CLAP_NOTE_EXPRESSION_TUNING
    · exact ⟨pf, pt, age, (n.baseKey : ℚ) + noteMod.value,
        by simp only [NoteMod.applyTo, ht, if_true], fun h => absurd ht h, fun _ _ => rfl⟩
    · exact ⟨pf, pt, age, n.key, by simp only [NoteMod.applyTo, ht, if_false],
        fun _ => rfl, fun h => absurd h ht⟩

/-- C23: a defined `modNotes` call keeps the free-list and, position by position, the state,
velocity, note id, voice index and base key of every voice; it leaves every voice that does
not match as it was, and under a tuning request with value `x` every voice that matches ends
with `key = baseKey + x`. -/
theorem C23_modNotes_tuning_and_frame (m : NoteManager) (noteMod : NoteMod) (t : Nat)
    (hdef : (Call.modNotes noteMod t).defined = true) :
    ∃ m1, modNotes m noteMod t = some m1 ∧ m1.voiceIndexQueue = m.voiceIndexQueue ∧
      List.Forall₂
        (fun n n1 =>
          n1.state = n.state ∧ n1.velocity = n.velocity ∧ n1.noteId = n.noteId ∧
          n1.voiceIndex = n.voiceIndex ∧ n1.baseKey = n.baseKey ∧
          (n.matchNoteMod noteMod = false → n1 = n) ∧
          (noteMod.expression = CLAP_NOTE_EXPRESSION_TUNING → n.matchNoteMod noteMod = true →
            n1.key = (n.baseKey : ℚ) + noteMod.value))
        m.notes m1.notes := by
  obtain ⟨table, hm⟩ := modNotes_defined m noteMod t hdef
  refine ⟨_, hm, rfl, ?_⟩
  simp only [List.forall₂_map_right_iff, List.forall₂_same]
  intro n _
  obtain ⟨pf, pt, age, key, heq, -, hkey⟩ := modNotesNote_fields noteMod t n
  refine ⟨?_, ?_, ?_, ?_, ?_, ?_, ?_⟩
  · rw [heq]
  · rw [heq]
  · rw [heq]
  · rw [heq]
  · rw [heq]
  · intro h
    rw [modNotesNote_skip noteMod t n h]
  · intro h1 h2
    rw [heq]
    exact hkey h1 h2

/-- C23 on the sample pool: a tuning request of 1/2 addressed to note id 5 at time 4. -/
theorem C23_modNotes_tuning_and_frame_witness :
    (∃ m1, modNotes sampleLegatoPool (sampleNoteIdMod 4 5 2 (1 / 2)) 4 = some m1 ∧
      m1.voiceIndexQueue = sampleLegatoPool.voiceIndexQueue ∧
      List.Forall₂
        (fun n n1 =>
          n1.state = n.state ∧ n1.velocity = n.velocity ∧ n1.noteId = n.noteId ∧
          n1.voiceIndex = n.voiceIndex ∧ n1.baseKey = n.baseKey ∧
          (n.matchNoteMod (sampleNoteIdMod 4 5 2 (1 / 2)) = false → n1 = n) ∧
          ((sampleNoteIdMod 4 5 2 (1 / 2)).expression = CLAP_NOTE_EXPRESSION_TUNING →
            n.matchNoteMod (sampleNoteIdMod 4 5 2 (1 / 2)) = true →
            n1.key = (n.baseKey : ℚ) + (sampleNoteIdMod 4 5 2 (1 / 2)).value))
        sampleLegatoPool.notes m1.notes) ∧
    (modNotes sampleLegatoPool (sampleNoteIdMod 4 5 2 (1 / 2)) 4).map
        (fun m1 => m1.notes.map (fun n => (n.noteId, n.key)))
      = some [(5, 121 / 2), (6, 61)] :=
  ⟨C23_modNotes_tuning_and_frame sampleLegatoPool (sampleNoteIdMod 4 5 2 (1 / 2)) 4 (by decide),
    by decide!⟩

/-- C24, as stated, fails: a volume request with value 1/4 addressed to note id 5 matches the
first voice of the sample pool, whose volume is 1, and after `modNotes` its volume is still
1. -/
theorem C24_modNotes_volume_not_stored :
    sampleLegatoPool.notes.map
        (fun n => (n.noteId, n.matchNoteMod (sampleNoteIdMod 4 5 0 (1 / 4)), n.volume))
      = [(5, true, 1), (6, false, 1)] ∧
    (modNotes sampleLegatoPool (sampleNoteIdMod 4 5 0 (1 / 4)) 4).map
        (fun m1 => m1.notes.map (fun n => (n.noteId, n.volume)))
      = some [(5, 1), (6, 1)] := by
  decide!

/-- C24, amended: a defined `modNotes` call of a kind other than tuning writes no per-note
expression field: every voice, matching or not, keeps its volume, pan, mod, expression,
brightness, pressure and key. -/
theorem C24_modNotes_non_tuning_keeps_fields (m : NoteManager) (noteMod : NoteMod) (t : Nat)
    (hdef : (Call.modNotes noteMod t).defined = true)
    (hkind : noteMod.expression ≠ CLAP_NOTE_EXPRESSION_TUNING) :
    ∃ m1, modNotes m noteMod t = some m1 ∧
      List.Forall₂
        (fun n n1 =>
          n1.volume = n.volume ∧ n1.pan = n.pan ∧ n1.mod = n.mod ∧
          n1.expression = n.expression ∧ n1.brightness = n.brightness ∧
          n1.pressure = n.pressure ∧ n1.key = n.key)
        m.notes m1.notes := by
  obtain ⟨table, hm⟩ := modNotes_defined m noteMod t hdef
  refine ⟨_, hm, ?_⟩
  simp only [List.forall₂_map_right_iff, List.forall₂_same]
  intro n _
  obtain ⟨pf, pt, age, key, heq, hkey, -⟩ := modNotesNote_fields noteMod t n
  rw [heq]
  exact ⟨rfl, rfl, rfl, rfl, rfl, rfl, hkey hkind⟩

/-- C24, amended, on the sample pool under the volume request addressed to note id 5. -/
theorem C24_modNotes_non_tuning_keeps_fields_witness :
    ∃ m1, modNotes sampleLegatoPool (sampleNoteIdMod 4 5 0 (1 / 4)) 4 = some m1 ∧
      List.Forall₂
        (fun n n1 =>
          n1.volume = n.volume ∧ n1.pan = n.pan ∧ n1.mod = n.mod ∧
          n1.expression = n.expression ∧ n1.brightness = n.brightness ∧
          n1.pressure = n.pressure ∧ n1.key = n.key)
        sampleLegatoPool.notes m1.notes :=
  C24_modNotes_non_tuning_keeps_fields sampleLegatoPool (sampleNoteIdMod 4 5 0 (1 / 4)) 4
    (by decide) (by decide)

/-! ## Assigned note ids -/

theorem toInt32_of_lt (x : Nat) (h : x < 2147483648) : toInt32 x = (x : Int) := by
  unfold toInt32
  have h1 : x % 4294967296 = x := Nat.mod_eq_of_lt (by omega)
  rw [h1, if_pos h]

theorem wouldStart_not_core (stdPow : ℚ → ℚ → ℚ) (m : NoteManager) (event : ClapEvent)
    (hs : event.header.space_id ≠ CLAP_CORE_EVENT_SPACE_ID) :
    wouldStart stdPow m event = (none, m) := by
  unfold wouldStart
  rw [if_pos hs]

theorem wouldStart_core_note (stdPow : ℚ → ℚ → ℚ) (m : NoteManager) (event : ClapEvent)
    (noteEvent : clap_event_note)
    (hs : event.header.space_id = CLAP_CORE_EVENT_SPACE_ID)
    (ht : translateEvent stdPow m event = .note noteEvent) :
    wouldStart stdPow m event =
      if noteEvent.header.type = .CLAP_EVENT_NOTE_ON then
        if noteEvent.note_id < 0 then
          (some (m.applyChannelNoteExpressions
              { Note.ofEvent SIZE_MAX noteEvent .stateDown with
                noteId := -(toInt32 m.internalNoteId) }),
            { m with
              internalNoteId :=
                if (m.internalNoteId + 1) % 4294967296 ≥ 2147483647 then 2
                else (m.internalNoteId + 1) % 4294967296 })
        else (some (m.applyChannelNoteExpressions (Note.ofEvent SIZE_MAX noteEvent .stateDown)), m)
      else (none, m) := by
  unfold wouldStart
  rw [if_neg (not_not.mpr hs), ht]
  dsimp only
  by_cases hon : noteEvent.header.type = .CLAP_EVENT_NOTE_ON
  · rw [if_pos hon, if_pos hon]
    by_cases hneg : noteEvent.note_id < 0
    · have h : (Note.ofEvent SIZE_MAX noteEvent .stateDown).noteId < 0 := hneg
      rw [if_pos hneg]
      simp only [h, if_true]
      rfl
    · have h : ¬ (Note.ofEvent SIZE_MAX noteEvent .stateDown).noteId < 0 := hneg
      rw [if_neg hneg]
      simp only [h, if_false]
  · rw [if_neg hon, if_neg hon]

theorem wouldStart_core_not_note (stdPow : ℚ → ℚ → ℚ) (m : NoteManager) (event : ClapEvent)
    (hs : event.header.space_id = CLAP_CORE_EVENT_SPACE_ID)
    (ht : ∀ noteEvent, translateEvent stdPow m event ≠ .note noteEvent) :
    wouldStart stdPow m event = (none, m) := by
  unfold wouldStart
  rw [if_neg (not_not.mpr hs)]
  cases h : translateEvent stdPow m event with
  | note noteEvent => exact absurd h (ht noteEvent)
  | noteExpression e => rfl
  | midi e => rfl
  | other h => rfl

/-- What `wouldStart` returns: either no candidate and the manager it was given, or, for an
event whose translation is a note-on, a candidate that carries the event's note id when that
is not negative (the manager being the one given) and the negated counter when it is (the
manager being the one given but for the counter, advanced as in `nextNoteId`). -/
theorem wouldStart_cases (stdPow : ℚ → ℚ → ℚ) (m : NoteManager) (event : ClapEvent) :
    ((wouldStart stdPow m event).1 = none ∧ (wouldStart stdPow m event).2 = m) ∨
    ∃ noteEvent candidate,
      event.header.space_id = CLAP_CORE_EVENT_SPACE_ID ∧
      translateEvent stdPow m event = .note noteEvent ∧
      noteEvent.header.type = .CLAP_EVENT_NOTE_ON ∧
      (wouldStart stdPow m event).1 = some candidate ∧
      ((0 ≤ noteEvent.note_id ∧ candidate.noteId = noteEvent.note_id ∧
          (wouldStart stdPow m event).2 = m) ∨
        (noteEvent.note_id < 0 ∧ candidate.noteId = -(toInt32 m.internalNoteId) ∧
          (wouldStart stdPow m event).2 =
            { m with
              internalNoteId :=
                if (m.internalNoteId + 1) % 4294967296 ≥ 2147483647 then 2
                else (m.internalNoteId + 1) % 4294967296 })) := by
  by_cases hs : event.header.space_id = CLAP_CORE_EVENT_SPACE_ID
  · cases ht : translateEvent stdPow m event with
    | note noteEvent =>
      rw [wouldStart_core_note stdPow m event noteEvent hs ht]
      by_cases hon : noteEvent.header.type = .CLAP_EVENT_NOTE_ON
      · right
        rw [if_pos hon]
        by_cases hneg : noteEvent.note_id < 0
        · rw [if_pos hneg]
          exact ⟨noteEvent, _, hs, rfl, hon, rfl,
            Or.inr ⟨hneg, applyChannelNoteExpressions_noteId _ _, rfl⟩⟩
        · rw [if_neg hneg]
          exact ⟨noteEvent, _, hs, rfl, hon, rfl,
            Or.inl ⟨by omega, applyChannelNoteExpressions_noteId _ _, rfl⟩⟩
      · left
        rw [if_neg hon]
        exact ⟨rfl, rfl⟩
    | noteExpression e =>
      left
      rw [wouldStart_core_not_note stdPow m event hs (by rw [ht]; intro n h; cases h)]
      exact ⟨rfl, rfl⟩
    | midi e =>
      left
      rw [wouldStart_core_not_note stdPow m event hs (by rw [ht]; intro n h; cases h)]
      exact ⟨rfl, rfl⟩
    | other h =>
      left
      rw [wouldStart_core_not_note stdPow m event hs (by rw [ht]; intro n h; cases h)]
      exact ⟨rfl, rfl⟩
  · left
    rw [wouldStart_not_core stdPow m event hs]
    exact ⟨rfl, rfl⟩

theorem stop_internalNoteId (m : NoteManager) (x : Note) :
    (stop m x).1.internalNoteId = m.internalNoteId := by
  cases hf : findMatch x m.notes 0 with
  | none => rw [stop_none m x hf]
  | some r =>
    obtain ⟨i, n⟩ := r
    rw [stop_some m x i n hf]

theorem startKill_internalNoteId (m : NoteManager) (newNote : Note)
    (p : NoteManager × List clap_event_note) (h : startKill m newNote = some p) :
    p.1.internalNoteId = m.internalNoteId := by
  by_cases hfull : m.notes.length ≥ m.capacity
  · by_cases hk : findKillIndex m.notes 0 0 10000000000 < m.notes.length
    · rw [startKill_full m newNote hfull hk] at h
      simp only [Option.some.injEq] at h
      rw [← h, stop_internalNoteId]
    · have hnone : m.notes[findKillIndex m.notes 0 0 10000000000]? = none :=
        List.getElem?_eq_none (by omega)
      simp only [startKill, hfull, if_true, hnone] at h
      cases h
  · rw [startKill_room m newNote hfull] at h
    simp only [Option.some.injEq] at h
    rw [← h]

theorem start_internalNoteId (m : NoteManager) (newNote : Note)
    (r : NoteManager × Note × List clap_event_note) (h : start m newNote = some r) :
    r.1.internalNoteId = m.internalNoteId := by
  unfold start at h
  cases hk : startKill m newNote with
  | none => rw [hk] at h; cases h
  | some p =>
    obtain ⟨m1, ev⟩ := p
    have hm1 := startKill_internalNoteId m newNote (m1, ev) hk
    rw [hk] at h
    dsimp only at h
    cases hq : m1.voiceIndexQueue.getLast? with
    | none => rw [hq] at h; cases h
    | some v =>
      rw [hq] at h
      dsimp only at h
      by_cases hlen : m1.notes.length ≥ m1.capacity
      · rw [if_pos hlen] at h; cases h
      · rw [if_neg hlen] at h
        simp only [Option.some.injEq] at h
        rw [← h]
        exact hm1

/-- No call changes the id counter other than through `wouldStart`. -/
theorem call_internalNoteId (stdPow : ℚ → ℚ → ℚ) (m : NoteManager) (c : Call) (m1 : NoteManager)
    (hcall : call stdPow m c = some m1) :
    m1.internalNoteId =
      (c.event.map (fun ev => (wouldStart stdPow m ev).2.internalNoteId)).getD
        m.internalNoteId := by
  cases c with
  | reset => simp only [call, Option.some.injEq] at hcall; rw [← hcall]; rfl
  | startBlock => simp only [call, Option.some.injEq] at hcall; rw [← hcall]; rfl
  | processTo frames => simp only [call, Option.some.injEq] at hcall; rw [← hcall]; rfl
  | start ev =>
    simp only [Call.event, Option.map_some', Option.getD_some]
    simp only [call] at hcall
    rcases hws : wouldStart stdPow m ev with ⟨_ | cand, m2⟩
    · rw [hws] at hcall
      simp only [Option.some.injEq] at hcall
      rw [← hcall]
    · rw [hws] at hcall
      dsimp only at hcall
      cases hst : start m2 cand with
      | none => rw [hst] at hcall; cases hcall
      | some r =>
        rw [hst] at hcall
        simp only [Option.map_some', Option.some.injEq] at hcall
        rw [← hcall]
        exact start_internalNoteId m2 cand r hst
  | legato ev existingNote =>
    simp only [Call.event, Option.map_some', Option.getD_some]
    simp only [call] at hcall
    rcases hws : wouldStart stdPow m ev with ⟨_ | cand, m2⟩
    · rw [hws] at hcall
      simp only [Option.some.injEq] at hcall
      rw [← hcall]
    · rw [hws] at hcall
      simp only [Option.some.injEq] at hcall
      rw [← hcall]
      rfl
  | release request atBlockTime =>
    simp only [call, Option.some.injEq] at hcall; rw [← hcall]; rfl
  | modNotes noteMod atBlockTime =>
    simp only [Call.event, Option.map_none', Option.getD_none]
    simp only [call] at hcall
    by_cases hwide : noteMod.noteId = -1 ∧ noteMod.baseKey = -1 ∧ noteMod.channel ≥ 0 ∧
        noteMod.channel < 16
    · by_cases hexpr : 0 ≤ noteMod.expression ∧ noteMod.expression < 7
      · rw [modNotes_channel_wide m noteMod atBlockTime hwide hexpr] at hcall
        simp only [Option.some.injEq] at hcall
        rw [← hcall]
      · simp only [modNotes, hwide, hexpr, and_self, if_true, if_false] at hcall
        cases hcall
    · rw [modNotes_not_channel_wide m noteMod atBlockTime hwide] at hcall
      simp only [Option.some.injEq] at hcall
      rw [← hcall]
  | stop noteToStop =>
    simp only [call, Option.some.injEq] at hcall
    rw [← hcall]
    exact stop_internalNoteId m noteToStop

/-- C25: from a manager whose id counter is in [2, 2^31 - 2], as it is after construction
(where it is 2) and after every call, a candidate of `wouldStart` whose event carried a
negative note id gets the negated counter, an id in [-(2^31 - 2), -2], and the counter moves
on by one, or back to 2 from 2^31 - 2; a candidate whose event carried a non-negative note id
keeps it, and the manager is unchanged; in all cases the counter stays in [2, 2^31 - 2], and
no call changes it other than through `wouldStart`. -/
theorem C25_assigned_note_ids (stdPow : ℚ → ℚ → ℚ) (m : NoteManager) (event : ClapEvent)
    (hctr : 2 ≤ m.internalNoteId ∧ m.internalNoteId ≤ 2147483646) :
    (∀ P r, (create P r).internalNoteId = 2) ∧
    (∀ candidate, (wouldStart stdPow m event).1 = some candidate →
      ∃ noteEvent, translateEvent stdPow m event = .note noteEvent ∧
        (noteEvent.note_id < 0 →
          candidate.noteId = -(m.internalNoteId : Int) ∧
          -2147483646 ≤ candidate.noteId ∧ candidate.noteId ≤ -2 ∧
          (wouldStart stdPow m event).2.internalNoteId =
            if m.internalNoteId = 2147483646 then 2 else m.internalNoteId + 1) ∧
        (0 ≤ noteEvent.note_id →
          candidate.noteId = noteEvent.note_id ∧ (wouldStart stdPow m event).2 = m)) ∧
    (2 ≤ (wouldStart stdPow m event).2.internalNoteId ∧
      (wouldStart stdPow m event).2.internalNoteId ≤ 2147483646) ∧
    (∀ c m1, call stdPow m c = some m1 →
      m1.internalNoteId =
        (c.event.map (fun ev => (wouldStart stdPow m ev).2.internalNoteId)).getD
          m.internalNoteId) := by
  have h32 : toInt32 m.internalNoteId = (m.internalNoteId : Int) :=
    toInt32_of_lt _ (by omega)
  refine ⟨fun _ _ => rfl, ?_, ?_, call_internalNoteId stdPow m⟩
  · intro candidate hc
    rcases wouldStart_cases stdPow m event with ⟨h1, -⟩ | ⟨ne, cand, -, ht, -, h1, h2⟩
    · rw [h1] at hc
      cases hc
    · rw [h1] at hc
      simp only [Option.some.injEq] at hc
      subst hc
      refine ⟨ne, ht, ?_, ?_⟩
      · intro hneg
        rcases h2 with ⟨h3, -, -⟩ | ⟨-, h4, h5⟩
        · omega
        · rw [h4, h32, h5]
          refine ⟨rfl, by omega, by omega, ?_⟩
          dsimp only
          split_ifs <;> omega
      · intro hpos
        rcases h2 with ⟨-, h4, h5⟩ | ⟨h3, -, -⟩
        · exact ⟨h4, h5⟩
        · omega
  · rcases wouldStart_cases stdPow m event with ⟨-, h1⟩ | ⟨ne, cand, -, -, -, -, h2⟩
    · rw [h1]; exact hctr
    · rcases h2 with ⟨-, -, h5⟩ | ⟨-, -, h5⟩
      · rw [h5]; exact hctr
      · rw [h5]
        dsimp only
        split_ifs <;> omega

/-- C25 on a fresh manager: the first note-on without a note id gets -2, and the counter moves
to 3. -/
theorem C25_assigned_note_ids_witness :
    (∃ noteEvent, translateEvent samplePow (create 1 2) (sampleNoteOn 0 (-1) 0 60) = .note noteEvent ∧
        (noteEvent.note_id < 0 →
          (sampleCandidate 0 (-2) 0 60).noteId = -((create 1 2).internalNoteId : Int) ∧
          -2147483646 ≤ (sampleCandidate 0 (-2) 0 60).noteId ∧
          (sampleCandidate 0 (-2) 0 60).noteId ≤ -2 ∧
          (wouldStart samplePow (create 1 2) (sampleNoteOn 0 (-1) 0 60)).2.internalNoteId =
            if (create 1 2).internalNoteId = 2147483646 then 2
            else (create 1 2).internalNoteId + 1) ∧
        (0 ≤ noteEvent.note_id →
          (sampleCandidate 0 (-2) 0 60).noteId = noteEvent.note_id ∧
            (wouldStart samplePow (create 1 2) (sampleNoteOn 0 (-1) 0 60)).2 = create 1 2)) ∧
    (wouldStart samplePow (create 1 2) (sampleNoteOn 0 (-1) 0 60)).2.internalNoteId = 3 :=
  ⟨(C25_assigned_note_ids samplePow (create 1 2) (sampleNoteOn 0 (-1) 0 60)
      (by decide)).2.1 (sampleCandidate 0 (-2) 0 60) (by decide!),
    by decide⟩


/-! ## Classification of events -/

theorem wouldRelease_some (stdPow : ℚ → ℚ → ℚ) (m : NoteManager) (event : ClapEvent) (r : Note)
    (h : wouldRelease stdPow m event = some r) :
    event.header.space_id = CLAP_CORE_EVENT_SPACE_ID ∧
      ∃ noteEvent, translateEvent stdPow m event = .note noteEvent ∧
        (noteEvent.header.type = .CLAP_EVENT_NOTE_OFF ∨
          noteEvent.header.type = .CLAP_EVENT_NOTE_CHOKE) := by
  unfold wouldRelease at h
  by_cases hs : event.header.space_id = CLAP_CORE_EVENT_SPACE_ID
  · rw [if_neg (not_not.mpr hs)] at h
    cases ht : translateEvent stdPow m event with
    | note noteEvent =>
      rw [ht] at h
      dsimp only at h
      by_cases hty : noteEvent.header.type = .CLAP_EVENT_NOTE_OFF ∨
          noteEvent.header.type = .CLAP_EVENT_NOTE_CHOKE
      · exact ⟨hs, noteEvent, rfl, hty⟩
      · rw [if_neg hty] at h; cases h
    | noteExpression e => rw [ht] at h; cases h
    | midi e => rw [ht] at h; cases h
    | other e => rw [ht] at h; cases h
  · rw [if_pos hs] at h; cases h

theorem wouldModNotes_some (stdPow : ℚ → ℚ → ℚ) (m : NoteManager) (event : ClapEvent)
    (r : NoteMod) (h : wouldModNotes stdPow m event = some r) :
    event.header.space_id = CLAP_CORE_EVENT_SPACE_ID ∧
      ∃ exprEvent, translateEvent stdPow m event = .noteExpression exprEvent ∧
        exprEvent.header.type = .CLAP_EVENT_NOTE_EXPRESSION := by
  unfold wouldModNotes at h
  by_cases hs : event.header.space_id = CLAP_CORE_EVENT_SPACE_ID
  · rw [if_neg (not_not.mpr hs)] at h
    cases ht : translateEvent stdPow m event with
    | noteExpression exprEvent =>
      rw [ht] at h
      dsimp only at h
      by_cases hty : exprEvent.header.type = .CLAP_EVENT_NOTE_EXPRESSION
      · exact ⟨hs, exprEvent, rfl, hty⟩
      · rw [if_neg hty] at h; cases h
    | note e => rw [ht] at h; cases h
    | midi e => rw [ht] at h; cases h
    | other e => rw [ht] at h; cases h
  · rw [if_pos hs] at h; cases h

theorem wouldStart_some (stdPow : ℚ → ℚ → ℚ) (m : NoteManager) (event : ClapEvent) (c : Note)
    (h : (wouldStart stdPow m event).1 = some c) :
    event.header.space_id = CLAP_CORE_EVENT_SPACE_ID ∧
      ∃ noteEvent, translateEvent stdPow m event = .note noteEvent ∧
        noteEvent.header.type = .CLAP_EVENT_NOTE_ON := by
  rcases wouldStart_cases stdPow m event with ⟨h1, -⟩ | ⟨ne, cand, hs, ht, hon, -, -⟩
  · rw [h1] at h; cases h
  · exact ⟨hs, ne, ht, hon⟩

/-- The legacy events `translateEvent` returns as they are. -/
theorem translateEvent_untranslated (stdPow : ℚ → ℚ → ℚ) (m : NoteManager) (e : clap_event_midi)
    (h : e.data0 &&& 0xF0 = 0xC0 ∨
      (e.data0 &&& 0xF0 = 0xB0 ∧ e.data1 ≠ 1 ∧ e.data1 ≠ 4 ∧ e.data1 ≠ 7 ∧ e.data1 ≠ 10 ∧
        e.data1 ≠ 11) ∨
      e.data0 &&& 0xF0 = 0xF0 ∨ e.data0 &&& 0xF0 < 0x80) :
    translateEvent stdPow m (.midi e) = .midi e := by
  by_cases htype : e.header.type = .CLAP_EVENT_MIDI
  · rcases h with h | ⟨h, h1, h4, h7, h10, h11⟩ | h | h
    · simp [translateEvent, htype, h]
    · simp [translateEvent, htype, h, h1, h4, h7, h10, h11]
    · simp [translateEvent, htype, h]
    · have n8 : e.data0 &&& 0xF0 ≠ 0x80 := by omega
      have n9 : e.data0 &&& 0xF0 ≠ 0x90 := by omega
      have nA : e.data0 &&& 0xF0 ≠ 0xA0 := by omega
      have nB : e.data0 &&& 0xF0 ≠ 0xB0 := by omega
      have nC : e.data0 &&& 0xF0 ≠ 0xC0 := by omega
      have nD : e.data0 &&& 0xF0 ≠ 0xD0 := by omega
      have nE : e.data0 &&& 0xF0 ≠ 0xE0 := by omega
      simp [translateEvent, htype, n8, n9, nA, nB, nC, nD, nE]
  · simp [translateEvent, htype]

theorem option_eq_none_of_forall {α : Type} (o : Option α) (h : ∀ x, o = some x → False) :
    o = none := by
  cases o with
  | none => rfl
  | some x => exact absurd rfl (fun hx => h x hx)

/-- C30: the three classifiers return none for every event outside the core event space and
for every legacy event without translation (program change, an unmapped controller number,
status nibble 0xF or below 0x8); `wouldStart` returns a candidate only when the translated
event is a note-on, `wouldRelease` only when it is a note-off or a choke, `wouldModNotes` only
when it is a note expression, and then the other two return none; `wouldStart` leaves the
active voices, the task list, the free-list and the expression cache as they were; and
`processEvent` on an event all three reject returns an empty task list and no event and
changes nothing else. -/
theorem C30_classifiers_reject_or_are_exclusive (stdPow : ℚ → ℚ → ℚ) (m : NoteManager)
    (event : ClapEvent) :
    (event.header.space_id ≠ CLAP_CORE_EVENT_SPACE_ID →
      (wouldStart stdPow m event).1 = none ∧ wouldRelease stdPow m event = none ∧
        wouldModNotes stdPow m event = none) ∧
    (∀ e, event = .midi e →
      (e.data0 &&& 0xF0 = 0xC0 ∨
        (e.data0 &&& 0xF0 = 0xB0 ∧ e.data1 ≠ 1 ∧ e.data1 ≠ 4 ∧ e.data1 ≠ 7 ∧ e.data1 ≠ 10 ∧
          e.data1 ≠ 11) ∨
        e.data0 &&& 0xF0 = 0xF0 ∨ e.data0 &&& 0xF0 < 0x80) →
      (wouldStart stdPow m event).1 = none ∧ wouldRelease stdPow m event = none ∧
        wouldModNotes stdPow m event = none) ∧
    (∀ c, (wouldStart stdPow m event).1 = some c →
      (translateEvent stdPow m event).header.type = .CLAP_EVENT_NOTE_ON ∧
        wouldRelease stdPow m event = none ∧ wouldModNotes stdPow m event = none) ∧
    (∀ r, wouldRelease stdPow m event = some r →
      ((translateEvent stdPow m event).header.type = .CLAP_EVENT_NOTE_OFF ∨
          (translateEvent stdPow m event).header.type = .CLAP_EVENT_NOTE_CHOKE) ∧
        (wouldStart stdPow m event).1 = none ∧ wouldModNotes stdPow m event = none) ∧
    (∀ r, wouldModNotes stdPow m event = some r →
      (translateEvent stdPow m event).header.type = .CLAP_EVENT_NOTE_EXPRESSION ∧
        (wouldStart stdPow m event).1 = none ∧ wouldRelease stdPow m event = none) ∧
    ((wouldStart stdPow m event).2.notes = m.notes ∧
      (wouldStart stdPow m event).2.tasks = m.tasks ∧
      (wouldStart stdPow m event).2.voiceIndexQueue = m.voiceIndexQueue ∧
      (wouldStart stdPow m event).2.channelNoteExpressions = m.channelNoteExpressions) ∧
    ((wouldStart stdPow m event).1 = none → wouldRelease stdPow m event = none →
      wouldModNotes stdPow m event = none →
      processEvent stdPow m event = some ({ m with tasks := [] }, [])) := by
  refine ⟨?_, ?_, ?_, ?_, ?_, ?_, ?_⟩
  · intro hs
    refine ⟨?_, ?_, ?_⟩
    · rw [wouldStart_not_core stdPow m event hs]
    · exact option_eq_none_of_forall _ (fun r h => hs (wouldRelease_some stdPow m event r h).1)
    · exact option_eq_none_of_forall _ (fun r h => hs (wouldModNotes_some stdPow m event r h).1)
  · intro e he hcond
    subst he
    have ht := translateEvent_untranslated stdPow m e hcond
    refine ⟨?_, ?_, ?_⟩
    · apply option_eq_none_of_forall
      intro c h
      obtain ⟨-, ne, h1, -⟩ := wouldStart_some stdPow m _ c h
      rw [ht] at h1; cases h1
    · apply option_eq_none_of_forall
      intro c h
      obtain ⟨-, ne, h1, -⟩ := wouldRelease_some stdPow m _ c h
      rw [ht] at h1; cases h1
    · apply option_eq_none_of_forall
      intro c h
      obtain ⟨-, ne, h1, -⟩ := wouldModNotes_some stdPow m _ c h
      rw [ht] at h1; cases h1
  · intro c h
    obtain ⟨-, ne, h1, h2⟩ := wouldStart_some stdPow m event c h
    refine ⟨by rw [h1]; exact h2, ?_, ?_⟩
    · apply option_eq_none_of_forall
      intro r hr
      obtain ⟨-, ne2, h3, h4⟩ := wouldRelease_some stdPow m event r hr
      rw [h1] at h3
      cases h3
      rw [h2] at h4
      rcases h4 with h4 | h4 <;> cases h4
    · apply option_eq_none_of_forall
      intro r hr
      obtain ⟨-, ne2, h3, -⟩ := wouldModNotes_some stdPow m event r hr
      rw [h1] at h3; cases h3
  · intro r hr
    obtain ⟨-, ne, h1, h2⟩ := wouldRelease_some stdPow m event r hr
    refine ⟨by rw [h1]; exact h2, ?_, ?_⟩
    · apply option_eq_none_of_forall
      intro c hc
      obtain ⟨-, ne2, h3, h4⟩ := wouldStart_some stdPow m event c hc
      rw [h1] at h3
      cases h3
      rw [h4] at h2
      rcases h2 with h2 | h2 <;> cases h2
    · apply option_eq_none_of_forall
      intro c hc
      obtain ⟨-, ne2, h3, -⟩ := wouldModNotes_some stdPow m event c hc
      rw [h1] at h3; cases h3
  · intro r hr
    obtain ⟨-, ee, h1, h2⟩ := wouldModNotes_some stdPow m event r hr
    refine ⟨by rw [h1]; exact h2, ?_, ?_⟩
    · apply option_eq_none_of_forall
      intro c hc
      obtain ⟨-, ne2, h3, -⟩ := wouldStart_some stdPow m event c hc
      rw [h1] at h3; cases h3
    · apply option_eq_none_of_forall
      intro c hc
      obtain ⟨-, ne2, h3, -⟩ := wouldRelease_some stdPow m event c hc
      rw [h1] at h3; cases h3
  · rcases wouldStart_cases stdPow m event with ⟨-, h1⟩ | ⟨ne, cand, -, -, -, -, h2⟩
    · rw [h1]; exact ⟨rfl, rfl, rfl, rfl⟩
    · rcases h2 with ⟨-, -, h5⟩ | ⟨-, -, h5⟩
      · rw [h5]; exact ⟨rfl, rfl, rfl, rfl⟩
      · rw [h5]; exact ⟨rfl, rfl, rfl, rfl⟩
  · intro h1 h2 h3
    have hws : wouldStart stdPow m event = (none, m) := by
      rcases wouldStart_cases stdPow m event with ⟨ha, hb⟩ | ⟨ne, cand, -, -, -, hc, -⟩
      · exact Prod.ext ha hb
      · rw [h1] at hc; cases hc
    simp only [processEvent, hws, h2, h3]

/-- C30 on a program change in the core space: all three classifiers return none and
`processEvent` only empties the task list. -/
theorem C30_classifiers_reject_or_are_exclusive_witness :
    ((wouldStart samplePow sampleFullPool (.midi (sampleMidi 3 0xC2 5 0))).1 = none ∧
        wouldRelease samplePow sampleFullPool (.midi (sampleMidi 3 0xC2 5 0)) = none ∧
        wouldModNotes samplePow sampleFullPool (.midi (sampleMidi 3 0xC2 5 0)) = none) ∧
      processEvent samplePow sampleFullPool (.midi (sampleMidi 3 0xC2 5 0)) =
        some ({ sampleFullPool with tasks := [] }, []) := by
  have h := C30_classifiers_reject_or_are_exclusive samplePow sampleFullPool
    (.midi (sampleMidi 3 0xC2 5 0))
  have h3 := h.2.1 (sampleMidi 3 0xC2 5 0) rfl (Or.inl (by decide))
  exact ⟨h3, h.2.2.2.2.2.2 h3.1 h3.2.1 h3.2.2⟩


/-! ## Order and ranges of the tasks -/

/-- A task pushed by `addTask` is the note with its range closed at the time given; under
`noStateChange` it is not empty. -/
theorem addTask_task_mem (n : Note) (t : Nat) (b : Bool) (task : Note)
    (h : task ∈ (addTask n t b).2) :
    task = { n with processTo := t } ∧ (b = true → n.processFrom < t) := by
  simp only [addTask] at h
  split_ifs at h with hc
  · simp at h
  · simp only [List.mem_singleton] at h
    refine ⟨h, ?_⟩
    intro hb
    by_contra hlt
    exact hc ⟨by omega, Or.inl hb⟩

theorem releaseLoop_wildcard_tasks (t : Nat) (notes : List Note) (request : Note)
    (hid : request.noteId = -1) :
    (releaseLoop t notes request).2.1 =
      (notes.map (fun n => if n.matchNote request then (releaseNote request t n).2 else [])).flatten := by
  induction notes generalizing request with
  | nil => rfl
  | cons a rest ih =>
    cases hm : a.matchNote request
    · rw [releaseLoop_cons_skip _ _ _ _ hm]
      simp [hm, ih request hid]
    · rw [releaseLoop_cons_continue _ _ _ _ hm hid]
      simp only [List.map_cons, hm, if_true, List.flatten_cons]
      congr 1
      exact ih { request with voiceIndex := (releaseNote request t a).1.voiceIndex } hid

theorem releaseLoop_tasks_mem (t : Nat) (notes : List Note) (request : Note) (task : Note)
    (h : task ∈ (releaseLoop t notes request).2.1) :
    ∃ n ∈ notes, task ∈ (addTask n t false).2 := by
  induction notes generalizing request with
  | nil => simp [releaseLoop] at h
  | cons a rest ih =>
    cases hm : a.matchNote request
    · rw [releaseLoop_cons_skip _ _ _ _ hm] at h
      obtain ⟨n, hn, ht⟩ := ih request h
      exact ⟨n, List.mem_cons_of_mem _ hn, ht⟩
    · by_cases hid : request.noteId = -1
      · rw [releaseLoop_cons_continue _ _ _ _ hm hid] at h
        rcases List.mem_append.mp h with h1 | h1
        · exact ⟨a, List.mem_cons_self _ _, h1⟩
        · obtain ⟨n, hn, ht⟩ := ih _ h1
          exact ⟨n, List.mem_cons_of_mem _ hn, ht⟩
      · rw [releaseLoop_cons_break _ _ _ _ hm hid] at h
        exact ⟨a, List.mem_cons_self _ _, h⟩

theorem legatoLoop_tasks_mem (existingNote : Note) (notes : List Note) (newNote : Note)
    (task : Note) (h : task ∈ (legatoLoop existingNote notes newNote).2.1) :
    ∃ n ∈ notes, task ∈ (addTask n newNote.processFrom false).2 := by
  induction notes with
  | nil => simp [legatoLoop] at h
  | cons a rest ih =>
    cases hm : a.matchNote existingNote
    · rw [legatoLoop_cons_skip _ _ _ _ hm] at h
      obtain ⟨n, hn, ht⟩ := ih h
      exact ⟨n, List.mem_cons_of_mem _ hn, ht⟩
    · rw [legatoLoop_cons_match _ _ _ _ hm] at h
      exact ⟨a, List.mem_cons_self _ _, h⟩

theorem addTask_tasks_cases (n : Note) (t : Nat) (b : Bool) :
    (addTask n t b).2 = [] ∨ (addTask n t b).2 = [{ n with processTo := t }] := by
  simp only [addTask]
  split_ifs
  · exact Or.inl rfl
  · exact Or.inr rfl

theorem addTask_tasks_sublist (n : Note) (t : Nat) (b : Bool) :
    ((addTask n t b).2.map (fun x => (x.voiceIndex, x.noteId))).Sublist
      [(n.voiceIndex, n.noteId)] := by
  rcases addTask_tasks_cases n t b with h | h
  · rw [h]; simp
  · rw [h]; exact List.Sublist.refl _

theorem processToNote_tasks_sublist (frames : Nat) (n : Note) :
    ((processToNote frames n).2.map (fun x => (x.voiceIndex, x.noteId))).Sublist
      [(n.voiceIndex, n.noteId)] := by
  by_cases h : n.processFrom < frames
  · rw [processToNote_behind frames n h]; exact List.Sublist.refl _
  · rw [processToNote_caught_up frames n h]; simp

theorem modNotesNote_tasks_sublist (noteMod : NoteMod) (t : Nat) (n : Note) :
    ((modNotesNote noteMod t n).2.map (fun x => (x.voiceIndex, x.noteId))).Sublist
      [(n.voiceIndex, n.noteId)] := by
  cases hm : n.matchNoteMod noteMod
  · rw [modNotesNote_skip noteMod t n hm]; simp
  · rw [modNotesNote_match noteMod t n hm]; exact addTask_tasks_sublist n t true

/-- Tasks pushed note by note, each for the note visited, follow the order of the notes. -/
theorem flatten_map_sublist (f : Note → List Note) (notes : List Note)
    (h : ∀ n, ((f n).map (fun x => (x.voiceIndex, x.noteId))).Sublist
      [(n.voiceIndex, n.noteId)]) :
    (((notes.map f).flatten).map (fun x => (x.voiceIndex, x.noteId))).Sublist
      (notes.map (fun x => (x.voiceIndex, x.noteId))) := by
  induction notes with
  | nil => simp
  | cons a rest ih =>
    simp only [List.map_cons, List.flatten_cons, List.map_append]
    exact List.Sublist.append (h a) ih

theorem releaseLoop_tasks_sublist (t : Nat) (notes : List Note) (request : Note) :
    ((releaseLoop t notes request).2.1.map (fun x => (x.voiceIndex, x.noteId))).Sublist
      (notes.map (fun x => (x.voiceIndex, x.noteId))) := by
  induction notes generalizing request with
  | nil => simp [releaseLoop]
  | cons a rest ih =>
    cases hm : a.matchNote request
    · rw [releaseLoop_cons_skip _ _ _ _ hm]
      exact List.Sublist.cons _ (ih request)
    · by_cases hid : request.noteId = -1
      · rw [releaseLoop_cons_continue _ _ _ _ hm hid]
        simp only [List.map_cons, List.map_append]
        exact List.Sublist.append (addTask_tasks_sublist a t false) (ih _)
      · rw [releaseLoop_cons_break _ _ _ _ hm hid]
        simp only [List.map_cons]
        exact (addTask_tasks_sublist a t false).trans
          (List.Sublist.append (List.Sublist.refl [(a.voiceIndex, a.noteId)])
            (List.nil_sublist _))

/-- C27, as stated, fails: three notes are started in the order note id 5, 6, 7, the first is
stopped, and `processTo` then returns the task of note id 7 before the task of note id 6,
which was started earlier. -/
theorem C27_tasks_not_in_insertion_order :
    (run samplePow (create 3 2)
        [.start (sampleNoteOn 0 5 0 60), .start (sampleNoteOn 0 6 0 61),
          .start (sampleNoteOn 0 7 0 62), .stop (sampleRelease 0 5 0 60), .processTo 10]).map
      (fun m => m.tasks.map (fun t => t.noteId))
      = some [7, 6] := by
  decide!

/-- C27, amended: the tasks returned by `processTo`, by `release` and by a defined `modNotes`
follow the storage order of their voices: their (voice index, note id) pairs, in task order,
form a subsequence of those of the active-voice list.  The active-voice list is in insertion
order as far as `start` goes, which appends the new voice at its end. -/
theorem C27_tasks_in_storage_order (P : Nat) (m : NoteManager) (request newNote : Note)
    (noteMod : NoteMod) (t frames : Nat) :
    ((m.processTo frames).tasks.map (fun x => (x.voiceIndex, x.noteId))).Sublist
        (m.notes.map (fun x => (x.voiceIndex, x.noteId))) ∧
    ((release m request t).1.tasks.map (fun x => (x.voiceIndex, x.noteId))).Sublist
        (m.notes.map (fun x => (x.voiceIndex, x.noteId))) ∧
    ((Call.modNotes noteMod t).defined = true →
      ∃ m1, modNotes m noteMod t = some m1 ∧
        (m1.tasks.map (fun x => (x.voiceIndex, x.noteId))).Sublist
          (m.notes.map (fun x => (x.voiceIndex, x.noteId)))) ∧
    (Inv P m → m.notes.length < m.polyphony →
      ∃ r, start m newNote = some r ∧ r.1.notes = m.notes ++ [r.2.1]) := by
  refine ⟨?_, ?_, ?_, ?_⟩
  · exact flatten_map_sublist _ m.notes (processToNote_tasks_sublist frames)
  · exact releaseLoop_tasks_sublist t m.notes request
  · intro hdef
    obtain ⟨table, hm⟩ := modNotes_defined m noteMod t hdef
    exact ⟨_, hm, flatten_map_sublist _ m.notes (modNotesNote_tasks_sublist noteMod t)⟩
  · intro hinv hroom
    obtain ⟨v, -, hs⟩ := start_with_room P m newNote hinv (by simpa [polyphony] using hroom)
    exact ⟨_, hs, rfl⟩

/-- C27, amended, on the pool with voices on channels 1, 2, 2 and 3 (voice indices 0 to 3): a
channel-wide tuning request on channel 2 returns the tasks of the voices at positions 1 and 2
in that order. -/
theorem C27_tasks_in_storage_order_witness :
    (∃ m1, modNotes sampleChannelPool (sampleChannelMod 4 2 2 (1 / 2)) 4 = some m1 ∧
        (m1.tasks.map (fun x => (x.voiceIndex, x.noteId))).Sublist
          (sampleChannelPool.notes.map (fun x => (x.voiceIndex, x.noteId)))) ∧
      (modNotes sampleChannelPool (sampleChannelMod 4 2 2 (1 / 2)) 4).map
          (fun m1 => m1.tasks.map (fun x => (x.voiceIndex, x.noteId)))
        = some [(1, 6), (2, 7)] :=
  ⟨(C27_tasks_in_storage_order 4 sampleChannelPool (sampleChannelRelease 4 2)
      (sampleCandidate 4 9 0 64) (sampleChannelMod 4 2 2 (1 / 2)) 4 8).2.2.1 (by decide),
    by decide!⟩

/-- C29, as stated, fails: a note started at time 10 and released at time 5 gets a task that
begins at 10 and ends at 5. -/
theorem C29_release_before_cursor_task :
    (run samplePow (create 1 2)
        [.start (sampleNoteOn 10 5 0 60), .release (sampleRelease 5 5 0 60) 5]).map
      (fun m => m.tasks.map (fun t => (t.processFrom, t.processTo)))
      = some [(10, 5)] := by
  decide

/-- C29, amended: every task returned by `processTo` or by a defined `modNotes` begins before
it ends; every task returned by `release`, `legato` or `start` begins no later than it ends
when the time of the call (the release time, the start time of the candidate) is not earlier
than the cursor of any active voice. -/
theorem C29_task_ranges_in_time_order (P : Nat) (m : NoteManager) (request newNote : Note)
    (noteMod : NoteMod) (t frames : Nat) :
    (∀ task ∈ (m.processTo frames).tasks, task.processFrom < task.processTo) ∧
    ((Call.modNotes noteMod t).defined = true →
      ∃ m1, modNotes m noteMod t = some m1 ∧
        ∀ task ∈ m1.tasks, task.processFrom < task.processTo) ∧
    ((∀ n ∈ m.notes, n.processFrom ≤ t) →
      ∀ task ∈ (release m request t).1.tasks, task.processFrom ≤ task.processTo) ∧
    ((∀ n ∈ m.notes, n.processFrom ≤ newNote.processFrom) →
      ∀ task ∈ (legato m newNote request).1.tasks, task.processFrom ≤ task.processTo) ∧
    (Inv P m → 1 ≤ P → (∀ n ∈ m.notes, n.processFrom ≤ newNote.processFrom) →
      ∃ r, start m newNote = some r ∧
        ∀ task ∈ r.1.tasks, task.processFrom ≤ task.processTo) := by
  refine ⟨?_, ?_, ?_, ?_, ?_⟩
  · intro task h
    simp only [processTo, processTo_tasks_eq, List.mem_map, List.mem_filter,
      decide_eq_true_eq] at h
    obtain ⟨n, ⟨-, hlt⟩, rfl⟩ := h
    exact hlt
  · intro hdef
    obtain ⟨table, hm⟩ := modNotes_defined m noteMod t hdef
    refine ⟨_, hm, ?_⟩
    intro task h
    simp only [List.mem_flatten, List.mem_map] at h
    obtain ⟨l, ⟨n, -, rfl⟩, hmem⟩ := h
    cases hmatch : n.matchNoteMod noteMod
    · rw [modNotesNote_skip noteMod t n hmatch] at hmem
      simp at hmem
    · rw [modNotesNote_match noteMod t n hmatch] at hmem
      obtain ⟨rfl, hlt⟩ := addTask_task_mem n t true task hmem
      exact hlt rfl
  · intro hle task h
    obtain ⟨n, hn, hmem⟩ := releaseLoop_tasks_mem t m.notes request task h
    obtain ⟨rfl, -⟩ := addTask_task_mem n t false task hmem
    exact hle n hn
  · intro hle task h
    obtain ⟨n, hn, hmem⟩ := legatoLoop_tasks_mem request m.notes newNote task h
    obtain ⟨rfl, -⟩ := addTask_task_mem n newNote.processFrom false task hmem
    exact hle n hn
  · intro hinv hP hle
    by_cases hfull : m.notes.length ≥ m.capacity
    · obtain ⟨victim, j, removed, hv, -, hs⟩ := start_at_capacity P m newNote hinv hP hfull
      refine ⟨_, hs, ?_⟩
      intro task h
      simp only [List.mem_singleton] at h
      subst h
      exact hle victim (List.getElem?_mem hv)
    · obtain ⟨v, -, hs⟩ := start_with_room P m newNote hinv hfull
      refine ⟨_, hs, ?_⟩
      intro task h
      simp at h

/-- C29, amended, on the sample full pool (cursors at 100): a note started at time 100 steals
a voice, and the kill task is empty but not reversed. -/
theorem C29_task_ranges_in_time_order_witness :
    (∃ r, start sampleFullPool (sampleCandidate 100 7 0 62) = some r ∧
        ∀ task ∈ r.1.tasks, task.processFrom ≤ task.processTo) ∧
      (start sampleFullPool (sampleCandidate 100 7 0 62)).map
          (fun r => r.1.tasks.map (fun t => (t.processFrom, t.processTo)))
        = some [(100, 100)] :=
  ⟨(C29_task_ranges_in_time_order 2 sampleFullPool (sampleRelease 100 6 0 61)
      (sampleCandidate 100 7 0 62) (sampleChannelMod 100 0 2 0) 100 128).2.2.2.2
      sampleFullPool_inv (by decide) (by decide),
    by decide!⟩


theorem distinctNoteIds_of_map_eq (l l1 : List Note)
    (h : l1.map (fun n => n.noteId) = l.map (fun n => n.noteId)) (hd : distinctNoteIds l) :
    distinctNoteIds l1 := by
  unfold distinctNoteIds at hd ⊢
  have h1 : (l.map (fun n => n.noteId)).Pairwise (fun a b => a = b → a < 0) :=
    List.pairwise_map.mpr hd
  rw [← h] at h1
  exact List.pairwise_map.mp h1

theorem distinctNoteIds_of_perm (l l1 : List Note) (h : l1.Perm l) (hd : distinctNoteIds l) :
    distinctNoteIds l1 := by
  unfold distinctNoteIds at hd ⊢
  refine (List.Perm.pairwise_iff ?_ h).mpr hd
  intro x y hxy hyx
  have := hxy hyx.symm
  omega

theorem set_map_noteId (l : List Note) (k : Nat) (hk : k < l.length) (x : Note)
    (hx : x.noteId = l[k].noteId) :
    (l.set k x).map (fun n => n.noteId) = l.map (fun n => n.noteId) := by
  induction l generalizing k with
  | nil => simp at hk
  | cons a rest ih =>
    cases k with
    | zero => simp at hx; simp [hx]
    | succ k =>
      simp only [List.set_cons_succ, List.map_cons, List.cons.injEq, true_and]
      exact ih k (by simpa using hk) (by simpa using hx)

theorem removeNote_distinct (notes : List Note) (i : Nat) (hi : i < notes.length)
    (hd : distinctNoteIds notes) : distinctNoteIds (removeNote notes i) := by
  apply distinctNoteIds_of_perm _ _ (removeNote_perm notes i hi)
  exact List.Pairwise.sublist (List.eraseIdx_sublist notes i) hd

theorem distinctNoteIds_concat (notes : List Note) (x : Note) (hd : distinctNoteIds notes)
    (hx : x.noteId < 0 ∨ ∀ n ∈ notes, n.noteId ≠ x.noteId) : distinctNoteIds (notes ++ [x]) := by
  unfold distinctNoteIds at hd ⊢
  rw [List.pairwise_append]
  refine ⟨hd, List.pairwise_singleton _ _, ?_⟩
  intro a ha b hb hab
  simp only [List.mem_singleton] at hb
  subst hb
  rcases hx with hx | hx
  · omega
  · exact absurd hab (hx a ha)

theorem releaseLoop_map_noteId (t : Nat) (notes : List Note) (request : Note) :
    (releaseLoop t notes request).1.map (fun n => n.noteId) = notes.map (fun n => n.noteId) := by
  induction notes generalizing request with
  | nil => rfl
  | cons a rest ih =>
    cases hm : a.matchNote request
    · rw [releaseLoop_cons_skip _ _ _ _ hm]
      simp [ih]
    · by_cases hid : request.noteId = -1
      · rw [releaseLoop_cons_continue _ _ _ _ hm hid]
        simp [ih, releaseNote_noteId]
      · rw [releaseLoop_cons_break _ _ _ _ hm hid]
        simp [releaseNote_noteId]

theorem legatoLoop_mem (existingNote : Note) (notes : List Note) (newNote b : Note)
    (h : b ∈ (legatoLoop existingNote notes newNote).1) :
    b ∈ notes ∨ b.noteId = newNote.noteId := by
  induction notes with
  | nil => simp [legatoLoop] at h
  | cons a rest ih =>
    cases hm : a.matchNote existingNote
    · rw [legatoLoop_cons_skip _ _ _ _ hm] at h
      rcases List.mem_cons.mp h with h1 | h1
      · left; rw [h1]; exact List.mem_cons_self _ _
      · rcases ih h1 with h2 | h2
        · left; exact List.mem_cons_of_mem _ h2
        · right; exact h2
    · rw [legatoLoop_cons_match _ _ _ _ hm] at h
      rcases List.mem_cons.mp h with h1 | h1
      · right; rw [h1]; rfl
      · left; exact List.mem_cons_of_mem _ h1

theorem legatoLoop_distinct (existingNote : Note) (notes : List Note) (newNote : Note)
    (hd : distinctNoteIds notes)
    (hx : newNote.noteId < 0 ∨ ∀ n ∈ notes, n.noteId ≠ newNote.noteId) :
    distinctNoteIds (legatoLoop existingNote notes newNote).1 := by
  induction notes with
  | nil => exact List.Pairwise.nil
  | cons a rest ih =>
    unfold distinctNoteIds at hd
    rw [List.pairwise_cons] at hd
    have hxrest : newNote.noteId < 0 ∨ ∀ n ∈ rest, n.noteId ≠ newNote.noteId := by
      rcases hx with hx | hx
      · exact Or.inl hx
      · exact Or.inr (fun n hn => hx n (List.mem_cons_of_mem _ hn))
    cases hm : a.matchNote existingNote
    · rw [legatoLoop_cons_skip _ _ _ _ hm]
      unfold distinctNoteIds
      rw [List.pairwise_cons]
      refine ⟨?_, ih hd.2 hxrest⟩
      intro b hb hab
      rcases legatoLoop_mem existingNote rest newNote b hb with h1 | h1
      · exact hd.1 b h1 hab
      · rcases hx with hx | hx
        · omega
        · exact absurd (hab.trans h1) (hx a (List.mem_cons_self _ _))
    · rw [legatoLoop_cons_match _ _ _ _ hm]
      unfold distinctNoteIds
      rw [List.pairwise_cons]
      refine ⟨?_, hd.2⟩
      intro b hb hab
      rw [legatoNote_noteId] at hab ⊢
      rcases hxrest with hx | hx
      · exact hx
      · exact absurd hab.symm (hx b hb)

theorem wouldStart_notes (stdPow : ℚ → ℚ → ℚ) (m : NoteManager) (event : ClapEvent) :
    (wouldStart stdPow m event).2.notes = m.notes := by
  rcases wouldStart_cases stdPow m event with h | ⟨ne, cand, -, -, -, -, h | h⟩
  · rw [h.2]
  · rw [h.2.2]
  · rw [h.2.2]

theorem start_distinct (P : Nat) (m : NoteManager) (newNote : Note) (h : Inv P m) (hP : 1 ≤ P)
    (hd : distinctNoteIds m.notes)
    (hx : newNote.noteId < 0 ∨ ∀ n ∈ m.notes, n.noteId ≠ newNote.noteId) :
    ∃ r, start m newNote = some r ∧ distinctNoteIds r.1.notes := by
  by_cases hfull : m.notes.length ≥ m.capacity
  · obtain ⟨victim, j, removed, hv, hf, hs⟩ := start_at_capacity P m newNote h hP hfull
    refine ⟨_, hs, ?_⟩
    obtain ⟨hk, hvk⟩ := List.getElem?_eq_some_iff.mp hv
    have hset : distinctNoteIds
        (m.notes.set (findKillIndex m.notes 0 0 10000000000) (killNote victim newNote)) :=
      distinctNoteIds_of_map_eq _ _
        (set_map_noteId m.notes _ hk _ (by rw [hvk]; rfl)) hd
    obtain ⟨-, hj, -, -⟩ := findMatch_spec _ _ 0 j removed hf
    have hjlen : j < (m.notes.set (findKillIndex m.notes 0 0 10000000000)
        (killNote victim newNote)).length := by
      have := (List.getElem?_eq_some_iff.mp hj).1
      simpa using this
    apply distinctNoteIds_concat _ _ (removeNote_distinct _ j hjlen hset)
    rcases hx with hx | hx
    · exact Or.inl hx
    · right
      intro n hn
      rcases List.mem_or_eq_of_mem_set (removeNote_mem _ _ _ hn) with h1 | h1
      · exact hx n h1
      · rw [h1]
        have : (killNote victim newNote).noteId = victim.noteId := rfl
        rw [this, ← hvk]
        exact hx _ (List.getElem_mem hk)
  · obtain ⟨voiceIndex, -, hs⟩ := start_with_room P m newNote h hfull
    exact ⟨_, hs, distinctNoteIds_concat _ _ hd hx⟩

theorem stop_distinct (m : NoteManager) (x : Note) (hd : distinctNoteIds m.notes) :
    distinctNoteIds (stop m x).1.notes := by
  cases hf : findMatch x m.notes 0 with
  | none => rw [stop_none m x hf]; exact hd
  | some r =>
    obtain ⟨j, n⟩ := r
    rw [stop_some m x j n hf]
    obtain ⟨-, hj, -, -⟩ := findMatch_spec _ _ 0 j n hf
    have hjlen : j < m.notes.length := by
      have := (List.getElem?_eq_some_iff.mp hj).1
      simpa using this
    exact removeNote_distinct _ j hjlen hd

theorem call_distinct (stdPow : ℚ → ℚ → ℚ) (P : Nat) (hP : 1 ≤ P) (m : NoteManager) (c : Call)
    (h : Inv P m) (hc : c.defined = true) (hd : distinctNoteIds m.notes)
    (hx : ∀ event candidate, c.event = some event →
      (wouldStart stdPow m event).1 = some candidate →
      candidate.noteId < 0 ∨ ∀ n ∈ m.notes, n.noteId ≠ candidate.noteId) :
    ∃ m1, call stdPow m c = some m1 ∧ distinctNoteIds m1.notes := by
  cases c with
  | reset => exact ⟨_, rfl, List.Pairwise.nil⟩
  | startBlock =>
    refine ⟨_, rfl, distinctNoteIds_of_map_eq m.notes _ ?_ hd⟩
    simp [startBlock]
  | processTo frames =>
    refine ⟨_, rfl, distinctNoteIds_of_map_eq m.notes _ ?_ hd⟩
    simp [processTo, processToNote_noteId]
  | start event =>
    have hx1 := hx event
    have hn := wouldStart_notes stdPow m event
    have hw := (wouldStart_spec stdPow P m event h).1
    simp only [call]
    rcases hws : wouldStart stdPow m event with ⟨_ | cand, m1⟩
    · rw [hws] at hn
      simp only at hn
      exact ⟨_, rfl, by rw [hn]; exact hd⟩
    · rw [hws] at hn hw hx1
      simp only at hn hw
      obtain ⟨r, hr, hdr⟩ := start_distinct P m1 cand hw hP (by rw [hn]; exact hd)
        (by rw [hn]; exact hx1 cand rfl rfl)
      simp only [hr, Option.map_some']
      exact ⟨_, rfl, hdr⟩
  | legato event existingNote =>
    have hx1 := hx event
    have hn := wouldStart_notes stdPow m event
    simp only [call]
    rcases hws : wouldStart stdPow m event with ⟨_ | cand, m1⟩
    · rw [hws] at hn
      simp only at hn
      exact ⟨_, rfl, by rw [hn]; exact hd⟩
    · rw [hws] at hn hx1
      simp only at hn
      refine ⟨_, rfl, ?_⟩
      simp only [legato]
      exact legatoLoop_distinct _ _ _ (by rw [hn]; exact hd) (by rw [hn]; exact hx1 cand rfl rfl)
  | release request atBlockTime =>
    refine ⟨_, rfl, distinctNoteIds_of_map_eq m.notes _ ?_ hd⟩
    simp only [release]
    exact releaseLoop_map_noteId _ _ _
  | modNotes noteMod atBlockTime =>
    obtain ⟨m1, h1, -⟩ := call_inv stdPow P hP m (.modNotes noteMod atBlockTime) h hc
    refine ⟨m1, h1, ?_⟩
    simp only [call, modNotes] at h1
    split at h1
    · exact absurd h1 (by simp)
    · simp only [Option.some.injEq] at h1
      rw [← h1]
      refine distinctNoteIds_of_map_eq m.notes _ ?_ hd
      simp [modNotesNote_noteId]
  | stop noteToStop => exact ⟨_, rfl, stop_distinct m noteToStop hd⟩

theorem run_distinct (stdPow : ℚ → ℚ → ℚ) (P : Nat) (hP : 1 ≤ P) (calls : List Call)
    (m : NoteManager) (h : Inv P m) (hc : ∀ c ∈ calls, c.defined = true)
    (hd : distinctNoteIds m.notes) (hfresh : freshNoteIds stdPow m calls = true) :
    ∃ m1, run stdPow m calls = some m1 ∧ distinctNoteIds m1.notes := by
  induction calls generalizing m with
  | nil => exact ⟨m, rfl, hd⟩
  | cons c rest ih =>
    simp only [freshNoteIds, Bool.and_eq_true] at hfresh
    obtain ⟨hf1, hf2⟩ := hfresh
    obtain ⟨m1, h1, hinv⟩ := call_inv stdPow P hP m c h (hc c (List.mem_cons_self _ _))
    obtain ⟨m2, h2, hd2⟩ := call_distinct stdPow P hP m c h (hc c (List.mem_cons_self _ _)) hd
      (by
        intro event candidate he hw
        rw [he] at hf1
        simp only [hw, Bool.or_eq_true, decide_eq_true_eq, List.all_eq_true, bne_iff_ne] at hf1
        exact hf1)
    rw [h1] at h2
    simp only [Option.some.injEq] at h2
    subst h2
    rw [h1] at hf2
    simp only [run, h1]
    exact ih m1 hinv (fun x hx => hc x (List.mem_cons_of_mem _ hx)) hd2 hf2

/-- C26 (counterexample): two note-on events with the same host note id 5, started one after
the other on a manager of polyphony 2, leave two active voices that both carry note id 5. -/
theorem C26_shared_note_id_reachable :
    (run samplePow (create 2 2)
        [.start (sampleNoteOn 0 5 0 60), .start (sampleNoteOn 0 5 0 61)]).map
      (fun m => m.notes.map (fun n => (n.noteId, n.baseKey))) = some [(5, 60), (5, 61)] := by
  decide!

/-- C26 (amended): for every polyphony `P ≥ 1` and every sequence of defined calls on a
freshly constructed manager in which each candidate handed to `start` or `legato` carries
an assigned (negative) note id or a note id that no active voice carries at that moment,
every call is defined and no two active voices of the manager reached share a non-negative
note id. -/
theorem C26_fresh_note_ids_stay_distinct (stdPow : ℚ → ℚ → ℚ) (P : Nat) (pitchWheelRange : ℚ)
    (hP : 1 ≤ P) (calls : List Call) (hdef : ∀ c ∈ calls, c.defined = true)
    (hfresh : freshNoteIds stdPow (create P pitchWheelRange) calls = true) :
    ∃ m, run stdPow (create P pitchWheelRange) calls = some m ∧ distinctNoteIds m.notes :=
  run_distinct stdPow P hP calls _ (create_inv P pitchWheelRange) hdef List.Pairwise.nil hfresh

theorem C26_fresh_note_ids_stay_distinct_witness :
    (freshNoteIds samplePow (create 2 2)
        [.start (sampleNoteOn 0 5 0 60), .start (sampleNoteOn 3 6 0 61), .processTo 16,
          .start (sampleNoteOn 20 7 0 62)] = true) ∧
      ∃ m, run samplePow (create 2 2)
          [.start (sampleNoteOn 0 5 0 60), .start (sampleNoteOn 3 6 0 61), .processTo 16,
            .start (sampleNoteOn 20 7 0 62)] = some m ∧ distinctNoteIds m.notes :=
  ⟨by decide!,
    C26_fresh_note_ids_stay_distinct samplePow 2 2 (by decide)
      [.start (sampleNoteOn 0 5 0 60), .start (sampleNoteOn 3 6 0 61), .processTo 16,
        .start (sampleNoteOn 20 7 0 62)] (by decide) (by decide!)⟩

/-! ## Construction and reset -/

theorem resetQueue_eq_reverse (P : Nat) : resetQueue P = (List.range P).reverse := by
  apply List.ext_getElem
  · simp [resetQueue]
  · intro i h1 h2
    simp only [resetQueue, List.length_map, List.length_range] at h1
    simp only [resetQueue, List.getElem_map, List.getElem_range, List.getElem_reverse,
      List.length_range]

theorem resetQueue_perm (P : Nat) : (resetQueue P).Perm (List.range P) := by
  rw [resetQueue_eq_reverse]
  exact List.reverse_perm _

/-- The candidate seeded from a channel table that holds the default row in every channel
keeps the default expression values and its key. -/
theorem applyChannelNoteExpressions_default (m : NoteManager) (n : Note)
    (hcache : ∀ c, m.channelNoteExpressions c = defaultNoteExpressions)
    (hn : n.volume = 1 ∧ n.pan = 1 / 2 ∧ n.mod = 0 ∧ n.expression = 1 ∧ n.brightness = 1 / 2 ∧
      n.pressure = 1) :
    (m.applyChannelNoteExpressions n).volume = 1 ∧ (m.applyChannelNoteExpressions n).pan = 1 / 2 ∧
      (m.applyChannelNoteExpressions n).mod = 0 ∧
      (m.applyChannelNoteExpressions n).expression = 1 ∧
      (m.applyChannelNoteExpressions n).brightness = 1 / 2 ∧
      (m.applyChannelNoteExpressions n).pressure = 1 ∧
      (m.applyChannelNoteExpressions n).key = n.key := by
  by_cases hr : n.channel < 0 ∨ n.channel ≥ 16
  · rw [applyChannelNoteExpressions, if_pos hr]
    exact ⟨hn.1, hn.2.1, hn.2.2.1, hn.2.2.2.1, hn.2.2.2.2.1, hn.2.2.2.2.2, rfl⟩
  · have hr2 : 0 ≤ n.channel ∧ n.channel < 16 := by omega
    simp only [applyChannelNoteExpressions, hr, if_false, channelNoteExpression, hr2, and_self,
      dif_pos, hcache]
    refine ⟨rfl, rfl, rfl, rfl, rfl, rfl, ?_⟩
    simp [defaultNoteExpressions]

theorem wouldStart_default (stdPow : ℚ → ℚ → ℚ) (m : NoteManager) (event : ClapEvent)
    (candidate : Note) (hcache : ∀ c, m.channelNoteExpressions c = defaultNoteExpressions)
    (h : (wouldStart stdPow m event).1 = some candidate) :
    ∃ noteEvent, translateEvent stdPow m event = .note noteEvent ∧
      candidate.volume = 1 ∧ candidate.pan = 1 / 2 ∧ candidate.mod = 0 ∧
      candidate.expression = 1 ∧ candidate.brightness = 1 / 2 ∧ candidate.pressure = 1 ∧
      candidate.key = (noteEvent.key : ℚ) := by
  obtain ⟨hs, noteEvent, ht, hon⟩ := wouldStart_some stdPow m event candidate h
  refine ⟨noteEvent, ht, ?_⟩
  rw [wouldStart_core_note stdPow m event noteEvent hs ht, if_pos hon] at h
  by_cases hneg : noteEvent.note_id < 0
  · rw [if_pos hneg] at h
    simp only [Option.some.injEq] at h
    rw [← h]
    exact applyChannelNoteExpressions_default m _ hcache ⟨rfl, rfl, rfl, rfl, rfl, rfl⟩
  · rw [if_neg hneg] at h
    simp only [Option.some.injEq] at h
    rw [← h]
    exact applyChannelNoteExpressions_default m _ hcache ⟨rfl, rfl, rfl, rfl, rfl, rfl⟩

/-- C31: for every polyphony `P ≥ 1` and every sequence of defined calls on a freshly
constructed manager, the manager `m0` that is either the freshly constructed one or the one
`reset` makes of the state reached has no active voice, a free-list that holds each of
`0 .. P-1` exactly once, and in each of the 16 channels the cached values volume 1, pan 1/2,
tuning 0, modulation 0, expression 1, brightness 1/2, pressure 1; every candidate `wouldStart`
makes from `m0` comes from a note event, has those values in its expression fields, and has
the key of the event. -/
theorem C31_construction_and_reset_state (stdPow : ℚ → ℚ → ℚ) (P : Nat) (pitchWheelRange : ℚ)
    (hP : 1 ≤ P) (calls : List Call) (hdef : ∀ c ∈ calls, c.defined = true) :
    ∃ m, run stdPow (create P pitchWheelRange) calls = some m ∧
      ∀ m0, m0 = create P pitchWheelRange ∨ m0 = m.reset →
        m0.notes = [] ∧ m0.voiceIndexQueue.Perm (List.range P) ∧
        (∀ c : Fin 16,
          m0.channelNoteExpressions c 0 = 1 ∧ m0.channelNoteExpressions c 1 = 1 / 2 ∧
          m0.channelNoteExpressions c 2 = 0 ∧ m0.channelNoteExpressions c 3 = 0 ∧
          m0.channelNoteExpressions c 4 = 1 ∧ m0.channelNoteExpressions c 5 = 1 / 2 ∧
          m0.channelNoteExpressions c 6 = 1) ∧
        ∀ event candidate, (wouldStart stdPow m0 event).1 = some candidate →
          ∃ noteEvent, translateEvent stdPow m0 event = .note noteEvent ∧
            candidate.volume = 1 ∧ candidate.pan = 1 / 2 ∧ candidate.mod = 0 ∧
            candidate.expression = 1 ∧ candidate.brightness = 1 / 2 ∧ candidate.pressure = 1 ∧
            candidate.key = (noteEvent.key : ℚ) := by
  obtain ⟨m, hm, hinv⟩ := run_inv stdPow P hP calls _ (create_inv P pitchWheelRange) hdef
  refine ⟨m, hm, ?_⟩
  have key : ∀ m1 : NoteManager, m1.capacity = P →
      m1.reset.notes = [] ∧ m1.reset.voiceIndexQueue.Perm (List.range P) ∧
      (∀ c : Fin 16,
        m1.reset.channelNoteExpressions c 0 = 1 ∧ m1.reset.channelNoteExpressions c 1 = 1 / 2 ∧
        m1.reset.channelNoteExpressions c 2 = 0 ∧ m1.reset.channelNoteExpressions c 3 = 0 ∧
        m1.reset.channelNoteExpressions c 4 = 1 ∧ m1.reset.channelNoteExpressions c 5 = 1 / 2 ∧
        m1.reset.channelNoteExpressions c 6 = 1) ∧
      ∀ event candidate, (wouldStart stdPow m1.reset event).1 = some candidate →
        ∃ noteEvent, translateEvent stdPow m1.reset event = .note noteEvent ∧
          candidate.volume = 1 ∧ candidate.pan = 1 / 2 ∧ candidate.mod = 0 ∧
          candidate.expression = 1 ∧ candidate.brightness = 1 / 2 ∧ candidate.pressure = 1 ∧
          candidate.key = (noteEvent.key : ℚ) := by
    intro m1 hcap
    refine ⟨rfl, ?_, ?_, ?_⟩
    · have : m1.reset.voiceIndexQueue = resetQueue P := by
        simp only [reset, polyphony, hcap]
      rw [this]
      exact resetQueue_perm P
    · intro c
      exact ⟨rfl, rfl, rfl, rfl, rfl, rfl, rfl⟩
    · intro event candidate h
      exact wouldStart_default stdPow m1.reset event candidate (fun _ => rfl) h
  rintro m0 (rfl | rfl)
  · exact key _ rfl
  · exact key m hinv.cap

/-- C31 on polyphony 3: two notes are started and a channel-wide volume request is made;
`reset` then leaves no voice, the free-list 2, 1, 0 and the default rows. -/
theorem C31_construction_and_reset_state_witness :
    (∃ m, run samplePow (create 3 2)
        [.start (sampleNoteOn 0 5 0 60), .start (sampleNoteOn 3 6 1 61),
          .modNotes (sampleChannelMod 4 1 0 (1 / 4)) 4] = some m ∧
      ∀ m0, m0 = create 3 2 ∨ m0 = m.reset →
        m0.notes = [] ∧ m0.voiceIndexQueue.Perm (List.range 3) ∧
        (∀ c : Fin 16,
          m0.channelNoteExpressions c 0 = 1 ∧ m0.channelNoteExpressions c 1 = 1 / 2 ∧
          m0.channelNoteExpressions c 2 = 0 ∧ m0.channelNoteExpressions c 3 = 0 ∧
          m0.channelNoteExpressions c 4 = 1 ∧ m0.channelNoteExpressions c 5 = 1 / 2 ∧
          m0.channelNoteExpressions c 6 = 1) ∧
        ∀ event candidate, (wouldStart samplePow m0 event).1 = some candidate →
          ∃ noteEvent, translateEvent samplePow m0 event = .note noteEvent ∧
            candidate.volume = 1 ∧ candidate.pan = 1 / 2 ∧ candidate.mod = 0 ∧
            candidate.expression = 1 ∧ candidate.brightness = 1 / 2 ∧ candidate.pressure = 1 ∧
            candidate.key = (noteEvent.key : ℚ)) ∧
    (run samplePow (create 3 2)
        [.start (sampleNoteOn 0 5 0 60), .start (sampleNoteOn 3 6 1 61),
          .modNotes (sampleChannelMod 4 1 0 (1 / 4)) 4]).map
      (fun m => (m.notes.length, m.voiceIndexQueue, m.channelNoteExpressions 1 0,
        m.reset.notes.length, m.reset.voiceIndexQueue, m.reset.channelNoteExpressions 1 0))
      = some (2, [2], 1 / 4, 0, [2, 1, 0], 1) :=
  ⟨C31_construction_and_reset_state samplePow 3 2 (by decide)
      [.start (sampleNoteOn 0 5 0 60), .start (sampleNoteOn 3 6 1 61),
        .modNotes (sampleChannelMod 4 1 0 (1 / 4)) 4] (by decide),
    by decide!⟩

/-! ## The start of a block -/

/-- C32: `startBlock` leaves an empty task list, sets `processFrom` and `processTo` of every
voice to 0 and changes no other field of any voice (state, age, voice index, note id, key,
velocity, port, channel, base key and the expression fields), keeping the voices in their
order and number; the free-list, the expression cache, the capacity, the id counter and the
pitch wheel range are unchanged. -/
theorem C32_startBlock_frame (m : NoteManager) :
    m.startBlock.tasks = [] ∧
      m.startBlock.notes = m.notes.map (fun n => { n with processFrom := 0, processTo := 0 }) ∧
      m.startBlock.notes.length = m.notes.length ∧
      List.Forall₂
        (fun n n1 =>
          n1.processFrom = 0 ∧ n1.processTo = 0 ∧ n1.state = n.state ∧ n1.age = n.age ∧
          n1.voiceIndex = n.voiceIndex ∧ n1.noteId = n.noteId ∧ n1.key = n.key ∧
          n1.volume = n.volume ∧ n1.pan = n.pan ∧ n1.mod = n.mod ∧
          n1.expression = n.expression ∧ n1.brightness = n.brightness ∧
          n1.pressure = n.pressure ∧ n1.velocity = n.velocity ∧ n1.port = n.port ∧
          n1.channel = n.channel ∧ n1.baseKey = n.baseKey)
        m.notes m.startBlock.notes ∧
      m.startBlock.voiceIndexQueue = m.voiceIndexQueue ∧
      m.startBlock.channelNoteExpressions = m.channelNoteExpressions ∧
      m.startBlock.capacity = m.capacity ∧ m.startBlock.internalNoteId = m.internalNoteId ∧
      m.startBlock.pitchWheelRange = m.pitchWheelRange := by
  refine ⟨rfl, rfl, by simp [startBlock], ?_, rfl, rfl, rfl, rfl, rfl⟩
  simp [startBlock, List.forall₂_map_right_iff, List.forall₂_same]

/-! ## The effect of a release on the voices -/

theorem addTask_skip (n : Note) (t : Nat) (b : Bool)
    (h : t ≤ n.processFrom ∧ (b = true ∨ n.state = .stateContinue ∨ n.state = .stateRelease)) :
    addTask n t b = (n, []) := by
  unfold addTask
  rw [if_pos h]

theorem addTask_emit (n : Note) (t : Nat) (b : Bool)
    (h : ¬ (t ≤ n.processFrom ∧ (b = true ∨ n.state = .stateContinue ∨ n.state = .stateRelease))) :
    addTask n t b =
      ({ n with processTo := t, age := n.age + sub32 t n.processFrom, processFrom := t },
        [{ n with processTo := t }]) := by
  unfold addTask
  rw [if_neg h]

/-- What the body of the loop of `release` makes of a note. -/
theorem releaseNote_effect (request : Note) (t : Nat) (n : Note) :
    (releaseNote request t n).1.state = .stateUp ∧
      (releaseNote request t n).1.velocity = request.velocity ∧
      (releaseNote request t n).1.age = 0 ∧
      (releaseNote request t n).1.voiceIndex = n.voiceIndex ∧
      (¬ (t ≤ n.processFrom ∧ (n.state = .stateContinue ∨ n.state = .stateRelease)) →
        (releaseNote request t n).1.processFrom = t ∧ (releaseNote request t n).1.processTo = t) ∧
      (t ≤ n.processFrom ∧ (n.state = .stateContinue ∨ n.state = .stateRelease) →
        (releaseNote request t n).1.processFrom = n.processFrom ∧
          (releaseNote request t n).1.processTo = n.processTo) := by
  by_cases h : t ≤ n.processFrom ∧ (n.state = .stateContinue ∨ n.state = .stateRelease)
  · have h1 : addTask n t false = (n, []) := addTask_skip n t false ⟨h.1, Or.inr h.2⟩
    refine ⟨rfl, rfl, rfl, ?_, fun hn => absurd h hn, fun _ => ?_⟩
    · simp only [releaseNote, h1]
    · simp only [releaseNote, h1, and_self]
  · have h1 := addTask_emit n t false (by
      rintro ⟨h2, h3 | h3⟩
      · exact absurd h3 (by decide)
      · exact h ⟨h2, h3⟩)
    refine ⟨rfl, rfl, rfl, ?_, fun _ => ?_, fun hn => absurd hn h⟩
    · simp only [releaseNote, h1]
    · simp only [releaseNote, h1, and_self]

/-- The request after the loop of `release` under a wildcard note id: its voice index is that
of the last note that matches. -/
theorem releaseLoop_wildcard_request (t : Nat) (notes : List Note) (request : Note)
    (hid : request.noteId = -1) :
    (releaseLoop t notes request).2.2 =
      { request with
        voiceIndex :=
          (((notes.filter (fun n => n.matchNote request)).getLast?).map
            (fun n => n.voiceIndex)).getD request.voiceIndex } := by
  induction notes generalizing request with
  | nil => rfl
  | cons a rest ih =>
    cases hm : a.matchNote request
    · rw [releaseLoop_cons_skip _ _ _ _ hm, ih request hid]
      simp [hm]
    · rw [releaseLoop_cons_continue _ _ _ _ hm hid,
        ih { request with voiceIndex := (releaseNote request t a).1.voiceIndex } hid]
      have hf : (a :: rest).filter (fun n => n.matchNote request) =
          a :: rest.filter (fun n => n.matchNote request) := by
        simp [List.filter_cons, hm]
      have hsame : (fun n : Note =>
          n.matchNote { request with voiceIndex := (releaseNote request t a).1.voiceIndex }) =
          (fun n : Note => n.matchNote request) := rfl
      rw [hf, hsame, List.getLast?_cons]
      cases hl : (rest.filter (fun n => n.matchNote request)).getLast? with
      | none => simp [(releaseNote_effect request t a).2.2.2.1]
      | some b => simp

theorem releaseLoop_no_match (t : Nat) (notes : List Note) (request : Note)
    (h : ∀ n ∈ notes, n.matchNote request = false) :
    releaseLoop t notes request = (notes, [], request) := by
  induction notes with
  | nil => rfl
  | cons a rest ih =>
    rw [releaseLoop_cons_skip _ _ _ _ (h a (List.mem_cons_self _ _)),
      ih (fun x hx => h x (List.mem_cons_of_mem _ hx))]

/-- C33, as stated, fails: a note started at time 0 and advanced to 10 (state Continue, cursor
10) is released at time 5; it ends in state Up with the cursor and `processTo` still at 10,
not at the release time, and no task is returned. -/
theorem C33_release_behind_cursor_keeps_range :
    (run samplePow (create 1 2)
        [.start (sampleNoteOn 0 5 0 60), .processTo 10, .release (sampleRelease 5 5 0 60) 5]).map
      (fun m => (m.notes.map (fun n => (n.state, n.processFrom, n.processTo)), m.tasks.length))
      = some ([(.stateUp, 10, 10)], 0) := by
  decide

/-- C33, amended: every voice that `release` reaches and that matches ends in state Up with
the velocity of the request and age 0; its `processFrom` and `processTo` are the release
time, unless it was in state Continue or Release with its cursor at or past the release time,
in which case both are as they were.  Under a wildcard note id every voice that matches is
reached, every other voice is as it was, and the request gets the voice index of the last
voice that matches; under a note id the first voice that carries it is the only one changed
and gives the request its voice index.  A release that no voice matches returns no task and
changes neither the voices nor the request. -/
theorem C33_release_effect_on_voices (m : NoteManager) (request : Note) (t : Nat) :
    (request.noteId = -1 →
      List.Forall₂
          (fun n n1 =>
            (n.matchNote request = true →
              n1.state = .stateUp ∧ n1.velocity = request.velocity ∧ n1.age = 0 ∧
              (¬ (t ≤ n.processFrom ∧ (n.state = .stateContinue ∨ n.state = .stateRelease)) →
                n1.processFrom = t ∧ n1.processTo = t) ∧
              (t ≤ n.processFrom ∧ (n.state = .stateContinue ∨ n.state = .stateRelease) →
                n1.processFrom = n.processFrom ∧ n1.processTo = n.processTo)) ∧
            (n.matchNote request = false → n1 = n))
          m.notes (release m request t).1.notes ∧
        (release m request t).2 =
          { request with
            voiceIndex :=
              (((m.notes.filter (fun n => n.matchNote request)).getLast?).map
                (fun n => n.voiceIndex)).getD request.voiceIndex }) ∧
    (request.noteId ≠ -1 → ∀ i n, m.notes[i]? = some n → n.noteId = request.noteId →
      (∀ a ∈ m.notes.take i, a.noteId ≠ request.noteId) →
      ∃ n1, (release m request t).1.notes = m.notes.set i n1 ∧
        n1.state = .stateUp ∧ n1.velocity = request.velocity ∧ n1.age = 0 ∧
        (¬ (t ≤ n.processFrom ∧ (n.state = .stateContinue ∨ n.state = .stateRelease)) →
          n1.processFrom = t ∧ n1.processTo = t) ∧
        (t ≤ n.processFrom ∧ (n.state = .stateContinue ∨ n.state = .stateRelease) →
          n1.processFrom = n.processFrom ∧ n1.processTo = n.processTo) ∧
        (release m request t).2 = { request with voiceIndex := n.voiceIndex }) ∧
    ((∀ n ∈ m.notes, n.matchNote request = false) →
      release m request t = ({ m with tasks := [] }, request)) := by
  refine ⟨?_, ?_, ?_⟩
  · intro hid
    refine ⟨?_, ?_⟩
    · simp only [release, releaseLoop_wildcard t m.notes request hid,
        List.forall₂_map_right_iff, List.forall₂_same]
      intro n _
      constructor
      · intro hm
        rw [if_pos hm]
        obtain ⟨h1, h2, h3, -, h5, h6⟩ := releaseNote_effect request t n
        exact ⟨h1, h2, h3, h5, h6⟩
      · intro hm
        simp [hm]
    · simp only [release]
      exact releaseLoop_wildcard_request t m.notes request hid
  · intro hid i n hn hsame hfirst
    obtain ⟨h1, h2, h3, h4, h5, h6⟩ := releaseNote_effect request t n
    refine ⟨(releaseNote request t n).1, ?_, h1, h2, h3, h5, h6, ?_⟩
    · simp only [release, releaseLoop_by_id_first t m.notes request hid i n hn hsame hfirst]
    · simp only [release, releaseLoop_by_id_first t m.notes request hid i n hn hsame hfirst, h4]
  · intro h
    simp only [release, releaseLoop_no_match t m.notes request h]

/-- C33, amended, on the pool with voices on channels 1, 2, 2 and 3 and cursors at 0: a release
at time 4 on channel 2 with velocity 0 leaves the two voices on channel 2 in state Up with
velocity 0, age 0 and range [4,4), the request with voice index 2, and the others as they
were. -/
theorem C33_release_effect_on_voices_witness :
    (List.Forall₂
        (fun n n1 =>
          (n.matchNote (sampleChannelRelease 4 2) = true →
            n1.state = .stateUp ∧ n1.velocity = (sampleChannelRelease 4 2).velocity ∧
            n1.age = 0 ∧
            (¬ (4 ≤ n.processFrom ∧ (n.state = .stateContinue ∨ n.state = .stateRelease)) →
              n1.processFrom = 4 ∧ n1.processTo = 4) ∧
            (4 ≤ n.processFrom ∧ (n.state = .stateContinue ∨ n.state = .stateRelease) →
              n1.processFrom = n.processFrom ∧ n1.processTo = n.processTo)) ∧
          (n.matchNote (sampleChannelRelease 4 2) = false → n1 = n))
        sampleChannelPool.notes (release sampleChannelPool (sampleChannelRelease 4 2) 4).1.notes ∧
      (release sampleChannelPool (sampleChannelRelease 4 2) 4).2 =
        { sampleChannelRelease 4 2 with
          voiceIndex :=
            (((sampleChannelPool.notes.filter
                (fun n => n.matchNote (sampleChannelRelease 4 2))).getLast?).map
              (fun n => n.voiceIndex)).getD (sampleChannelRelease 4 2).voiceIndex }) ∧
    ((release sampleChannelPool (sampleChannelRelease 4 2) 4).1.notes.map
        (fun n => (n.state, n.velocity, n.age, n.processFrom, n.processTo)),
      (release sampleChannelPool (sampleChannelRelease 4 2) 4).2.voiceIndex)
      = ([(.stateDown, 1, 0, 0, 0), (.stateUp, 0, 0, 4, 4), (.stateUp, 0, 0, 4, 4),
          (.stateContinue, 1, 10, 0, 0)], 2) :=
  ⟨(C33_release_effect_on_voices sampleChannelPool (sampleChannelRelease 4 2) 4).1 rfl,
    by decide!⟩

/-! ## Zero-length tasks -/

theorem flatten_map_ite_singleton (p : Note → Bool) (f : Note → Note) (notes : List Note) :
    (notes.map (fun n => if p n = true then [f n] else [])).flatten = (notes.filter p).map f := by
  induction notes with
  | nil => rfl
  | cons a rest ih =>
    cases hp : p a <;> simp [List.filter_cons, hp, ih]

/-- The tasks `addTask` pushes: one spanning from the cursor to the time given, unless the
cursor is at or past that time and either no state change is signalled or the state is
Continue or Release. -/
theorem addTask_tasks_eq (n : Note) (t : Nat) (b : Bool) :
    (addTask n t b).2 =
      if (decide (n.processFrom < t) ||
          (!b && (n.state != .stateContinue && n.state != .stateRelease))) = true then
        [{ n with processTo := t }]
      else [] := by
  by_cases h : t ≤ n.processFrom ∧ (b = true ∨ n.state = .stateContinue ∨ n.state = .stateRelease)
  · rw [addTask_skip n t b h, if_neg]
    obtain ⟨h1, h2⟩ := h
    have : ¬ n.processFrom < t := by omega
    rcases h2 with h2 | h2 | h2 <;> simp [this, h2]
  · rw [addTask_emit n t b h, if_pos]
    by_cases h1 : n.processFrom < t
    · simp [h1]
    · have h2 : t ≤ n.processFrom := by omega
      have h3 : ¬ (b = true ∨ n.state = .stateContinue ∨ n.state = .stateRelease) :=
        fun h4 => h ⟨h2, h4⟩
      simp only [not_or] at h3
      simp [h3.1, h3.2.1, h3.2.2]

/-- C34: `release` returns one task, spanning from the cursor to the release time, for each
voice it reaches that matches and either has its cursor before the release time or is in a
state other than Continue and Release, and none for any other voice (all matching voices are
reached under a wildcard note id, the first voice carrying the id under a note id); a defined
`modNotes` returns one such task for each voice that matches and has its cursor before the
time given, and none for any other voice. -/
theorem C34_zero_length_task_rule (m : NoteManager) (request : Note) (noteMod : NoteMod)
    (t : Nat) :
    (request.noteId = -1 →
      (release m request t).1.tasks =
        (m.notes.filter
            (fun n => n.matchNote request &&
              (decide (n.processFrom < t) ||
                (n.state != .stateContinue && n.state != .stateRelease)))).map
          (fun n => { n with processTo := t })) ∧
    (request.noteId ≠ -1 → ∀ i n, m.notes[i]? = some n → n.noteId = request.noteId →
      (∀ a ∈ m.notes.take i, a.noteId ≠ request.noteId) →
      (release m request t).1.tasks =
        if n.processFrom < t ∨ (n.state ≠ .stateContinue ∧ n.state ≠ .stateRelease) then
          [{ n with processTo := t }]
        else []) ∧
    ((Call.modNotes noteMod t).defined = true →
      ∃ m1, modNotes m noteMod t = some m1 ∧
        m1.tasks =
          (m.notes.filter (fun n => n.matchNoteMod noteMod && decide (n.processFrom < t))).map
            (fun n => { n with processTo := t })) := by
  refine ⟨?_, ?_, ?_⟩
  · intro hid
    simp only [release, releaseLoop_wildcard_tasks t m.notes request hid]
    rw [← flatten_map_ite_singleton]
    congr 1
    apply List.map_congr_left
    intro n _
    cases hm : n.matchNote request
    · simp
    · simp only [releaseNote, addTask_tasks_eq, if_true, Bool.true_and, Bool.not_false]
  · intro hid i n hn hsame hfirst
    simp only [release, releaseLoop_by_id_first t m.notes request hid i n hn hsame hfirst,
      releaseNote, addTask_tasks_eq]
    by_cases h1 : n.processFrom < t
    · simp [h1]
    · by_cases h2 : n.state = .stateContinue
      · simp [h1, h2]
      · by_cases h3 : n.state = .stateRelease
        · simp [h1, h3]
        · simp [h1, h2, h3]
  · intro hdef
    obtain ⟨table, hm⟩ := modNotes_defined m noteMod t hdef
    refine ⟨_, hm, ?_⟩
    simp only
    rw [← flatten_map_ite_singleton]
    congr 1
    apply List.map_congr_left
    intro n _
    cases hmatch : n.matchNoteMod noteMod
    · rw [modNotesNote_skip noteMod t n hmatch]
      simp
    · rw [modNotesNote_match noteMod t n hmatch]
      simp only [addTask_tasks_eq, Bool.true_and, Bool.not_true, Bool.false_and, Bool.or_false]

/-- C34 on the pool with voices on channels 1, 2, 2 and 3 and cursors at 0, where the voices
on channel 2 are in state Continue (voice index 1) and Down (voice index 2): a release on
channel 2 at time 0 returns a zero-length task for the voice in Down only and a channel-wide
`modNotes` at time 0 returns none; at time 4 each returns one task [0,4) for both voices. -/
theorem C34_zero_length_task_rule_witness :
    ((release sampleChannelPool (sampleChannelRelease 0 2) 0).1.tasks =
        (sampleChannelPool.notes.filter
            (fun n => n.matchNote (sampleChannelRelease 0 2) &&
              (decide (n.processFrom < 0) ||
                (n.state != .stateContinue && n.state != .stateRelease)))).map
          (fun n => { n with processTo := 0 })) ∧
    (release sampleChannelPool (sampleChannelRelease 0 2) 0).1.tasks.map
        (fun task => (task.voiceIndex, task.processFrom, task.processTo))
      = [(2, 0, 0)] ∧
    (modNotes sampleChannelPool (sampleChannelMod 0 2 2 0) 0).map
        (fun m1 => m1.tasks.map (fun task => (task.voiceIndex, task.processFrom, task.processTo)))
      = some [] ∧
    (release sampleChannelPool (sampleChannelRelease 4 2) 4).1.tasks.map
        (fun task => (task.voiceIndex, task.processFrom, task.processTo))
      = [(1, 0, 4), (2, 0, 4)] ∧
    (modNotes sampleChannelPool (sampleChannelMod 4 2 2 0) 4).map
        (fun m1 => m1.tasks.map (fun task => (task.voiceIndex, task.processFrom, task.processTo)))
      = some [(1, 0, 4), (2, 0, 4)] :=
  ⟨(C34_zero_length_task_rule sampleChannelPool (sampleChannelRelease 0 2)
      (sampleChannelMod 0 2 2 0) 0).1 rfl,
    by decide!, by decide!, by decide!, by decide!⟩

/-! ## Voice indices without legato -/

theorem processToNote_voiceIndex (frames : Nat) (n : Note) :
    (processToNote frames n).1.voiceIndex = n.voiceIndex := by
  by_cases h : n.processFrom < frames
  · rw [processToNote_behind frames n h]
  · rw [processToNote_caught_up frames n h]

theorem modNotesNote_voiceIndex (noteMod : NoteMod) (t : Nat) (n : Note) :
    (modNotesNote noteMod t n).1.voiceIndex = n.voiceIndex := by
  obtain ⟨pf, pt, age, key, h, -, -⟩ := modNotesNote_fields noteMod t n
  rw [h]

theorem releaseLoop_map_voiceIndex (t : Nat) (notes : List Note) (request : Note) :
    (releaseLoop t notes request).1.map (fun n => n.voiceIndex) =
      notes.map (fun n => n.voiceIndex) := by
  induction notes generalizing request with
  | nil => rfl
  | cons a rest ih =>
    cases hm : a.matchNote request
    · rw [releaseLoop_cons_skip _ _ _ _ hm]
      simp [ih]
    · by_cases hid : request.noteId = -1
      · rw [releaseLoop_cons_continue _ _ _ _ hm hid]
        simp [ih, (releaseNote_effect request t a).2.2.2.1]
      · rw [releaseLoop_cons_break _ _ _ _ hm hid]
        simp [(releaseNote_effect request t a).2.2.2.1]

theorem set_map_voiceIndex (l : List Note) (k : Nat) (hk : k < l.length) (x : Note)
    (hx : x.voiceIndex = l[k].voiceIndex) :
    (l.set k x).map (fun n => n.voiceIndex) = l.map (fun n => n.voiceIndex) := by
  induction l generalizing k with
  | nil => simp at hk
  | cons a rest ih =>
    cases k with
    | zero => simp at hx; simp [hx]
    | succ k =>
      simp only [List.set_cons_succ, List.map_cons, List.cons.injEq, true_and]
      exact ih k (by simpa using hk) (by simpa using hx)

theorem perm_cons_eraseIdx (l : List Note) (j : Nat) (n : Note) (hj : l[j]? = some n) :
    (n :: l.eraseIdx j).Perm l := by
  induction l generalizing j with
  | nil => simp at hj
  | cons a rest ih =>
    cases j with
    | zero =>
      simp only [List.getElem?_cons_zero, Option.some.injEq] at hj
      subst hj
      simp
    | succ j =>
      rw [List.getElem?_cons_succ] at hj
      simp only [List.eraseIdx_cons_succ]
      exact (List.Perm.swap a n _).trans (List.Perm.cons a (ih j hj))

/-- The voice indices after the removal done by `stop`, together with the index of the note
removed, are those before it. -/
theorem removeNote_voiceIndex_perm (notes : List Note) (j : Nat) (n : Note)
    (hj : notes[j]? = some n) :
    (n.voiceIndex :: (removeNote notes j).map (fun a => a.voiceIndex)).Perm
      (notes.map (fun a => a.voiceIndex)) := by
  have hlen : j < notes.length := (List.getElem?_eq_some_iff.mp hj).1
  have h1 := (removeNote_perm notes j hlen).map (fun a => a.voiceIndex)
  have h2 := (perm_cons_eraseIdx notes j n hj).map (fun a => a.voiceIndex)
  exact (List.Perm.cons _ h1).trans h2

theorem stop_voiceIndex_perm (m : NoteManager) (x : Note) (l : List Nat)
    (h : (m.voiceIndexQueue ++ m.notes.map (fun n => n.voiceIndex)).Perm l) :
    ((stop m x).1.voiceIndexQueue ++ (stop m x).1.notes.map (fun n => n.voiceIndex)).Perm l := by
  cases hf : findMatch x m.notes 0 with
  | none => rw [stop_none m x hf]; exact h
  | some r =>
    obtain ⟨j, n⟩ := r
    rw [stop_some m x j n hf]
    obtain ⟨-, hj, -, -⟩ := findMatch_spec _ _ 0 j n hf
    have hp := removeNote_voiceIndex_perm m.notes j n (by simpa using hj)
    refine List.Perm.trans ?_ h
    simp only [List.append_assoc, List.singleton_append]
    exact List.Perm.append_left _ hp

theorem start_voiceIndex_perm (P : Nat) (m : NoteManager) (newNote : Note) (h : Inv P m)
    (hP : 1 ≤ P) (l : List Nat)
    (hl : (m.voiceIndexQueue ++ m.notes.map (fun n => n.voiceIndex)).Perm l) :
    ∃ r, start m newNote = some r ∧
      (r.1.voiceIndexQueue ++ r.1.notes.map (fun n => n.voiceIndex)).Perm l := by
  by_cases hfull : m.notes.length ≥ m.capacity
  · obtain ⟨victim, j, removed, hv, hf, hs⟩ := start_at_capacity P m newNote h hP hfull
    refine ⟨_, hs, List.Perm.trans ?_ hl⟩
    obtain ⟨hk, hvk⟩ := List.getElem?_eq_some_iff.mp hv
    obtain ⟨-, hj, -, -⟩ := findMatch_spec _ _ 0 j removed hf
    have hp := removeNote_voiceIndex_perm _ j removed (by simpa using hj)
    rw [set_map_voiceIndex m.notes _ hk _ (by rw [hvk]; rfl)] at hp
    simp only [List.map_append, List.map_cons, List.map_nil]
    refine List.Perm.append_left _ ?_
    exact (List.perm_append_singleton _ _).trans hp
  · obtain ⟨v, hv, hs⟩ := start_with_room P m newNote h hfull
    refine ⟨_, hs, List.Perm.trans ?_ hl⟩
    have hq : m.voiceIndexQueue = m.voiceIndexQueue.dropLast ++ [v] := by
      have hne : m.voiceIndexQueue ≠ [] := by
        intro h0; rw [h0] at hv; simp at hv
      rw [List.getLast?_eq_getLast _ hne] at hv
      simp only [Option.some.injEq] at hv
      rw [← hv]
      exact (List.dropLast_append_getLast hne).symm
    simp only [List.map_append, List.map_cons, List.map_nil]
    conv_rhs => rw [hq]
    rw [List.append_assoc]
    refine List.Perm.append_left _ ?_
    exact List.perm_append_comm

theorem wouldStart_voiceIndexQueue (stdPow : ℚ → ℚ → ℚ) (m : NoteManager) (event : ClapEvent) :
    (wouldStart stdPow m event).2.voiceIndexQueue = m.voiceIndexQueue := by
  rcases wouldStart_cases stdPow m event with h | ⟨ne, cand, -, -, -, -, h | h⟩
  · rw [h.2]
  · rw [h.2.2]
  · rw [h.2.2]

theorem call_voiceIndex_perm (stdPow : ℚ → ℚ → ℚ) (P : Nat) (hP : 1 ≤ P) (m : NoteManager)
    (c : Call) (h : Inv P m) (hc : c.defined = true) (hleg : c.isLegato = false)
    (hl : (m.voiceIndexQueue ++ m.notes.map (fun n => n.voiceIndex)).Perm (List.range P)) :
    ∃ m1, call stdPow m c = some m1 ∧
      (m1.voiceIndexQueue ++ m1.notes.map (fun n => n.voiceIndex)).Perm (List.range P) := by
  cases c with
  | reset =>
    refine ⟨_, rfl, ?_⟩
    simp only [reset, polyphony, h.cap, List.map_nil, List.append_nil]
    exact resetQueue_perm P
  | startBlock =>
    refine ⟨_, rfl, ?_⟩
    simpa [startBlock, Function.comp_def] using hl
  | processTo frames =>
    refine ⟨_, rfl, ?_⟩
    simpa [processTo, Function.comp_def, processToNote_voiceIndex] using hl
  | start event =>
    have hn := wouldStart_notes stdPow m event
    have hq := wouldStart_voiceIndexQueue stdPow m event
    have hw := (wouldStart_spec stdPow P m event h).1
    simp only [call]
    rcases hws : wouldStart stdPow m event with ⟨_ | cand, m1⟩
    · rw [hws] at hn hq
      simp only at hn hq
      exact ⟨_, rfl, by rw [hn, hq]; exact hl⟩
    · rw [hws] at hn hq hw
      simp only at hn hq hw
      obtain ⟨r, hr, hp⟩ := start_voiceIndex_perm P m1 cand hw hP (List.range P)
        (by rw [hn, hq]; exact hl)
      simp only [hr, Option.map_some']
      exact ⟨_, rfl, hp⟩
  | legato event existingNote => exact absurd hleg (by simp [Call.isLegato])
  | release request atBlockTime =>
    refine ⟨_, rfl, ?_⟩
    simp only [release, releaseLoop_map_voiceIndex]
    exact hl
  | modNotes noteMod atBlockTime =>
    obtain ⟨table, hm⟩ := modNotes_defined m noteMod atBlockTime hc
    refine ⟨_, hm, ?_⟩
    simpa [Function.comp_def, modNotesNote_voiceIndex] using hl
  | stop noteToStop => exact ⟨_, rfl, stop_voiceIndex_perm m noteToStop _ hl⟩

theorem run_voiceIndex_perm (stdPow : ℚ → ℚ → ℚ) (P : Nat) (hP : 1 ≤ P) (calls : List Call)
    (m : NoteManager) (h : Inv P m)
    (hc : ∀ c ∈ calls, c.defined = true ∧ c.isLegato = false)
    (hl : (m.voiceIndexQueue ++ m.notes.map (fun n => n.voiceIndex)).Perm (List.range P)) :
    ∃ m1, run stdPow m calls = some m1 ∧
      (m1.voiceIndexQueue ++ m1.notes.map (fun n => n.voiceIndex)).Perm (List.range P) := by
  induction calls generalizing m with
  | nil => exact ⟨m, rfl, hl⟩
  | cons c rest ih =>
    have hc1 := hc c (List.mem_cons_self _ _)
    obtain ⟨m1, h1, hinv⟩ := call_inv stdPow P hP m c h hc1.1
    obtain ⟨m2, h2, hp⟩ := call_voiceIndex_perm stdPow P hP m c h hc1.1 hc1.2 hl
    rw [h1] at h2
    simp only [Option.some.injEq] at h2
    subst h2
    simp only [run, h1]
    exact ih m1 hinv (fun x hx => hc x (List.mem_cons_of_mem _ hx)) hp

/-- C35: for every polyphony `P ≥ 1` and every sequence of defined `reset`, `startBlock`,
`processTo`, `start`, `release`, `modNotes` and `stop` calls (no `legato`) on a freshly
constructed manager, `start` being handed the candidates of `wouldStart`, every call is
defined (so `start` never finds the free-list empty) and the free-list followed by the voice
indices of the active voices is a rearrangement of `0, 1, .., P-1`: each index occurs exactly
once, so no index is both free and in use and no two voices share one. -/
theorem C35_voice_indices_partition (stdPow : ℚ → ℚ → ℚ) (P : Nat) (pitchWheelRange : ℚ)
    (hP : 1 ≤ P) (calls : List Call)
    (hcalls : ∀ c ∈ calls, c.defined = true ∧ c.isLegato = false) :
    ∃ m, run stdPow (create P pitchWheelRange) calls = some m ∧
      (m.voiceIndexQueue ++ m.notes.map (fun n => n.voiceIndex)).Perm (List.range P) ∧
      (m.voiceIndexQueue ++ m.notes.map (fun n => n.voiceIndex)).Nodup ∧
      (∀ i ∈ m.voiceIndexQueue, ∀ n ∈ m.notes, n.voiceIndex ≠ i) ∧
      ∀ n ∈ m.notes, n.voiceIndex < P := by
  obtain ⟨m, hm, hp⟩ := run_voiceIndex_perm stdPow P hP calls _ (create_inv P pitchWheelRange)
    hcalls (by
      simp only [create, reset, polyphony, List.map_nil, List.append_nil]
      exact resetQueue_perm P)
  have hnd : (m.voiceIndexQueue ++ m.notes.map (fun n => n.voiceIndex)).Nodup :=
    (List.Perm.nodup_iff hp).mpr (List.nodup_range P)
  refine ⟨m, hm, hp, hnd, ?_, ?_⟩
  · intro i hi n hn heq
    have hdis := (List.nodup_append.mp hnd).2.2
    exact hdis hi (List.mem_map.mpr ⟨n, hn, heq⟩)
  · intro n hn
    have hmem : n.voiceIndex ∈ m.voiceIndexQueue ++ m.notes.map (fun a => a.voiceIndex) :=
      List.mem_append_right _ (List.mem_map.mpr ⟨n, hn, rfl⟩)
    exact List.mem_range.mp ((List.Perm.mem_iff hp).mp hmem)

/-- C35 on polyphony 2: three notes are started (the third steals a voice), one is released
and stopped; the free-list is then 1 and the one active voice has index 0. -/
theorem C35_voice_indices_partition_witness :
    (∃ m, run samplePow (create 2 2)
        [.start (sampleNoteOn 0 5 0 60), .start (sampleNoteOn 3 6 0 61), .processTo 16,
          .start (sampleNoteOn 20 7 0 62), .release (sampleRelease 24 6 0 61) 24,
          .stop (sampleRelease 24 6 0 61)] = some m ∧
      (m.voiceIndexQueue ++ m.notes.map (fun n => n.voiceIndex)).Perm (List.range 2) ∧
      (m.voiceIndexQueue ++ m.notes.map (fun n => n.voiceIndex)).Nodup ∧
      (∀ i ∈ m.voiceIndexQueue, ∀ n ∈ m.notes, n.voiceIndex ≠ i) ∧
      ∀ n ∈ m.notes, n.voiceIndex < 2) ∧
    (run samplePow (create 2 2)
        [.start (sampleNoteOn 0 5 0 60), .start (sampleNoteOn 3 6 0 61), .processTo 16,
          .start (sampleNoteOn 20 7 0 62), .release (sampleRelease 24 6 0 61) 24,
          .stop (sampleRelease 24 6 0 61)]).map
      (fun m => (m.voiceIndexQueue, m.notes.map (fun n => (n.voiceIndex, n.noteId))))
      = some ([1], [(0, 7)]) :=
  ⟨C35_voice_indices_partition samplePow 2 2 (by decide)
      [.start (sampleNoteOn 0 5 0 60), .start (sampleNoteOn 3 6 0 61), .processTo 16,
        .start (sampleNoteOn 20 7 0 62), .release (sampleRelease 24 6 0 61) 24,
        .stop (sampleRelease 24 6 0 61)] (by decide),
    by decide!⟩

/-! ## Tasks as snapshots -/

/-- C36: every task `processTo(frames)` returns is the voice as it was before the call, with
only `processTo` set to `frames`: it carries the state and the age the voice had before.  A
voice with its cursor before `frames` has that task in the list returned, while the stored
voice has its age increased by the span and is in Continue when it was in Down or Legato and
in Release when it was in Up. -/
theorem C36_processTo_tasks_are_snapshots (m : NoteManager) (frames : Nat)
    (hframes : frames < 4294967296) :
    (∀ task ∈ (m.processTo frames).tasks,
      ∃ n ∈ m.notes, n.processFrom < frames ∧ task = { n with processTo := frames } ∧
        task.state = n.state ∧ task.age = n.age) ∧
    List.Forall₂
      (fun n n1 =>
        n.processFrom < frames →
          { n with processTo := frames } ∈ (m.processTo frames).tasks ∧
          n1.age = n.age + (frames - n.processFrom) ∧
          (n.state = .stateDown ∨ n.state = .stateLegato → n1.state = .stateContinue) ∧
          (n.state = .stateUp → n1.state = .stateRelease))
      m.notes (m.processTo frames).notes := by
  have htasks : (m.processTo frames).tasks =
      (m.notes.filter (fun n => decide (n.processFrom < frames))).map
        (fun n => { n with processTo := frames }) := processTo_tasks_eq m.notes frames
  constructor
  · intro task h
    rw [htasks] at h
    simp only [List.mem_map, List.mem_filter, decide_eq_true_eq] at h
    obtain ⟨n, ⟨hn, hlt⟩, rfl⟩ := h
    exact ⟨n, hn, hlt, rfl, rfl, rfl⟩
  · rw [htasks]
    simp only [processTo, List.forall₂_map_right_iff, List.forall₂_same]
    intro n hn hlt
    rw [processToNote_behind frames n hlt]
    refine ⟨?_, ?_, ?_, ?_⟩
    · exact List.mem_map.mpr ⟨n, List.mem_filter.mpr ⟨hn, by simpa using hlt⟩, rfl⟩
    · simp only
      rw [sub32_of_lt frames n.processFrom hlt hframes]
    · rintro (h | h) <;> simp only [h]
    · intro h
      simp only [h]

/-- C36 on a note started at time 0 and released at time 4: the task `processTo(4)` returns
for it is in state Down with age 0 while the stored voice becomes Continue with age 4, and
after the release the task `processTo(16)` returns is in state Up with age 0 while the stored
voice becomes Release with age 12. -/
theorem C36_processTo_tasks_are_snapshots_witness :
    ((∀ task ∈ ((sampleManager 1 [sampleVoice 0 5 0 60 1 .stateDown 0 0] []).processTo 4).tasks,
        ∃ n ∈ (sampleManager 1 [sampleVoice 0 5 0 60 1 .stateDown 0 0] []).notes,
          n.processFrom < 4 ∧ task = { n with processTo := 4 } ∧
            task.state = n.state ∧ task.age = n.age) ∧
      List.Forall₂
        (fun n n1 =>
          n.processFrom < 4 →
            { n with processTo := 4 } ∈
                ((sampleManager 1 [sampleVoice 0 5 0 60 1 .stateDown 0 0] []).processTo 4).tasks ∧
            n1.age = n.age + (4 - n.processFrom) ∧
            (n.state = .stateDown ∨ n.state = .stateLegato → n1.state = .stateContinue) ∧
            (n.state = .stateUp → n1.state = .stateRelease))
        (sampleManager 1 [sampleVoice 0 5 0 60 1 .stateDown 0 0] []).notes
        ((sampleManager 1 [sampleVoice 0 5 0 60 1 .stateDown 0 0] []).processTo 4).notes) ∧
    (run samplePow (create 1 2) [.start (sampleNoteOn 0 5 0 60), .processTo 4]).map
        (fun m => (m.tasks.map (fun task => (task.state, task.age)),
          m.notes.map (fun n => (n.state, n.age))))
      = some ([(.stateDown, 0)], [(.stateContinue, 4)]) ∧
    (run samplePow (create 1 2)
        [.start (sampleNoteOn 0 5 0 60), .processTo 4, .release (sampleRelease 4 5 0 60) 4,
          .processTo 16]).map
        (fun m => (m.tasks.map (fun task => (task.state, task.age)),
          m.notes.map (fun n => (n.state, n.age))))
      = some ([(.stateUp, 0)], [(.stateRelease, 12)]) :=
  ⟨C36_processTo_tasks_are_snapshots (sampleManager 1 [sampleVoice 0 5 0 60 1 .stateDown 0 0] [])
      4 (by decide),
    by decide!, by decide!⟩

/-! ## Expression changes keep the state of a voice -/

/-- C37: when a defined `modNotes` at time `t` reaches a voice that matches and has its cursor
before `t`, it returns a task for that voice from its cursor to `t` in the state the voice is
in, and the stored voice keeps that state (whichever it is, Down, Legato and Up included) with
its cursor at `t`; a `processTo(frames)` with `t < frames` that follows returns a second task
for that voice, from `t` to `frames`, in the same state. -/
theorem C37_modNotes_keeps_state (m : NoteManager) (noteMod : NoteMod) (t frames i : Nat)
    (n : Note) (hdef : (Call.modNotes noteMod t).defined = true) (hn : m.notes[i]? = some n)
    (hm : n.matchNoteMod noteMod = true) (hlt : n.processFrom < t) (hframes : t < frames) :
    ∃ m1 n1, modNotes m noteMod t = some m1 ∧ m1.notes[i]? = some n1 ∧
      n1.state = n.state ∧ n1.voiceIndex = n.voiceIndex ∧ n1.processFrom = t ∧
      (∃ task ∈ m1.tasks, task.voiceIndex = n.voiceIndex ∧ task.state = n.state ∧
        task.processFrom = n.processFrom ∧ task.processTo = t) ∧
      ∃ task ∈ (m1.processTo frames).tasks, task.voiceIndex = n.voiceIndex ∧
        task.state = n.state ∧ task.processFrom = t ∧ task.processTo = frames := by
  obtain ⟨table, hmod⟩ := modNotes_defined m noteMod t hdef
  have hemit : addTask n t true =
      ({ n with processTo := t, age := n.age + sub32 t n.processFrom, processFrom := t },
        [{ n with processTo := t }]) :=
    addTask_emit n t true (by intro h; omega)
  have hbody : (modNotesNote noteMod t n).2 = [{ n with processTo := t }] := by
    rw [modNotesNote_match noteMod t n hm, hemit]
  have hstate : (modNotesNote noteMod t n).1.state = n.state ∧
      (modNotesNote noteMod t n).1.voiceIndex = n.voiceIndex ∧
      (modNotesNote noteMod t n).1.processFrom = t := by
    rw [modNotesNote_match noteMod t n hm, hemit]
    simp only [NoteMod.applyTo]
    split_ifs <;> exact ⟨rfl, rfl, rfl⟩
  have hmem : n ∈ m.notes := List.getElem?_mem hn
  refine ⟨_, (modNotesNote noteMod t n).1, hmod, ?_, hstate.1, hstate.2.1, hstate.2.2, ?_, ?_⟩
  · simp only [List.getElem?_map, hn, Option.map_some']
  · refine ⟨{ n with processTo := t }, ?_, rfl, rfl, rfl, rfl⟩
    simp only [List.mem_flatten, List.mem_map]
    exact ⟨_, ⟨n, hmem, rfl⟩, by rw [hbody]; exact List.mem_singleton.mpr rfl⟩
  · refine ⟨{ (modNotesNote noteMod t n).1 with processTo := frames }, ?_, hstate.2.1,
      hstate.1, hstate.2.2, rfl⟩
    simp only [processTo, processTo_tasks_eq, List.mem_map, List.mem_filter, decide_eq_true_eq]
    refine ⟨(modNotesNote noteMod t n).1, ⟨⟨n, hmem, rfl⟩, ?_⟩, rfl⟩
    rw [hstate.2.2]
    exact hframes

/-- C37 on the pool with voices on channels 1, 2, 2 and 3 and cursors at 0: a channel-wide
tuning request on channel 2 at time 4 reaches the voice at position 2, which is in state Down;
its tasks are [0,4) and then, from `processTo(16)`, [4,16), both in state Down. -/
theorem C37_modNotes_keeps_state_witness :
    (∃ m1 n1, modNotes sampleChannelPool (sampleChannelMod 4 2 2 (1 / 2)) 4 = some m1 ∧
      m1.notes[2]? = some n1 ∧
      n1.state = (sampleVoice 2 7 2 62 1 .stateDown 0 0).state ∧
      n1.voiceIndex = (sampleVoice 2 7 2 62 1 .stateDown 0 0).voiceIndex ∧ n1.processFrom = 4 ∧
      (∃ task ∈ m1.tasks, task.voiceIndex = (sampleVoice 2 7 2 62 1 .stateDown 0 0).voiceIndex ∧
        task.state = (sampleVoice 2 7 2 62 1 .stateDown 0 0).state ∧
        task.processFrom = (sampleVoice 2 7 2 62 1 .stateDown 0 0).processFrom ∧
        task.processTo = 4) ∧
      ∃ task ∈ (m1.processTo 16).tasks,
        task.voiceIndex = (sampleVoice 2 7 2 62 1 .stateDown 0 0).voiceIndex ∧
        task.state = (sampleVoice 2 7 2 62 1 .stateDown 0 0).state ∧ task.processFrom = 4 ∧
        task.processTo = 16) ∧
    (modNotes sampleChannelPool (sampleChannelMod 4 2 2 (1 / 2)) 4).map
        (fun m1 => (m1.tasks.map (fun task => (task.voiceIndex, task.state, task.processTo)),
          (m1.processTo 16).tasks.map (fun task => (task.voiceIndex, task.state, task.processFrom)),
          (m1.processTo 16).notes.map (fun n => n.state)))
      = some ([(1, .stateContinue, 4), (2, .stateDown, 4)],
          [(0, .stateDown, 0), (1, .stateContinue, 4), (2, .stateDown, 4),
            (3, .stateContinue, 0)],
          [.stateContinue, .stateContinue, .stateContinue, .stateContinue]) :=
  ⟨C37_modNotes_keeps_state sampleChannelPool (sampleChannelMod 4 2 2 (1 / 2)) 4 16 2
      (sampleVoice 2 7 2 62 1 .stateDown 0 0) (by decide) rfl (by decide) (by decide) (by decide),
    by decide!⟩

/-! ## Releasing a released voice -/

/-- C38: a release request that carries a note id matches the first voice carrying that id
also when the voice is already released (state Up, Release or Kill), whereas no request with
the wildcard note id matches it: `release` puts that voice in state Up with the velocity of
the request and age 0.  So a second release is not without effect: a note started at time 0
and released at time 4 is, after `processTo(16)`, in state Release with velocity 0 and age 12,
and a second release of its note id with velocity 1/2 at time 16 leaves it in state Up with
velocity 1/2 and age 0. -/
theorem C38_release_by_id_reaches_released_voice (m : NoteManager) (request : Note) (t i : Nat)
    (n : Note) (hid : request.noteId ≠ -1) (hn : m.notes[i]? = some n)
    (hsame : n.noteId = request.noteId)
    (hfirst : ∀ a ∈ m.notes.take i, a.noteId ≠ request.noteId) (hrel : n.released = true) :
    n.matchNote request = true ∧
    (∀ wildcard : Note, wildcard.noteId = -1 → n.matchNote wildcard = false) ∧
    (∃ n1, (release m request t).1.notes = m.notes.set i n1 ∧ n1.state = .stateUp ∧
      n1.velocity = request.velocity ∧ n1.age = 0) ∧
    (run samplePow (create 1 2)
        [.start (sampleNoteOn 0 5 0 60), .release (sampleRelease 4 5 0 60) 4, .processTo 16]).map
        (fun m1 => m1.notes.map (fun v => (v.state, v.velocity, v.age)))
      = some [(.stateRelease, 0, 12)] ∧
    (run samplePow (create 1 2)
        [.start (sampleNoteOn 0 5 0 60), .release (sampleRelease 4 5 0 60) 4, .processTo 16,
          .release { sampleRelease 16 5 0 60 with velocity := 1 / 2 } 16]).map
        (fun m1 => m1.notes.map (fun v => (v.state, v.velocity, v.age)))
      = some [(.stateUp, 1 / 2, 0)] := by
  refine ⟨?_, ?_, ?_, by decide!, by decide!⟩
  · simp [Note.matchNote, hid, hsame]
  · intro wildcard hw
    simp [Note.matchNote, hw, hrel]
  · obtain ⟨h1, h2, h3, -, -, -⟩ := releaseNote_effect request t n
    refine ⟨(releaseNote request t n).1, ?_, h1, h2, h3⟩
    simp only [release, releaseLoop_by_id_first t m.notes request hid i n hn hsame hfirst]

/-- C38 on the sample pool whose second voice (note id 6) is in state Release with velocity 0
and age 4: a release of note id 6 with velocity 1/2 puts it in state Up with velocity 1/2 and
age 0. -/
theorem C38_release_by_id_reaches_released_voice_witness :
    ((sampleVoice 1 6 0 61 0 .stateRelease 4 0).matchNote
        { sampleRelease 0 6 0 61 with velocity := 1 / 2 } = true ∧
      (∀ wildcard : Note, wildcard.noteId = -1 →
        (sampleVoice 1 6 0 61 0 .stateRelease 4 0).matchNote wildcard = false) ∧
      (∃ n1,
        (release sampleLegatoPool { sampleRelease 0 6 0 61 with velocity := 1 / 2 } 0).1.notes =
          sampleLegatoPool.notes.set 1 n1 ∧
        n1.state = .stateUp ∧
        n1.velocity = ({ sampleRelease 0 6 0 61 with velocity := 1 / 2 } : Note).velocity ∧
        n1.age = 0)) ∧
    (release sampleLegatoPool { sampleRelease 0 6 0 61 with velocity := 1 / 2 } 0).1.notes.map
        (fun v => (v.state, v.velocity, v.age))
      = [(.stateContinue, 1, 10), (.stateUp, 1 / 2, 0)] :=
  ⟨by
      obtain ⟨h1, h2, h3, -, -⟩ :=
        C38_release_by_id_reaches_released_voice sampleLegatoPool
          { sampleRelease 0 6 0 61 with velocity := 1 / 2 } 0 1
          (sampleVoice 1 6 0 61 0 .stateRelease 4 0) (by decide) rfl rfl (by decide) rfl
      exact ⟨h1, h2, h3⟩,
    by decide!⟩

/-! ## Ties in the kill cost -/

/-- The call `start` with a full pool when no voice stored before the picked one carries its
note id: the picked voice is the one `stop` removes, and the new voice takes its voice
index. -/
theorem start_steals_picked (P : Nat) (m : NoteManager) (newNote victim : Note) (h : Inv P m)
    (hP : 1 ≤ P) (hfull : m.notes.length ≥ m.capacity)
    (hv : m.notes[findKillIndex m.notes 0 0 10000000000]? = some victim)
    (hids : ∀ a ∈ m.notes.take (findKillIndex m.notes 0 0 10000000000),
      a.noteId ≠ victim.noteId) :
    start m newNote =
      some
        ({ m with
            tasks := [killNote victim newNote]
            notes :=
              removeNote
                  (m.notes.set (findKillIndex m.notes 0 0 10000000000)
                    (killNote victim newNote))
                  (findKillIndex m.notes 0 0 10000000000) ++
                [{ newNote with voiceIndex := victim.voiceIndex }]
            voiceIndexQueue := m.voiceIndexQueue },
          { newNote with voiceIndex := victim.voiceIndex },
          sendNoteEnd (killNote victim newNote)) := by
  obtain ⟨victim2, j, removed, hv2, hf, hs⟩ := start_at_capacity P m newNote h hP hfull
  rw [hv] at hv2
  simp only [Option.some.injEq] at hv2
  subst hv2
  obtain ⟨hk, hvk⟩ := List.getElem?_eq_some_iff.mp hv
  have hkid : (killNote victim newNote).noteId ≠ -1 := h.ids victim (List.getElem?_mem hv)
  have hfm : findMatch (killNote victim newNote)
      (m.notes.set (findKillIndex m.notes 0 0 10000000000) (killNote victim newNote)) 0 =
      some (0 + findKillIndex m.notes 0 0 10000000000, killNote victim newNote) := by
    apply findMatch_first
    · simp [List.getElem?_set, hk]
    · exact matchNote_self _ hkid
    · intro a ha
      rw [List.set_take, List.set_eq_of_length_le (by simp)] at ha
      have hne2 := hids a ha
      unfold Note.matchNote
      rw [if_pos hkid]
      have hid2 : (killNote victim newNote).noteId = victim.noteId := rfl
      simp [hid2, hne2]
  rw [hf] at hfm
  simp only [Nat.zero_add, Option.some.injEq, Prod.mk.injEq] at hfm
  obtain ⟨rfl, rfl⟩ := hfm
  exact hs

/-- C39, as stated, fails: at polyphony 3 three notes are started at time 0, the second and
third are released at time 0 and the first at time 1, and all are advanced to 2001, so the
pool holds voices in Release of ages 2000, 2001 and 2001, in that order.  The two voices that
share state and age have the least cost in exact arithmetic, but in `float` all three costs
are equal, and `start` steals the voice stored first, the one of age 2000. -/
theorem C39_rounded_tie_steals_younger_voice :
    (run samplePow (create 3 2)
        [.start (sampleNoteOn 0 4 0 59), .start (sampleNoteOn 0 5 0 60),
          .start (sampleNoteOn 0 6 0 61), .release (sampleRelease 0 5 0 60) 0,
          .release (sampleRelease 0 6 0 61) 0, .release (sampleRelease 1 4 0 59) 1,
          .processTo 2001]).map
        (fun m => m.notes.map (fun n => (n.noteId, n.state, n.age)))
      = some [(4, .stateRelease, 2000), (5, .stateRelease, 2001), (6, .stateRelease, 2001)] ∧
    (run samplePow (create 3 2)
        [.start (sampleNoteOn 0 4 0 59), .start (sampleNoteOn 0 5 0 60),
          .start (sampleNoteOn 0 6 0 61), .release (sampleRelease 0 5 0 60) 0,
          .release (sampleRelease 0 6 0 61) 0, .release (sampleRelease 1 4 0 59) 1,
          .processTo 2001]).map
        (fun m => m.notes.map (fun n => n.killCost))
      = some [1572995 / 262144, 1572995 / 262144, 1572995 / 262144] ∧
    (run samplePow (create 3 2)
        [.start (sampleNoteOn 0 4 0 59), .start (sampleNoteOn 0 5 0 60),
          .start (sampleNoteOn 0 6 0 61), .release (sampleRelease 0 5 0 60) 0,
          .release (sampleRelease 0 6 0 61) 0, .release (sampleRelease 1 4 0 59) 1,
          .processTo 2001, .start (sampleNoteOn 2001 7 0 62)]).map
        (fun m => (m.tasks.map (fun t => (t.noteId, t.state, t.age)),
          m.notes.map (fun n => (n.noteId, n.age))))
      = some ([(4, .stateKill, 2000)], [(6, 2001), (5, 2001), (7, 0)]) := by
  refine ⟨by decide!, by decide!, by decide!⟩

/-- C39, amended: with the kill cost computed in `float` as the source does, `start` on a full
pool (from a state that satisfies the invariant) marks and returns as its kill task the voice
at the position `k` the cost loop picks: that voice has the least cost, every voice stored
before it costs strictly more, so every voice that shares the least cost is stored at or
after position `k`.  Voices of the same state and age always share a cost (by rounding, so
can voices of different ages).  When no voice stored before position `k` carries the same
note id, the picked voice is the one removed, and the new voice takes its voice index. -/
theorem C39_start_steals_first_of_least_cost (P : Nat) (m : NoteManager) (newNote : Note)
    (h : Inv P m) (hP : 1 ≤ P) (hfull : m.notes.length ≥ m.polyphony) :
    ∃ victim r,
      m.notes[findKillIndex m.notes 0 0 10000000000]? = some victim ∧
      (∀ a ∈ m.notes, victim.killCost ≤ a.killCost) ∧
      (∀ j a, m.notes[j]? = some a → a.killCost = victim.killCost →
        findKillIndex m.notes 0 0 10000000000 ≤ j) ∧
      (∀ a b : Note, a.state = b.state → a.age = b.age → a.killCost = b.killCost) ∧
      start m newNote = some r ∧ r.1.tasks = [killNote victim newNote] ∧
      ((∀ a ∈ m.notes.take (findKillIndex m.notes 0 0 10000000000),
          a.noteId ≠ victim.noteId) →
        r.1.notes =
            removeNote
                (m.notes.set (findKillIndex m.notes 0 0 10000000000) (killNote victim newNote))
                (findKillIndex m.notes 0 0 10000000000) ++
              [{ newNote with voiceIndex := victim.voiceIndex }] ∧
          r.2.1.voiceIndex = victim.voiceIndex) := by
  obtain ⟨victim, j, removed, hv, hf, hs⟩ := start_at_capacity P m newNote h hP hfull
  have hne : m.notes ≠ [] := by
    intro hnil
    have := h.cap
    rw [hnil] at hfull
    simp [polyphony] at hfull
    omega
  obtain ⟨v, hv2, hmin, hbefore⟩ := findKillIndex_start m.notes hne
  rw [hv] at hv2
  simp only [Option.some.injEq] at hv2
  subst hv2
  refine ⟨victim, _, hv, hmin, ?_, killCost_congr, hs, rfl, ?_⟩
  · intro j2 a ha hcost
    by_contra hlt
    have := hbefore j2 (by omega) a ha
    rw [hcost] at this
    exact lt_irrefl _ this
  · intro hids
    have hs2 := start_steals_picked P m newNote victim h hP hfull hv hids
    rw [hs] at hs2
    simp only [Option.some.injEq, Prod.mk.injEq] at hs2
    obtain ⟨h1, h2, -⟩ := hs2
    rw [h1, h2]
    exact ⟨rfl, rfl⟩

/-- C39, amended, on a full pool of polyphony 3 whose three voices are all in state Continue
with age 10 (three notes started at time 0, advanced to 10, at the start of the next block):
the kill task is the voice stored first (voice index 0, note id 4), it is removed, and the new
voice takes voice index 0. -/
theorem C39_start_steals_first_of_least_cost_witness :
    (∃ victim r,
      sampleTiedPool.notes[findKillIndex sampleTiedPool.notes 0 0 10000000000]? = some victim ∧
      (∀ a ∈ sampleTiedPool.notes, victim.killCost ≤ a.killCost) ∧
      (∀ j a, sampleTiedPool.notes[j]? = some a → a.killCost = victim.killCost →
        findKillIndex sampleTiedPool.notes 0 0 10000000000 ≤ j) ∧
      (∀ a b : Note, a.state = b.state → a.age = b.age → a.killCost = b.killCost) ∧
      start sampleTiedPool (sampleCandidate 0 7 0 62) = some r ∧
      r.1.tasks = [killNote victim (sampleCandidate 0 7 0 62)] ∧
      ((∀ a ∈ sampleTiedPool.notes.take (findKillIndex sampleTiedPool.notes 0 0 10000000000),
          a.noteId ≠ victim.noteId) →
        r.1.notes =
            removeNote
                (sampleTiedPool.notes.set (findKillIndex sampleTiedPool.notes 0 0 10000000000)
                  (killNote victim (sampleCandidate 0 7 0 62)))
                (findKillIndex sampleTiedPool.notes 0 0 10000000000) ++
              [{ sampleCandidate 0 7 0 62 with voiceIndex := victim.voiceIndex }] ∧
          r.2.1.voiceIndex = victim.voiceIndex)) ∧
    (run samplePow (create 3 2)
        [.start (sampleNoteOn 0 4 0 59), .start (sampleNoteOn 0 5 0 60),
          .start (sampleNoteOn 0 6 0 61), .processTo 10, .startBlock]).map
        (fun m => (m.notes, m.voiceIndexQueue, m.capacity))
      = some (sampleTiedPool.notes, sampleTiedPool.voiceIndexQueue, sampleTiedPool.capacity) ∧
    (start sampleTiedPool (sampleCandidate 0 7 0 62)).map
        (fun r => (r.1.tasks.map (fun task => (task.voiceIndex, task.noteId, task.state)),
          r.1.notes.map (fun v => (v.voiceIndex, v.noteId)), r.2.1.voiceIndex))
      = some ([(0, 4, .stateKill)], [(2, 6), (1, 5), (0, 7)], 0) :=
  ⟨C39_start_steals_first_of_least_cost 3 sampleTiedPool (sampleCandidate 0 7 0 62)
      ⟨rfl, rfl, by decide, by decide⟩ (by decide) (by decide),
    by decide!, by decide!⟩

/-! ## Stealing when no earlier voice carries the picked voice's note id -/

theorem eraseIdx_set_self (l : List Note) (k : Nat) (x : Note) :
    (l.set k x).eraseIdx k = l.eraseIdx k := by
  induction l generalizing k with
  | nil => rfl
  | cons a rest ih =>
    cases k with
    | zero => rfl
    | succ k => simp only [List.set_cons_succ, List.eraseIdx_cons_succ, ih]

/-- In a list whose images under `f` are pairwise distinct, no element before position `k`
has the image of the element at position `k`. -/
theorem nodup_map_take_ne (f : Note → Int) (l : List Note) (k : Nat) (v : Note)
    (hv : l[k]? = some v) (hnd : (l.map f).Nodup) : ∀ a ∈ l.take k, f a ≠ f v := by
  intro a ha heq
  obtain ⟨hk, hvk⟩ := List.getElem?_eq_some_iff.mp hv
  have hsplit : l = l.take k ++ l.drop k := (List.take_append_drop k l).symm
  have hdrop : v ∈ l.drop k := by
    rw [List.drop_eq_getElem_cons hk, hvk]
    exact List.mem_cons_self _ _
  rw [hsplit, List.map_append] at hnd
  have hdis := List.disjoint_of_nodup_append hnd
  exact hdis (List.mem_map.mpr ⟨a, ha, rfl⟩) (List.mem_map.mpr ⟨v, hdrop, heq.symm⟩)

/-- In a list with pairwise distinct voice indices, the voices other than the one at
position `k` do not have its voice index. -/
theorem nodup_voiceIndex_eraseIdx (l : List Note) (k : Nat) (v : Note) (hv : l[k]? = some v)
    (hnd : (l.map (fun n => n.voiceIndex)).Nodup) :
    ∀ a ∈ l.eraseIdx k, a.voiceIndex ≠ v.voiceIndex := by
  intro a ha heq
  have hp := (perm_cons_eraseIdx l k v hv).map (fun n => n.voiceIndex)
  have hnd2 := (List.Perm.nodup_iff hp).mpr hnd
  rw [List.map_cons, List.nodup_cons] at hnd2
  exact hnd2.1 (List.mem_map.mpr ⟨a, ha, heq⟩)

/-- C4, amended: from a state that satisfies the invariant, `start` on a full pool returns the
voice `victim` the cost loop picks as its kill task; when no voice stored before it carries
its note id, which is so whenever the active voices carry pairwise distinct note ids, the
voices afterwards are the other voices as they were together with the new voice, stored
last, which has the voice index of the kill task, and the free-list is as it was; with
pairwise distinct voice indices the new voice is then the only one that has the voice index
of the kill task. -/
theorem C4_start_replaces_picked_voice (P : Nat) (m : NoteManager) (newNote : Note)
    (h : Inv P m) (hP : 1 ≤ P) (hfull : m.notes.length ≥ m.polyphony) :
    ∃ victim r,
      m.notes[findKillIndex m.notes 0 0 10000000000]? = some victim ∧
      start m newNote = some r ∧ r.1.tasks = [killNote victim newNote] ∧
      ((m.notes.map (fun n => n.noteId)).Nodup →
        ∀ a ∈ m.notes.take (findKillIndex m.notes 0 0 10000000000),
          a.noteId ≠ victim.noteId) ∧
      ((∀ a ∈ m.notes.take (findKillIndex m.notes 0 0 10000000000),
          a.noteId ≠ victim.noteId) →
        r.2.1 = { newNote with voiceIndex := (killNote victim newNote).voiceIndex } ∧
        r.1.notes.Perm
          (m.notes.eraseIdx (findKillIndex m.notes 0 0 10000000000) ++ [r.2.1]) ∧
        r.1.notes.getLast? = some r.2.1 ∧
        r.1.voiceIndexQueue = m.voiceIndexQueue ∧
        ((m.notes.map (fun n => n.voiceIndex)).Nodup →
          ∀ a ∈ r.1.notes, a.voiceIndex = (killNote victim newNote).voiceIndex → a = r.2.1)) := by
  obtain ⟨victim, j, removed, hv, hf, hs⟩ := start_at_capacity P m newNote h hP hfull
  refine ⟨victim, _, hv, hs, rfl, nodup_map_take_ne _ m.notes _ victim hv, ?_⟩
  intro hids
  have hs2 := start_steals_picked P m newNote victim h hP hfull hv hids
  rw [hs] at hs2
  simp only [Option.some.injEq, Prod.mk.injEq] at hs2
  obtain ⟨h1, h2, -⟩ := hs2
  obtain ⟨hk, hvk⟩ := List.getElem?_eq_some_iff.mp hv
  have hperm : (removeNote
      (m.notes.set (findKillIndex m.notes 0 0 10000000000) (killNote victim newNote))
      (findKillIndex m.notes 0 0 10000000000)).Perm
      (m.notes.eraseIdx (findKillIndex m.notes 0 0 10000000000)) := by
    have := removeNote_perm
      (m.notes.set (findKillIndex m.notes 0 0 10000000000) (killNote victim newNote))
      (findKillIndex m.notes 0 0 10000000000) (by simpa using hk)
    rw [eraseIdx_set_self] at this
    exact this
  rw [h1, h2]
  refine ⟨rfl, List.Perm.append_right _ hperm, by simp, rfl, ?_⟩
  intro hnd a ha hvi
  rcases List.mem_append.mp ha with ha1 | ha1
  · have ha2 := (List.Perm.mem_iff hperm).mp ha1
    exact absurd hvi (nodup_voiceIndex_eraseIdx m.notes _ victim hv hnd a ha2)
  · exact List.mem_singleton.mp ha1

/-- C4, amended, on the example of the claim: at polyphony 1 note A (note id 5) is active
and note B (note id 6) is started; the kill task is A's, and afterwards the only active voice
is B, holding A's voice index 0. -/
theorem C4_start_replaces_picked_voice_witness :
    (∃ victim r,
      sampleSinglePool.notes[findKillIndex sampleSinglePool.notes 0 0 10000000000]? =
        some victim ∧
      start sampleSinglePool (sampleCandidate 0 6 0 61) = some r ∧
      r.1.tasks = [killNote victim (sampleCandidate 0 6 0 61)] ∧
      ((sampleSinglePool.notes.map (fun n => n.noteId)).Nodup →
        ∀ a ∈ sampleSinglePool.notes.take
            (findKillIndex sampleSinglePool.notes 0 0 10000000000),
          a.noteId ≠ victim.noteId) ∧
      ((∀ a ∈ sampleSinglePool.notes.take
            (findKillIndex sampleSinglePool.notes 0 0 10000000000),
          a.noteId ≠ victim.noteId) →
        r.2.1 =
          { sampleCandidate 0 6 0 61 with
            voiceIndex := (killNote victim (sampleCandidate 0 6 0 61)).voiceIndex } ∧
        r.1.notes.Perm
          (sampleSinglePool.notes.eraseIdx
              (findKillIndex sampleSinglePool.notes 0 0 10000000000) ++ [r.2.1]) ∧
        r.1.notes.getLast? = some r.2.1 ∧
        r.1.voiceIndexQueue = sampleSinglePool.voiceIndexQueue ∧
        ((sampleSinglePool.notes.map (fun n => n.voiceIndex)).Nodup →
          ∀ a ∈ r.1.notes,
            a.voiceIndex = (killNote victim (sampleCandidate 0 6 0 61)).voiceIndex →
              a = r.2.1))) ∧
    (run samplePow (create 1 2) [.start (sampleNoteOn 0 5 0 60)]).map
        (fun m => (m.notes, m.voiceIndexQueue, m.capacity))
      = some (sampleSinglePool.notes, sampleSinglePool.voiceIndexQueue,
          sampleSinglePool.capacity) ∧
    (run samplePow (create 1 2)
        [.start (sampleNoteOn 0 5 0 60), .start (sampleNoteOn 0 6 0 61)]).map
        (fun m => (m.tasks.map (fun t => (t.voiceIndex, t.noteId, t.state)),
          m.notes.map (fun n => (n.voiceIndex, n.noteId, n.state))))
      = some ([(0, 5, .stateKill)], [(0, 6, .stateDown)]) :=
  ⟨C4_start_replaces_picked_voice 1 sampleSinglePool (sampleCandidate 0 6 0 61)
      ⟨rfl, rfl, by decide, by decide⟩ (by decide) (by decide),
    by decide!, by decide!⟩

/-! ## Tasks and cursors within a block -/

end NoteManager

end Signalsmith
